import Mathlib

/-!
# A hash-linked UTXO ledger (`blockchain/blockchain.go`)

Shallow embedding of the chain store, the chain iterator, the UTXO resolver, the spend
selection and the transaction locator and validator of `blockchain.go`, followed by the
properties established about them.

* Byte slices are lists of bytes, the key-value database is a finite map from keys to
  values, and a failed operation (a panic raised by `Handle`, by a nil dereference or by
  `runtime.Goexit`) is an `Except.error`.
* Loops that walk the chain take a fuel argument; `none` means that the fuel ran out,
  `some r` that the loop finished with result `r`.
* The block and transaction types, their codec and the hash functions live in other files
  of the repository; their shape is taken from the specification, and whatever the
  specification leaves open is a field of `Ext`.
-/

namespace Ledger

/-! ## Data model -/

/-- A Go byte slice `[]byte`. -/
abbrev Bytes := List (Fin 256)

/-- Modelled from the spec: the type `TxOutput` (declared outside `blockchain.go`), a value
and the public-key hash the output is locked to. -/
structure TxOutput where
  Value : Int
  PubKeyHash : Bytes
deriving DecidableEq, Repr

/-- Modelled from the spec: the type `TxInput` (declared outside `blockchain.go`), a
reference to output `Out` of the transaction `ID`, with the spender key and signature. -/
structure TxInput where
  ID : Bytes
  Out : Int
  Signature : Bytes
  PubKey : Bytes
deriving DecidableEq, Repr

/-- Modelled from the spec: the type `Transaction` (declared outside `blockchain.go`). -/
structure Transaction where
  ID : Bytes
  Inputs : List TxInput
  Outputs : List TxOutput
deriving DecidableEq, Repr

/-- Modelled from the spec: the type `Block` (declared outside `blockchain.go`); the field
names are the ones `blockchain.go` uses. -/
structure Block where
  Hash : Bytes
  TransActions : List Transaction
  PrevHash : Bytes
deriving DecidableEq, Repr

/-- The collaborators of `blockchain.go` that the specification leaves open: the block
codec, the digest that `CreateBlock` stores in `Hash`, the digest that names a transaction,
the hash of a public key, the decoding of an address and the coinbase reward. -/
structure Ext where
  Serialize : Block → Bytes
  Deserialize : Bytes → Option Block
  blockHash : List Transaction → Bytes → Bytes
  txHash : Transaction → Bytes
  PublicKeyHash : Bytes → Bytes
  addressKeyHash : String → Bytes
  reward : Int

/-- Modelled from the spec: `IsLockedWithKey` (defined outside `blockchain.go`), true iff
the lock of the output matches the hash. -/
def TxOutput.IsLockedWithKey (out : TxOutput) (pubKeyHash : Bytes) : Bool :=
  decide (out.PubKeyHash = pubKeyHash)

/-- Modelled from the spec: `UsesKey` (defined outside `blockchain.go`), true iff the input
carries `pubKeyHash` as its spender. -/
def TxInput.UsesKey (E : Ext) (inp : TxInput) (pubKeyHash : Bytes) : Bool :=
  decide (E.PublicKeyHash inp.PubKey = pubKeyHash)

/-- Modelled from the spec: `IsCoinbase` (defined outside `blockchain.go`), exactly one
input, which carries the empty "no previous transaction" reference. -/
def Transaction.IsCoinbase (tx : Transaction) : Bool :=
  match tx.Inputs with
  | [inp] => decide (inp.ID.length = 0)
  | _ => false

/-- The bytes of a Go string, `[]byte(s)`. -/
def stringBytes (s : String) : Bytes :=
  s.toList.map (fun c => (⟨c.toNat % 256, Nat.mod_lt _ (by decide)⟩ : Fin 256))

/-- Modelled from the spec: `CoinbaseTx` (defined outside `blockchain.go`), one input with
no previous transaction that carries the memo, one output paying the fixed reward. -/
def CoinbaseTx (E : Ext) (toAddr data : String) : Transaction :=
  let txin : TxInput := { ID := [], Out := -1, Signature := [], PubKey := stringBytes data }
  let txout : TxOutput := { Value := E.reward, PubKeyHash := E.addressKeyHash toAddr }
  let tx : Transaction := { ID := [], Inputs := [txin], Outputs := [txout] }
  { tx with ID := E.txHash tx }

/-- Modelled from the spec: `CreateBlock` (defined outside `blockchain.go`), a block with
the given transactions and previous hash, identified by its content-derived digest. -/
def CreateBlock (E : Ext) (txs : List Transaction) (prevHash : Bytes) : Block :=
  { Hash := E.blockHash txs prevHash, TransActions := txs, PrevHash := prevHash }

/-- Modelled from the spec: `Genesis` (defined outside `blockchain.go`), the block that
holds the coinbase transaction and has the empty previous hash. -/
def Genesis (E : Ext) (coinbase : Transaction) : Block :=
  CreateBlock E [coinbase] []

/-- The constant `genesisData`. -/
def genesisData : String := "First Transaction from Genesis"

/-! ## Failures and the key-value database -/

/-- The errors of a database transaction. -/
inductive DBError where
  | ErrEmptyKey
  | ErrKeyNotFound
  /-- The transaction has grown beyond the size the database accepts. -/
  | ErrTxnTooBig
  /-- The database could not commit the transaction. -/
  | ErrCommit
deriving DecidableEq, Repr

/-- The ways an operation of `blockchain.go` stops without a result. -/
inductive Crash where
  /-- The call `Handle(err)` received a non-nil error. -/
  | handle (e : DBError)
  /-- A method was called on the nil item that a failed `txn.Get` returned. -/
  | nilItem
  /-- The block decoder rejected the stored bytes. -/
  | decode
  /-- The ledger file exists already: `runtime.Goexit()`. -/
  | goexit
  /-- The call `Handle(err)` received the error `Transaction does not exist`. -/
  | txMissing
deriving DecidableEq, Repr

/-- The contents of the database: the value stored under each key. -/
abbrev Store := Bytes → Option Bytes

/-- A database without any key. -/
def emptyStore : Store := fun _ => none

/-- The key `[]byte("lh")` of the tip pointer. -/
def lhKey : Bytes := [108, 104]

/-- The call `txn.Get(key)` of the database library: it rejects the empty key with
`ErrEmptyKey`, reports a key it does not hold with `ErrKeyNotFound`, and returns a nil
item in both cases. -/
def txnGet (db : Store) (key : Bytes) : Except DBError Bytes :=
  if key = [] then .error .ErrEmptyKey
  else match db key with
    | some v => .ok v
    | none => .error .ErrKeyNotFound

/-- The call `txn.Set(key, val)` of the database library, which rejects the empty key
with `ErrEmptyKey`. -/
def txnSet (db : Store) (key val : Bytes) : Except DBError Store :=
  if key = [] then .error .ErrEmptyKey
  else .ok (fun k => if k = key then some val else db k)

/-- Modelled from the spec: `Handle` (defined outside `blockchain.go`), which aborts on a
non-nil error and does nothing otherwise. -/
def Handle {α : Type} (r : Except DBError α) : Except Crash α :=
  match r with
  | .ok a => .ok a
  | .error e => .error (.handle e)

/-! ## Chain store -/

/-- The struct `Blockchain`: the cached tip and the state of the database it points to. -/
structure Blockchain where
  lastHash : Bytes
  Database : Store

/-- The struct `BlockchainIterator`; its `Database` field points to the database of the
chain, whose current state is an argument of `Next`. -/
structure BlockchainIterator where
  CurrentHash : Bytes
deriving DecidableEq, Repr

/-- The function `InitBlockChain`; `dbExists` is the result of `DBexists()`. The local
variable `lastHash` is declared and stored in the handle but never assigned. -/
def InitBlockChain (E : Ext) (dbExists : Bool) (address : String) : Except Crash Blockchain :=
  let lastHash : Bytes := []
  if dbExists then .error .goexit
  else
    let db := emptyStore
    let cbtx := CoinbaseTx E address genesisData
    let genesis := Genesis E cbtx
    match Handle (txnSet db genesis.Hash (E.Serialize genesis)) with
    | .error c => .error c
    | .ok db1 =>
      match Handle (txnSet db1 lhKey genesis.Hash) with
      | .error c => .error c
      | .ok db2 => .ok { lastHash := lastHash, Database := db2 }

/-- The function `ContinueBlockChain`; `dbExists` is the result of `DBexists()` and `db`
the state of the database that is opened. -/
def ContinueBlockChain (dbExists : Bool) (db : Store) (_address : String) :
    Except Crash Blockchain :=
  if dbExists = false then .error .goexit
  else
    match Handle (txnGet db lhKey) with
    | .error c => .error c
    | .ok lastHash => .ok { lastHash := lastHash, Database := db }

/-- The method `AddBlock`. -/
def AddBlock (E : Ext) (chain : Blockchain) (transactions : List Transaction) :
    Except Crash Blockchain :=
  match Handle (txnGet chain.Database lhKey) with
  | .error c => .error c
  | .ok lastHash =>
    let newBlock := CreateBlock E transactions lastHash
    match Handle (txnSet chain.Database newBlock.Hash (E.Serialize newBlock)) with
    | .error c => .error c
    | .ok db1 =>
      match Handle (txnSet db1 lhKey newBlock.Hash) with
      | .error c => .error c
      | .ok db2 => .ok { lastHash := newBlock.Hash, Database := db2 }

/-! ## Chain iterator -/

/-- The method `Iterator`. -/
def Blockchain.Iterator (chain : Blockchain) : BlockchainIterator :=
  { CurrentHash := chain.lastHash }

/-- The method `Next`, on the database state `db`: the error of `txn.Get` is overwritten,
so a missing key shows as a call on the nil item. -/
def BlockchainIterator.Next (E : Ext) (db : Store) (iter : BlockchainIterator) :
    Except Crash (Block × BlockchainIterator) :=
  match txnGet db iter.CurrentHash with
  | .error _ => .error .nilItem
  | .ok encodedBlock =>
    match E.Deserialize encodedBlock with
    | none => .error .decode
    | some block => .ok (block, { CurrentHash := block.PrevHash })

/-! ## UTXO resolver -/

/-- A digit of the table `0123456789abcdef` of `encoding/hex`. -/
def hexDigit (n : Nat) : Char :=
  "0123456789abcdef".toList.getD n '0'

/-- The function `hex.EncodeToString`: two lower-case digits for every byte. -/
def EncodeToString (src : Bytes) : String :=
  String.mk (src.flatMap (fun b => [hexDigit (b.val / 16), hexDigit (b.val % 16)]))

/-- A Go map `map[string][]int`; a key without entry reads as the nil slice. -/
abbrev IndexMap := String → List Int

/-- The statement `m[key] = append(m[key], v)`. -/
def IndexMap.append (m : IndexMap) (key : String) (v : Int) : IndexMap :=
  fun k => if k = key then m k ++ [v] else m k

/-- The labelled loop `Outputs` of `FindUnspentTransactions`, from output index `outIdx`
on: an output whose index is recorded in `spent` (the value of `spentTXOs[txID]`) is
skipped, and every other output locked to the key appends the whole transaction. -/
def scanOutputs (pubKeyHash : Bytes) (tx : Transaction) (spent : List Int) :
    Nat → List TxOutput → List Transaction → List Transaction
  | _, [], unspentTxs => unspentTxs
  | outIdx, out :: rest, unspentTxs =>
    if (outIdx : Int) ∈ spent then scanOutputs pubKeyHash tx spent (outIdx + 1) rest unspentTxs
    else if out.IsLockedWithKey pubKeyHash then
      scanOutputs pubKeyHash tx spent (outIdx + 1) rest (unspentTxs ++ [tx])
    else scanOutputs pubKeyHash tx spent (outIdx + 1) rest unspentTxs

/-- The loop over `tx.Inputs` of `FindUnspentTransactions`: every input that uses the key
records the output it references. -/
def recordInputs (E : Ext) (pubKeyHash : Bytes) : List TxInput → IndexMap → IndexMap
  | [], spentTXOs => spentTXOs
  | inp :: rest, spentTXOs =>
    if inp.UsesKey E pubKeyHash then
      recordInputs E pubKeyHash rest (spentTXOs.append (EncodeToString inp.ID) inp.Out)
    else recordInputs E pubKeyHash rest spentTXOs

/-- The body of the loop over `block.TransActions` of `FindUnspentTransactions`. -/
def scanTx (E : Ext) (pubKeyHash : Bytes) (st : List Transaction × IndexMap)
    (tx : Transaction) : List Transaction × IndexMap :=
  let txID := EncodeToString tx.ID
  let unspentTxs := scanOutputs pubKeyHash tx (st.2 txID) 0 tx.Outputs st.1
  if tx.IsCoinbase = false then (unspentTxs, recordInputs E pubKeyHash tx.Inputs st.2)
  else (unspentTxs, st.2)

/-- The loop `for { block := iter.Next() ... }` of `FindUnspentTransactions`, with fuel. -/
def findUnspentLoop (E : Ext) (db : Store) (pubKeyHash : Bytes) :
    Nat → BlockchainIterator → List Transaction × IndexMap →
      Option (Except Crash (List Transaction))
  | 0, _, _ => none
  | fuel + 1, iter, st =>
    match iter.Next E db with
    | .error c => some (.error c)
    | .ok (block, iter1) =>
      let st1 := block.TransActions.foldl (scanTx E pubKeyHash) st
      if block.PrevHash.length = 0 then some (.ok st1.1)
      else findUnspentLoop E db pubKeyHash fuel iter1 st1

/-- The method `FindUnspentTransactions`. -/
def Blockchain.FindUnspentTransactions (E : Ext) (chain : Blockchain) (fuel : Nat)
    (pubKeyHash : Bytes) : Option (Except Crash (List Transaction)) :=
  findUnspentLoop E chain.Database pubKeyHash fuel chain.Iterator ([], fun _ => [])

/-- The two loops of `FindUTXO` over the unspent transactions. -/
def collectUTXO (pubKeyHash : Bytes) (unspentTransactions : List Transaction) :
    List TxOutput :=
  unspentTransactions.flatMap
    (fun tx => tx.Outputs.filter (fun out => out.IsLockedWithKey pubKeyHash))

/-- The method `FindUTXO`. -/
def Blockchain.FindUTXO (E : Ext) (chain : Blockchain) (fuel : Nat) (pubKeyHash : Bytes) :
    Option (Except Crash (List TxOutput)) :=
  match chain.FindUnspentTransactions E fuel pubKeyHash with
  | none => none
  | some (.error c) => some (.error c)
  | some (.ok unspentTransactions) => some (.ok (collectUTXO pubKeyHash unspentTransactions))

/-- Addition of Go `int` values, which wraps around at 64 bits. -/
def intAdd (a b : Int) : Int :=
  (a + b + 2 ^ 63) % 2 ^ 64 - 2 ^ 63

/-- The state of the selection loop: the amount accumulated, the selection, and whether
`break Work` was executed. -/
structure Selection where
  accumulated : Int
  unspentOuts : IndexMap
  stopped : Bool

/-- The inner loop of `FindSpendableOutput` over the outputs of one transaction, from
output index `outIdx` on. -/
def selectOutputs (pubKeyHash : Bytes) (amount : Int) (txID : String) :
    Nat → List TxOutput → Selection → Selection
  | _, [], s => s
  | outIdx, out :: rest, s =>
    if out.IsLockedWithKey pubKeyHash && decide (s.accumulated < amount) then
      let accumulated := intAdd s.accumulated out.Value
      let unspentOuts := s.unspentOuts.append txID outIdx
      if accumulated > amount then
        { accumulated := accumulated, unspentOuts := unspentOuts, stopped := true }
      else
        selectOutputs pubKeyHash amount txID (outIdx + 1) rest
          { accumulated := accumulated, unspentOuts := unspentOuts, stopped := false }
    else selectOutputs pubKeyHash amount txID (outIdx + 1) rest s

/-- The labelled loop `Work` of `FindSpendableOutput` over the unspent transactions. -/
def selectTxs (pubKeyHash : Bytes) (amount : Int) : List Transaction → Selection → Selection
  | [], s => s
  | tx :: rest, s =>
    let s1 := selectOutputs pubKeyHash amount (EncodeToString tx.ID) 0 tx.Outputs s
    if s1.stopped then s1 else selectTxs pubKeyHash amount rest s1

/-- The method `FindSpendableOutput`. -/
def Blockchain.FindSpendableOutput (E : Ext) (chain : Blockchain) (fuel : Nat)
    (pubKeyHash : Bytes) (amount : Int) : Option (Except Crash (Int × IndexMap)) :=
  match chain.FindUnspentTransactions E fuel pubKeyHash with
  | none => none
  | some (.error c) => some (.error c)
  | some (.ok unspentTxs) =>
    let s := selectTxs pubKeyHash amount unspentTxs
      { accumulated := 0, unspentOuts := fun _ => [], stopped := false }
    some (.ok (s.accumulated, s.unspentOuts))

/-! ## Transaction locator -/

/-- The outcome of `FindTransaction` once the walk ends: the transaction, or the error
`"Transaction does not exist"`. -/
abbrev Lookup := Option Transaction

/-- The loop of `FindTransaction`, with fuel: the first transaction of the walk whose ID
is byte-equal to `ID`. -/
def findTransactionLoop (E : Ext) (db : Store) (ID : Bytes) :
    Nat → BlockchainIterator → Option (Except Crash Lookup)
  | 0, _ => none
  | fuel + 1, iter =>
    match iter.Next E db with
    | .error c => some (.error c)
    | .ok (block, iter1) =>
      match block.TransActions.find? (fun tx => decide (tx.ID = ID)) with
      | some tx => some (.ok (some tx))
      | none =>
        if block.PrevHash.length = 0 then some (.ok none)
        else findTransactionLoop E db ID fuel iter1

/-- The method `FindTransaction`: `some (.ok (some tx))` is the return `*tx, nil` and
`some (.ok none)` the return with the error. -/
def Blockchain.FindTransaction (E : Ext) (chain : Blockchain) (fuel : Nat) (ID : Bytes) :
    Option (Except Crash Lookup) :=
  findTransactionLoop E chain.Database ID fuel chain.Iterator

/-! ## Chains built by the ledger API -/

/-- A sequence of `AddBlock` calls, one for each transaction list. -/
def AddBlocks (E : Ext) : Blockchain → List (List Transaction) → Except Crash Blockchain
  | chain, [] => .ok chain
  | chain, txs :: rest =>
    match AddBlock E chain txs with
    | .error c => .error c
    | .ok chain1 => AddBlocks E chain1 rest

/-- The call `InitBlockChain(address)` on a machine without ledger, followed by one
`AddBlock` call for each transaction list. -/
def buildChain (E : Ext) (address : String) (txss : List (List Transaction)) :
    Except Crash Blockchain :=
  match InitBlockChain E false address with
  | .error c => .error c
  | .ok chain => AddBlocks E chain txss

/-! ## A concrete instance of the collaborators

A length-prefixed block codec and small digests, used to run the ledger on concrete
chains. The codec is exact for byte slices and lists of fewer than 256 items and for
integers of magnitude below `2 ^ 64`, which covers the chains below. -/

namespace Sample

/-- A decoder that consumes a prefix of the input. -/
abbrev Decoder (α : Type) := Bytes → Option (α × Bytes)

/-- A byte slice, preceded by its length. -/
def putBytes (b : Bytes) : Bytes :=
  (⟨b.length % 256, Nat.mod_lt _ (by decide)⟩ : Fin 256) :: b

/-- Reads a byte slice written by `putBytes`. -/
def getBytes : Decoder Bytes
  | [] => none
  | n :: rest => if n.val ≤ rest.length then some (rest.take n.val, rest.drop n.val) else none

/-- An integer as a sign byte and eight magnitude bytes, most significant first. -/
def putInt (i : Int) : Bytes :=
  (if i < 0 then 1 else 0) ::
    (List.range 8).map (fun k =>
      (⟨i.natAbs / 256 ^ (7 - k) % 256, Nat.mod_lt _ (by decide)⟩ : Fin 256))

/-- Reads an integer written by `putInt`. -/
def getInt : Decoder Int
  | [] => none
  | s :: rest =>
    if 8 ≤ rest.length then
      let m : Nat := (rest.take 8).foldl (fun acc b => acc * 256 + b.val) 0
      some (if s = 1 then -(m : Int) else (m : Int), rest.drop 8)
    else none

/-- A list, preceded by its length. -/
def putList {α : Type} (put : α → Bytes) (l : List α) : Bytes :=
  (⟨l.length % 256, Nat.mod_lt _ (by decide)⟩ : Fin 256) :: l.flatMap put

/-- Reads `n` items. -/
def getMany {α : Type} (get : Decoder α) : Nat → Decoder (List α)
  | 0, bs => some ([], bs)
  | n + 1, bs =>
    match get bs with
    | none => none
    | some (a, rest) =>
      match getMany get n rest with
      | none => none
      | some (l, rest1) => some (a :: l, rest1)

/-- Reads a list written by `putList`. -/
def getList {α : Type} (get : Decoder α) : Decoder (List α)
  | [] => none
  | n :: rest => getMany get n.val rest

/-- The encoding of an output. -/
def putOutput (o : TxOutput) : Bytes :=
  putInt o.Value ++ putBytes o.PubKeyHash

/-- Reads an output. -/
def getOutput : Decoder TxOutput := fun bs =>
  match getInt bs with
  | none => none
  | some (v, r1) =>
    match getBytes r1 with
    | none => none
    | some (k, r2) => some ({ Value := v, PubKeyHash := k }, r2)

/-- The encoding of an input. -/
def putInput (i : TxInput) : Bytes :=
  putBytes i.ID ++ putInt i.Out ++ putBytes i.Signature ++ putBytes i.PubKey

/-- Reads an input. -/
def getInput : Decoder TxInput := fun bs =>
  match getBytes bs with
  | none => none
  | some (id, r1) =>
    match getInt r1 with
    | none => none
    | some (out, r2) =>
      match getBytes r2 with
      | none => none
      | some (sig, r3) =>
        match getBytes r3 with
        | none => none
        | some (key, r4) => some ({ ID := id, Out := out, Signature := sig, PubKey := key }, r4)

/-- The encoding of a transaction. -/
def putTx (tx : Transaction) : Bytes :=
  putBytes tx.ID ++ putList putInput tx.Inputs ++ putList putOutput tx.Outputs

/-- Reads a transaction. -/
def getTx : Decoder Transaction := fun bs =>
  match getBytes bs with
  | none => none
  | some (id, r1) =>
    match getList getInput r1 with
    | none => none
    | some (ins, r2) =>
      match getList getOutput r2 with
      | none => none
      | some (outs, r3) => some ({ ID := id, Inputs := ins, Outputs := outs }, r3)

/-- The encoding of a block. -/
def Serialize (b : Block) : Bytes :=
  putBytes b.Hash ++ putList putTx b.TransActions ++ putBytes b.PrevHash

/-- Reads a block; the whole input must be consumed. -/
def Deserialize (bs : Bytes) : Option Block :=
  match getBytes bs with
  | none => none
  | some (h, r1) =>
    match getList getTx r1 with
    | none => none
    | some (txs, r2) =>
      match getBytes r2 with
      | some (prev, []) => some { Hash := h, TransActions := txs, PrevHash := prev }
      | _ => none

/-- The collaborators of the examples: the length-prefixed codec, a block digest that
extends the previous hash by one byte, a transaction digest built from the locks of the
outputs, key hashes and addresses that are their own bytes, and the reward 100. -/
def ext : Ext where
  Serialize := Serialize
  Deserialize := Deserialize
  blockHash := fun _ prev => (⟨(prev.length + 1) % 256, Nat.mod_lt _ (by decide)⟩ : Fin 256) :: prev
  txHash := fun tx => 192 :: tx.Outputs.flatMap (fun o => o.PubKeyHash)
  PublicKeyHash := fun k => k
  addressKeyHash := stringBytes
  reward := 100

/-- The key hash of the address `"A"`. -/
def keyA : Bytes := [65]

/-- The key hash of the address `"B"`. -/
def keyB : Bytes := [66]

/-- The ID of the genesis coinbase transaction paying `"A"`. -/
def coinbaseID : Bytes := [192, 65]

/-- A transaction that spends the genesis coinbase output of `"A"` into two outputs that
are both locked to `"A"`. -/
def split : Transaction :=
  { ID := [1],
    Inputs := [{ ID := coinbaseID, Out := 0, Signature := [], PubKey := keyA }],
    Outputs := [{ Value := 30, PubKeyHash := keyA }, { Value := 70, PubKeyHash := keyA }] }

/-- A transaction that spends output 0 of `split` and pays `"B"`. -/
def payB : Transaction :=
  { ID := [2],
    Inputs := [{ ID := [1], Out := 0, Signature := [], PubKey := keyA }],
    Outputs := [{ Value := 30, PubKeyHash := keyB }] }

end Sample


/-! ## Walking the chain -/

/-- The blocks returned by `n` successive calls of `Next`, with the iterator left behind. -/
def walk (E : Ext) (db : Store) :
    Nat → BlockchainIterator → Except Crash (List Block × BlockchainIterator)
  | 0, iter => .ok ([], iter)
  | n + 1, iter =>
    match iter.Next E db with
    | .error c => .error c
    | .ok (block, iter1) =>
      match walk E db n iter1 with
      | .error c => .error c
      | .ok (blocks, iter2) => .ok (block :: blocks, iter2)

/-- The hash of the first block of a list, the empty hash for the empty list. -/
def tipHash (blocks : List Block) : Bytes :=
  match blocks with
  | [] => []
  | b :: _ => b.Hash

/-- The blocks, tip first, that `buildChain` creates: the genesis block, then one block
for each transaction list, linked to the block before it. -/
def chainBlocks (E : Ext) (address : String) (txss : List (List Transaction)) : List Block :=
  txss.foldl (fun blocks txs => CreateBlock E txs (tipHash blocks) :: blocks)
    [Genesis E (CoinbaseTx E address genesisData)]

/-- The database holds the blocks `blocks`, tip first, as a chain that starts at the key
`tip`: every block is stored under its hash in an encoding that decodes to it, every block
but the last names the hash of the next one, and the last one has the empty `PrevHash`. -/
def Linked (E : Ext) (db : Store) : Bytes → List Block → Prop
  | _, [] => False
  | tip, b :: rest =>
    b.Hash = tip ∧ txnGet db tip = .ok (E.Serialize b) ∧
      E.Deserialize (E.Serialize b) = some b ∧
      (match rest with
        | [] => b.PrevHash = []
        | _ :: _ => b.PrevHash ≠ [] ∧ Linked E db b.PrevHash rest)

/-- The ledger of the examples: initialised for the address `"A"`, then extended by one
block for each transaction list (the empty ledger if a step fails). -/
def Sample.ledger (txss : List (List Transaction)) : Blockchain :=
  match buildChain Sample.ext "A" txss with
  | .ok chain => chain
  | .error _ => { lastHash := [], Database := emptyStore }

/-- The state in which the walk of `FindUnspentTransactions` leaves the result list and
the spent map after the blocks `blocks`, visited in list order. -/
def scanBlocks (E : Ext) (pubKeyHash : Bytes) (blocks : List Block)
    (st : List Transaction × IndexMap) : List Transaction × IndexMap :=
  blocks.foldl (fun st1 block => block.TransActions.foldl (scanTx E pubKeyHash) st1) st

/-- The first transaction with the given ID among the transactions of `blocks`, in list
order. -/
def findInBlocks (ID : Bytes) (blocks : List Block) : Lookup :=
  (blocks.flatMap (fun block => block.TransActions)).find? (fun tx => decide (tx.ID = ID))

/-! ## Reference notions for the UTXO queries -/

/-- Whether some input of a non-coinbase transaction of `blocks` references output `idx`
of the transaction `ID`. -/
def referencedBy (blocks : List Block) (ID : Bytes) (idx : Nat) : Bool :=
  blocks.any (fun block => block.TransActions.any (fun tx =>
    !tx.IsCoinbase && tx.Inputs.any (fun inp => decide (inp.ID = ID) && decide (inp.Out = idx))))

/-- The unspent outputs of a key as the specification words them, by replay of the whole
chain: the outputs locked to the key that no input of a non-coinbase transaction of the
chain references, each taken once. -/
def specUnspentOutputs (blocks : List Block) (pubKeyHash : Bytes) : List TxOutput :=
  blocks.flatMap (fun block => block.TransActions.flatMap (fun tx =>
    (tx.Outputs.enum.filter (fun p =>
      p.2.IsLockedWithKey pubKeyHash && !referencedBy blocks tx.ID p.1)).map Prod.snd))

/-- Whether output `n` of the transaction exists and is locked to the key. -/
def lockedAt (pubKeyHash : Bytes) (tx : Transaction) (n : Nat) : Bool :=
  match tx.Outputs[n]? with
  | some out => out.IsLockedWithKey pubKeyHash
  | none => false

/-- How many times the list of unspent transactions presents, under the map key `key`, an
output of index `n` that is locked to the key hash. -/
def timesScanned (pubKeyHash : Bytes) (unspentTxs : List Transaction) (key : String)
    (n : Nat) : Nat :=
  unspentTxs.countP (fun tx => decide (EncodeToString tx.ID = key) && lockedAt pubKeyHash tx n)

/-! ## Signing and verification -/

/-- A Go map `map[string]Transaction`. -/
abbrev TxMap := String → Option Transaction

/-- The statement `m[key] = tx`. -/
def TxMap.insert (m : TxMap) (key : String) (tx : Transaction) : TxMap :=
  fun k => if k = key then some tx else m k

/-- The signature scheme of the transaction component (defined outside `blockchain.go`):
`Sign` returns the transaction with its signatures filled in, `Verify` the verdict. -/
structure Signer where
  Sign : Transaction → Bytes → TxMap → Transaction
  Verify : Transaction → TxMap → Bool

/-- The loop over `tx.Inputs` shared by `SignTransaction` and `VerifyTransaction`: every
input looks up the transaction it references, `Handle` aborts on the lookup error, and the
transaction found is stored under the hex encoding of its ID. -/
def lookupPrevTXs (E : Ext) (chain : Blockchain) (fuel : Nat) :
    List TxInput → TxMap → Option (Except Crash TxMap)
  | [], prevTXs => some (.ok prevTXs)
  | inp :: rest, prevTXs =>
    match chain.FindTransaction E fuel inp.ID with
    | none => none
    | some (.error c) => some (.error c)
    | some (.ok none) => some (.error .txMissing)
    | some (.ok (some prevTX)) =>
      lookupPrevTXs E chain fuel rest (prevTXs.insert (EncodeToString prevTX.ID) prevTX)

/-- The method `SignTransaction`; the result is the transaction after `tx.Sign`. -/
def Blockchain.SignTransaction (E : Ext) (S : Signer) (chain : Blockchain) (fuel : Nat)
    (tx : Transaction) (privKey : Bytes) : Option (Except Crash Transaction) :=
  match lookupPrevTXs E chain fuel tx.Inputs (fun _ => none) with
  | none => none
  | some (.error c) => some (.error c)
  | some (.ok prevTXs) => some (.ok (S.Sign tx privKey prevTXs))

/-- The method `VerifyTransaction`. -/
def Blockchain.VerifyTransaction (E : Ext) (S : Signer) (chain : Blockchain) (fuel : Nat)
    (tx : Transaction) : Option (Except Crash Bool) :=
  match lookupPrevTXs E chain fuel tx.Inputs (fun _ => none) with
  | none => none
  | some (.error c) => some (.error c)
  | some (.ok prevTXs) => some (.ok (S.Verify tx prevTXs))

/-! ## Appending under storage faults -/

/-- The storage faults that can hit one call of `AddBlock`: the error, if any, of the read
of `lh`, of the write of the block, of the write of `lh`, and of the commit. -/
structure Faults where
  getTip : Option DBError
  setBlock : Option DBError
  setTip : Option DBError
  commit : Option DBError

/-- The run without storage fault. -/
def Faults.none : Faults :=
  { getTip := Option.none, setBlock := Option.none, setTip := Option.none,
    commit := Option.none }

/-- A database call on which a storage fault may be injected. -/
def withFault {α : Type} (fault : Option DBError) (r : Except DBError α) : Except DBError α :=
  match fault with
  | some e => .error e
  | Option.none => r

/-- The method `AddBlock` with the handle and the database as they are when the call ends:
the second component is `none` after a return and the abort otherwise. The writes of the
`Update` closure reach the database only when the closure returns nil and the commit
succeeds, while `chain.lastHash` is assigned inside the closure, before the result of the
write of `lh` is looked at. -/
def AddBlockWithFaults (E : Ext) (faults : Faults) (chain : Blockchain)
    (transactions : List Transaction) : Blockchain × Option Crash :=
  match Handle (withFault faults.getTip (txnGet chain.Database lhKey)) with
  | .error c => (chain, some c)
  | .ok lastHash =>
    let newBlock := CreateBlock E transactions lastHash
    match Handle (withFault faults.setBlock
        (txnSet chain.Database newBlock.Hash (E.Serialize newBlock))) with
    | .error c => (chain, some c)
    | .ok db1 =>
      let chain1 : Blockchain := { lastHash := newBlock.Hash, Database := chain.Database }
      match Handle (withFault faults.setTip (txnSet db1 lhKey newBlock.Hash)) with
      | .error c => (chain1, some c)
      | .ok db2 =>
        match Handle (withFault faults.commit (.ok db2)) with
        | .error c => (chain1, some c)
        | .ok db3 => ({ lastHash := newBlock.Hash, Database := db3 }, Option.none)

/-- The digits of `encoding/hex` read back: the position of a character in the table. -/
def unhexDigit (c : Char) : Nat :=
  "0123456789abcdef".toList.indexOf c

/-- The signature scheme of the examples: signing writes the key into every input, and
verification accepts coinbase transactions and transactions all of whose inputs have their
previous transaction in the map. -/
def Sample.signer : Signer where
  Sign := fun tx privKey _ =>
    { tx with Inputs := tx.Inputs.map (fun inp => { inp with Signature := privKey }) }
  Verify := fun tx prevTXs =>
    tx.IsCoinbase || tx.Inputs.all (fun inp => (prevTXs (EncodeToString inp.ID)).isSome)

/-- A transaction that spends the genesis coinbase output of `"A"` into 30 for `"B"` and 70
of change for `"A"`. -/
def Sample.pay : Transaction :=
  { ID := [4],
    Inputs := [{ ID := Sample.coinbaseID, Out := 0, Signature := [], PubKey := Sample.keyA }],
    Outputs := [{ Value := 30, PubKeyHash := Sample.keyB },
      { Value := 70, PubKeyHash := Sample.keyA }] }

/-! ## Reference notions for the walk of the resolver -/

/-- The transactions of the chain in the order in which the walk of
`FindUnspentTransactions` visits them: blocks from tip to genesis, the transactions of a
block in their order. -/
def walkOrder (blocks : List Block) : List Transaction :=
  blocks.flatMap (fun block => block.TransActions)

/-- Whether output `i` under the map key `key` has been recorded as spent by the
transactions `visited`: some non-coinbase transaction among them has an input that uses
the key hash, names a transaction ID with hex encoding `key`, and names the index `i`. -/
def recordedBefore (E : Ext) (pubKeyHash : Bytes) (visited : List Transaction)
    (key : String) (i : Int) : Bool :=
  visited.any (fun tx => !tx.IsCoinbase && tx.Inputs.any (fun inp =>
    inp.UsesKey E pubKeyHash && decide (EncodeToString inp.ID = key) && decide (inp.Out = i)))

/-- The number of output indices of `tx` whose output is locked to the key hash and has
not been recorded as spent by the transactions `visited`. -/
def copiesOf (E : Ext) (pubKeyHash : Bytes) (visited : List Transaction) (tx : Transaction) :
    Nat :=
  (List.range tx.Outputs.length).countP (fun i =>
    lockedAt pubKeyHash tx i &&
      !recordedBefore E pubKeyHash visited (EncodeToString tx.ID) (i : Int))

/-- The result of `FindUnspentTransactions` as the specification words it: every
transaction of the walk, in order, repeated once for each of its outputs that is locked to
the key hash and not recorded as spent by the transactions visited before it. -/
def specUnspentTransactions (E : Ext) (pubKeyHash : Bytes) :
    List Transaction → List Transaction → List Transaction
  | _, [] => []
  | visited, tx :: rest =>
    List.replicate (copiesOf E pubKeyHash visited tx) tx ++
      specUnspentTransactions E pubKeyHash (visited ++ [tx]) rest

/-- The block of index `q` (counted from the tip) holds the transaction `tx`. -/
def txAt (blocks : List Block) (q : Nat) (tx : Transaction) : Prop :=
  ∃ b, blocks[q]? = some b ∧ tx ∈ b.TransActions

/-- A transaction that spends the genesis coinbase output of `"A"` into one output for
`"A"`. -/
def Sample.relay : Transaction :=
  { ID := [6],
    Inputs := [{ ID := Sample.coinbaseID, Out := 0, Signature := [], PubKey := Sample.keyA }],
    Outputs := [{ Value := 100, PubKeyHash := Sample.keyA }] }

/-- A transaction that spends the output of `Sample.relay` and pays `"B"`. -/
def Sample.drain : Transaction :=
  { ID := [7],
    Inputs := [{ ID := [6], Out := 0, Signature := [], PubKey := Sample.keyA }],
    Outputs := [{ Value := 100, PubKeyHash := Sample.keyB }] }

/-! ## Spend selection: the values added, and the loop without `break Work` -/

/-- The state of the selection loop together with the values added so far, in order. -/
structure SelectionTrace where
  selection : Selection
  added : List Int

/-- The inner loop of `FindSpendableOutput` as in `selectOutputs`, which also notes every
value added by `accumulated += out.Value`. -/
def selectOutputsTrace (pubKeyHash : Bytes) (amount : Int) (txID : String) :
    Nat → List TxOutput → SelectionTrace → SelectionTrace
  | _, [], s => s
  | outIdx, out :: rest, s =>
    if out.IsLockedWithKey pubKeyHash && decide (s.selection.accumulated < amount) then
      let accumulated := intAdd s.selection.accumulated out.Value
      let unspentOuts := s.selection.unspentOuts.append txID outIdx
      if accumulated > amount then
        { selection :=
            { accumulated := accumulated, unspentOuts := unspentOuts, stopped := true },
          added := s.added ++ [out.Value] }
      else
        selectOutputsTrace pubKeyHash amount txID (outIdx + 1) rest
          { selection :=
              { accumulated := accumulated, unspentOuts := unspentOuts, stopped := false },
            added := s.added ++ [out.Value] }
    else selectOutputsTrace pubKeyHash amount txID (outIdx + 1) rest s

/-- The loop `Work` of `FindSpendableOutput` as in `selectTxs`, with the values added. -/
def selectTxsTrace (pubKeyHash : Bytes) (amount : Int) :
    List Transaction → SelectionTrace → SelectionTrace
  | [], s => s
  | tx :: rest, s =>
    let s1 := selectOutputsTrace pubKeyHash amount (EncodeToString tx.ID) 0 tx.Outputs s
    if s1.selection.stopped then s1 else selectTxsTrace pubKeyHash amount rest s1

/-- The inner loop of `FindSpendableOutput` with the statement `break Work` removed. -/
def selectOutputsNoBreak (pubKeyHash : Bytes) (amount : Int) (txID : String) :
    Nat → List TxOutput → Selection → Selection
  | _, [], s => s
  | outIdx, out :: rest, s =>
    if out.IsLockedWithKey pubKeyHash && decide (s.accumulated < amount) then
      selectOutputsNoBreak pubKeyHash amount txID (outIdx + 1) rest
        { accumulated := intAdd s.accumulated out.Value,
          unspentOuts := s.unspentOuts.append txID outIdx, stopped := false }
    else selectOutputsNoBreak pubKeyHash amount txID (outIdx + 1) rest s

/-- The loop `Work` of `FindSpendableOutput` with the statement `break Work` removed. -/
def selectTxsNoBreak (pubKeyHash : Bytes) (amount : Int) :
    List Transaction → Selection → Selection
  | [], s => s
  | tx :: rest, s =>
    selectTxsNoBreak pubKeyHash amount rest
      (selectOutputsNoBreak pubKeyHash amount (EncodeToString tx.ID) 0 tx.Outputs s)

/-- The values that a scan adds, starting from `acc`: each value in turn while the
accumulated amount, in 64-bit arithmetic, is below `amount`. -/
def greedyTake (amount : Int) : Int → List Int → List Int
  | _, [] => []
  | acc, v :: vs => if acc < amount then v :: greedyTake amount (intAdd acc v) vs else []

/-- The accumulated amount, in 64-bit arithmetic, after the values of `greedyTake`. -/
def greedySum (amount : Int) : Int → List Int → Int
  | acc, [] => acc
  | acc, v :: vs => if acc < amount then greedySum amount (intAdd acc v) vs else acc

/-- The sum of Go `int` values as repeated `accumulated += v` computes it from 0, in
64-bit arithmetic. -/
def intSum (vals : List Int) : Int :=
  vals.foldl intAdd 0

/-- The values of the outputs that `FindUTXO` returns for the unspent transactions. -/
def utxoValues (pubKeyHash : Bytes) (unspentTxs : List Transaction) : List Int :=
  (collectUTXO pubKeyHash unspentTxs).map TxOutput.Value

/-- A transaction that spends the genesis coinbase output of `"A"` into `2 ^ 62` for `"A"`
and 1 for `"B"`. -/
def Sample.rich1 : Transaction :=
  { ID := [8],
    Inputs := [{ ID := Sample.coinbaseID, Out := 0, Signature := [], PubKey := Sample.keyA }],
    Outputs := [{ Value := 4611686018427387904, PubKeyHash := Sample.keyA },
      { Value := 1, PubKeyHash := Sample.keyB }] }

/-- A transaction that spends output 1 of `Sample.rich1` into `2 ^ 62` for `"A"`. -/
def Sample.rich2 : Transaction :=
  { ID := [9],
    Inputs := [{ ID := [8], Out := 1, Signature := [], PubKey := Sample.keyB }],
    Outputs := [{ Value := 4611686018427387904, PubKeyHash := Sample.keyA }] }

/-! # Properties -/

/-! ## Database and iterator lemmas -/

theorem txnGet_ok_iff (db : Store) (key v : Bytes) :
    txnGet db key = .ok v ↔ key ≠ [] ∧ db key = some v := by
  unfold txnGet
  by_cases hk : key = []
  · simp [hk]
  · cases hv : db key <;> simp [hk, hv]

theorem txnGet_nil (db : Store) : txnGet db [] = .error .ErrEmptyKey := by
  simp [txnGet]

theorem Next_ok_iff (E : Ext) (db : Store) (iter : BlockchainIterator) (b : Block)
    (it1 : BlockchainIterator) :
    iter.Next E db = .ok (b, it1) ↔
      (∃ v, txnGet db iter.CurrentHash = .ok v ∧ E.Deserialize v = some b) ∧
        it1 = { CurrentHash := b.PrevHash } := by
  unfold BlockchainIterator.Next
  cases hg : txnGet db iter.CurrentHash with
  | error e => simp
  | ok v =>
    cases hd : E.Deserialize v with
    | none => simp [hd]
    | some b1 =>
      simp only [Except.ok.injEq, Prod.mk.injEq, exists_eq_left', hd, Option.some.injEq]
      constructor
      · rintro ⟨rfl, rfl⟩; exact ⟨rfl, rfl⟩
      · rintro ⟨rfl, rfl⟩; exact ⟨rfl, rfl⟩

theorem Next_of_stored (E : Ext) (db : Store) (key : Bytes) (b : Block)
    (hget : txnGet db key = .ok (E.Serialize b))
    (hdec : E.Deserialize (E.Serialize b) = some b) :
    BlockchainIterator.Next E db { CurrentHash := key } =
      .ok (b, { CurrentHash := b.PrevHash }) :=
  (Next_ok_iff E db _ b _).2 ⟨⟨_, hget, hdec⟩, rfl⟩

theorem AddBlock_ok_iff (E : Ext) (chain c1 : Blockchain) (txs : List Transaction) :
    AddBlock E chain txs = .ok c1 ↔
      ∃ tip, txnGet chain.Database lhKey = .ok tip ∧
        (CreateBlock E txs tip).Hash ≠ [] ∧
        c1 = { lastHash := (CreateBlock E txs tip).Hash,
               Database := fun k =>
                 if k = lhKey then some (CreateBlock E txs tip).Hash
                 else if k = (CreateBlock E txs tip).Hash then
                   some (E.Serialize (CreateBlock E txs tip))
                 else chain.Database k } := by
  unfold AddBlock
  cases hg : txnGet chain.Database lhKey with
  | error e => simp [Handle]
  | ok tip =>
    simp only [Handle, Except.ok.injEq, exists_eq_left']
    by_cases hk : (CreateBlock E txs tip).Hash = []
    · simp [txnSet, hk]
    · have hl : lhKey ≠ [] := by decide
      simp only [txnSet, hk, hl, if_false, Handle, Except.ok.injEq]
      constructor
      · rintro rfl; exact ⟨hk, rfl⟩
      · rintro ⟨_, rfl⟩; rfl

theorem InitBlockChain_ok_iff (E : Ext) (address : String) (c : Blockchain) :
    InitBlockChain E false address = .ok c ↔
      (Genesis E (CoinbaseTx E address genesisData)).Hash ≠ [] ∧
        c = { lastHash := [],
              Database := fun k =>
                if k = lhKey then some (Genesis E (CoinbaseTx E address genesisData)).Hash
                else if k = (Genesis E (CoinbaseTx E address genesisData)).Hash then
                  some (E.Serialize (Genesis E (CoinbaseTx E address genesisData)))
                else none } := by
  unfold InitBlockChain
  by_cases hk : (Genesis E (CoinbaseTx E address genesisData)).Hash = []
  · simp [txnSet, hk, Handle]
  · have hl : lhKey ≠ [] := by decide
    simp only [txnSet, hk, hl, if_false, Handle, Except.ok.injEq, emptyStore,
      Bool.false_eq_true]
    constructor
    · rintro rfl; exact ⟨hk, rfl⟩
    · rintro ⟨_, rfl⟩; rfl

theorem InitBlockChain_persists_genesis_aux (E : Ext) (address : String) (c : Blockchain)
    (hinit : InitBlockChain E false address = .ok c)
    (hlh : (Genesis E (CoinbaseTx E address genesisData)).Hash ≠ lhKey) :
    txnGet c.Database lhKey = .ok (Genesis E (CoinbaseTx E address genesisData)).Hash ∧
      txnGet c.Database (Genesis E (CoinbaseTx E address genesisData)).Hash =
        .ok (E.Serialize (Genesis E (CoinbaseTx E address genesisData))) ∧
      c.lastHash = [] := by
  obtain ⟨hne, rfl⟩ := (InitBlockChain_ok_iff E address c).1 hinit
  refine ⟨?_, ?_, rfl⟩
  · rw [txnGet_ok_iff]
    exact ⟨by decide, by simp⟩
  · rw [txnGet_ok_iff]
    exact ⟨hne, by simp [hlh]⟩

/-! ## Chain iterator -/

/-- C9: `Next` returns a block exactly when the database holds, under the current hash of
the iterator, bytes that decode to a block; the block returned is that decoding and the
iterator moves to its `PrevHash`; in every other case `Next` stops with a failure and
returns no block. `Next` only reads the database: it has no database result. -/
theorem Next_succeeds_iff_block_stored (E : Ext) (db : Store) (iter : BlockchainIterator) :
    ((∃ b it1, iter.Next E db = .ok (b, it1)) ↔
        ∃ v b, txnGet db iter.CurrentHash = .ok v ∧ E.Deserialize v = some b) ∧
      (∀ b it1, iter.Next E db = .ok (b, it1) ↔
        (∃ v, txnGet db iter.CurrentHash = .ok v ∧ E.Deserialize v = some b) ∧
          it1 = { CurrentHash := b.PrevHash }) ∧
      ((¬ ∃ v b, txnGet db iter.CurrentHash = .ok v ∧ E.Deserialize v = some b) →
        ∃ c, iter.Next E db = .error c) := by
  refine ⟨?_, fun b it1 => Next_ok_iff E db iter b it1, ?_⟩
  · constructor
    · rintro ⟨b, it1, h⟩
      obtain ⟨⟨v, hv, hd⟩, _⟩ := (Next_ok_iff E db iter b it1).1 h
      exact ⟨v, b, hv, hd⟩
    · rintro ⟨v, b, hv, hd⟩
      exact ⟨b, _, (Next_ok_iff E db iter b _).2 ⟨⟨v, hv, hd⟩, rfl⟩⟩
  · intro hno
    cases h : iter.Next E db with
    | error c => exact ⟨c, rfl⟩
    | ok r =>
      obtain ⟨b, it1⟩ := r
      obtain ⟨⟨v, hv, hd⟩, _⟩ := (Next_ok_iff E db iter b it1).1 h
      exact absurd ⟨v, b, hv, hd⟩ hno

/-- C10: once `Next` has returned a block with empty `PrevHash` (the genesis block), the
next call of `Next` on that iterator stops with a failure, whatever the database holds
by then: it returns no block. -/
theorem Next_after_genesis_fails (E : Ext) (db : Store) (iter it1 : BlockchainIterator)
    (b : Block) (hnext : iter.Next E db = .ok (b, it1)) (hgen : b.PrevHash = [])
    (db1 : Store) : it1.Next E db1 = .error .nilItem := by
  obtain ⟨_, rfl⟩ := (Next_ok_iff E db iter b it1).1 hnext
  simp [BlockchainIterator.Next, hgen, txnGet_nil]

/-! ## Chain store -/

/-- C7: the handle that `InitBlockChain` returns caches the empty hash, not the hash of the
genesis block it persisted, and `Next` on an iterator of that handle stops with a failure
instead of returning the genesis block. -/
theorem InitBlockChain_caches_empty_tip (E : Ext) (address : String) (c : Blockchain)
    (hinit : InitBlockChain E false address = .ok c) :
    c.lastHash = [] ∧
      c.lastHash ≠ (Genesis E (CoinbaseTx E address genesisData)).Hash ∧
      txnGet c.Database lhKey = .ok (Genesis E (CoinbaseTx E address genesisData)).Hash ∧
      c.Iterator.Next E c.Database = .error .nilItem := by
  obtain ⟨hne, rfl⟩ := (InitBlockChain_ok_iff E address c).1 hinit
  refine ⟨rfl, fun h => hne h.symm, ?_, ?_⟩
  · rw [txnGet_ok_iff]
    exact ⟨by decide, by simp⟩
  · simp [Blockchain.Iterator, BlockchainIterator.Next, txnGet_nil]

/-- The failing run of C7 on the sample collaborators, for the address `"A"`. -/
theorem InitBlockChain_caches_empty_tip_witness :
    InitBlockChain Sample.ext false "A" = .ok (Sample.ledger []) ∧
      (Sample.ledger []).lastHash = [] ∧
      (Sample.ledger []).lastHash ≠
        (Genesis Sample.ext (CoinbaseTx Sample.ext "A" genesisData)).Hash ∧
      txnGet (Sample.ledger []).Database lhKey =
        .ok (Genesis Sample.ext (CoinbaseTx Sample.ext "A" genesisData)).Hash ∧
      (Sample.ledger []).Iterator.Next Sample.ext (Sample.ledger []).Database =
        .error .nilItem :=
  ⟨rfl, InitBlockChain_caches_empty_tip Sample.ext "A" (Sample.ledger []) rfl⟩

/-- C8: after `InitBlockChain(address)` succeeds on a machine without ledger, the database
holds the hash of the block `Genesis(CoinbaseTx(address, genesisData))` under the key
`lh` and the encoding of that block under that hash; the block read back from the
persisted tip has empty `PrevHash` and exactly one transaction, the coinbase transaction
whose single output pays the reward to `address`. The hash of the genesis block is
assumed to differ from the key `lh`, and the codec to decode the encoding of the genesis
block to that block. -/
theorem InitBlockChain_persists_genesis (E : Ext) (address : String) (c : Blockchain)
    (hinit : InitBlockChain E false address = .ok c)
    (hlh : (Genesis E (CoinbaseTx E address genesisData)).Hash ≠ lhKey)
    (hcodec : E.Deserialize (E.Serialize (Genesis E (CoinbaseTx E address genesisData))) =
      some (Genesis E (CoinbaseTx E address genesisData))) :
    txnGet c.Database lhKey = .ok (Genesis E (CoinbaseTx E address genesisData)).Hash ∧
      txnGet c.Database (Genesis E (CoinbaseTx E address genesisData)).Hash =
        .ok (E.Serialize (Genesis E (CoinbaseTx E address genesisData))) ∧
      ∃ tip b it1, txnGet c.Database lhKey = .ok tip ∧
        BlockchainIterator.Next E c.Database { CurrentHash := tip } = .ok (b, it1) ∧
        b.PrevHash = [] ∧
        b.TransActions = [CoinbaseTx E address genesisData] ∧
        (CoinbaseTx E address genesisData).IsCoinbase = true ∧
        (CoinbaseTx E address genesisData).Outputs =
          [{ Value := E.reward, PubKeyHash := E.addressKeyHash address }] := by
  obtain ⟨h1, h2, _⟩ := InitBlockChain_persists_genesis_aux E address c hinit hlh
  refine ⟨h1, h2, _, _, _, h1, Next_of_stored E _ _ _ h2 hcodec, rfl, rfl, ?_, rfl⟩
  simp [CoinbaseTx, Transaction.IsCoinbase]

/-- The run of C8 on the sample collaborators, for the address `"A"`. -/
theorem InitBlockChain_persists_genesis_witness :
    InitBlockChain Sample.ext false "A" = .ok (Sample.ledger []) ∧
      txnGet (Sample.ledger []).Database lhKey = .ok [1] ∧
      txnGet (Sample.ledger []).Database [1] =
        .ok (Sample.Serialize (Genesis Sample.ext (CoinbaseTx Sample.ext "A" genesisData))) ∧
      ∃ tip b it1, txnGet (Sample.ledger []).Database lhKey = .ok tip ∧
        BlockchainIterator.Next Sample.ext (Sample.ledger []).Database
          { CurrentHash := tip } = .ok (b, it1) ∧
        b.PrevHash = [] ∧
        b.TransActions = [CoinbaseTx Sample.ext "A" genesisData] ∧
        (CoinbaseTx Sample.ext "A" genesisData).IsCoinbase = true ∧
        (CoinbaseTx Sample.ext "A" genesisData).Outputs =
          [{ Value := 100, PubKeyHash := [65] }] :=
  ⟨rfl, InitBlockChain_persists_genesis Sample.ext "A" (Sample.ledger []) rfl (by decide)
    (by decide)⟩

/-- C5: when `AddBlock(txs)` succeeds on a database whose key `lh` held `tip`, the first
block that `Next` returns on a fresh `Iterator()` is `CreateBlock(txs, tip)`, its
`PrevHash` is `tip`, and both the value persisted under `lh` and the cached `lastHash` are
the hash of the new block. The hash of the new block is assumed to differ from the key
`lh`, and the codec to decode the encoding of the new block to that block. -/
theorem AddBlock_appends_at_tip (E : Ext) (chain c1 : Blockchain) (txs : List Transaction)
    (tip : Bytes) (htip : txnGet chain.Database lhKey = .ok tip)
    (hadd : AddBlock E chain txs = .ok c1)
    (hlh : (CreateBlock E txs tip).Hash ≠ lhKey)
    (hcodec : E.Deserialize (E.Serialize (CreateBlock E txs tip)) =
      some (CreateBlock E txs tip)) :
    c1.Iterator.Next E c1.Database = .ok (CreateBlock E txs tip, { CurrentHash := tip }) ∧
      (CreateBlock E txs tip).PrevHash = tip ∧
      txnGet c1.Database lhKey = .ok (CreateBlock E txs tip).Hash ∧
      c1.lastHash = (CreateBlock E txs tip).Hash := by
  obtain ⟨tip1, htip1, hne, rfl⟩ := (AddBlock_ok_iff E chain c1 txs).1 hadd
  obtain rfl : tip1 = tip := by
    rw [htip] at htip1
    exact (Except.ok.inj htip1).symm
  refine ⟨?_, rfl, ?_, rfl⟩
  · refine Next_of_stored E _ _ _ ?_ hcodec
    rw [txnGet_ok_iff]
    exact ⟨hne, by simp [hlh]⟩
  · rw [txnGet_ok_iff]
    exact ⟨by decide, by simp⟩

/-- The run of C5 on the sample chain: the block holding `Sample.split` is appended to the
freshly initialised ledger of `"A"`. -/
theorem AddBlock_appends_at_tip_witness :
    InitBlockChain Sample.ext false "A" = .ok (Sample.ledger []) ∧
      AddBlock Sample.ext (Sample.ledger []) [Sample.split] = .ok (Sample.ledger [[Sample.split]]) ∧
      txnGet (Sample.ledger []).Database lhKey = .ok [1] ∧
      (Sample.ledger [[Sample.split]]).Iterator.Next Sample.ext
          (Sample.ledger [[Sample.split]]).Database =
        .ok (CreateBlock Sample.ext [Sample.split] [1], { CurrentHash := [1] }) ∧
      (CreateBlock Sample.ext [Sample.split] [1]).PrevHash = [1] ∧
      txnGet (Sample.ledger [[Sample.split]]).Database lhKey =
        .ok (CreateBlock Sample.ext [Sample.split] [1]).Hash ∧
      (Sample.ledger [[Sample.split]]).lastHash =
        (CreateBlock Sample.ext [Sample.split] [1]).Hash :=
  ⟨rfl, rfl, rfl,
    AddBlock_appends_at_tip Sample.ext (Sample.ledger []) (Sample.ledger [[Sample.split]])
      [Sample.split] [1] rfl rfl (by decide) (by decide)⟩

/-- The run of C10 on the sample ledger of `"A"`: `Next` returns the genesis block from
the persisted tip, and the call after it fails. -/
theorem Next_after_genesis_fails_witness :
    BlockchainIterator.Next Sample.ext (Sample.ledger []).Database { CurrentHash := [1] } =
        .ok (Genesis Sample.ext (CoinbaseTx Sample.ext "A" genesisData), { CurrentHash := [] }) ∧
      (Genesis Sample.ext (CoinbaseTx Sample.ext "A" genesisData)).PrevHash = [] ∧
      BlockchainIterator.Next Sample.ext (Sample.ledger [[Sample.split]]).Database
        { CurrentHash := [] } = .error .nilItem :=
  ⟨rfl, rfl,
    Next_after_genesis_fails Sample.ext (Sample.ledger []).Database { CurrentHash := [1] }
      { CurrentHash := [] } (Genesis Sample.ext (CoinbaseTx Sample.ext "A" genesisData)) rfl rfl
      (Sample.ledger [[Sample.split]]).Database⟩

/-! ## Chain integrity -/

theorem Linked_tip (E : Ext) (db : Store) (tip : Bytes) (blocks : List Block)
    (h : Linked E db tip blocks) : tipHash blocks = tip ∧ tip ≠ [] := by
  cases blocks with
  | nil => exact h.elim
  | cons b rest =>
    obtain ⟨h1, h2, _⟩ := h
    exact ⟨h1, ((txnGet_ok_iff db tip _).1 h2).1⟩

theorem Linked_congr (E : Ext) (db db1 : Store) :
    ∀ (blocks : List Block) (tip : Bytes), Linked E db tip blocks →
      (∀ b ∈ blocks, db1 b.Hash = db b.Hash) → Linked E db1 tip blocks
  | [], _, h, _ => h.elim
  | b :: rest, tip, h, hsame => by
    obtain ⟨h1, h2, h3, h4⟩ := h
    have hget : txnGet db1 tip = .ok (E.Serialize b) := by
      rw [txnGet_ok_iff] at h2 ⊢
      refine ⟨h2.1, ?_⟩
      rw [← h1, hsame b (List.mem_cons_self _ _), h1]
      exact h2.2
    refine ⟨h1, hget, h3, ?_⟩
    cases rest with
    | nil => exact h4
    | cons b1 rest1 =>
      exact ⟨h4.1, Linked_congr E db db1 (b1 :: rest1) b.PrevHash h4.2
        (fun b2 hb2 => hsame b2 (List.mem_cons_of_mem _ hb2))⟩

theorem walk_succ_of_Next (E : Ext) (db : Store) (n : Nat) (iter it1 : BlockchainIterator)
    (b : Block) (hnext : iter.Next E db = .ok (b, it1)) (blocks : List Block)
    (it2 : BlockchainIterator) (hrest : walk E db n it1 = .ok (blocks, it2)) :
    walk E db (n + 1) iter = .ok (b :: blocks, it2) := by
  simp only [walk, hnext, hrest]

theorem findUnspentLoop_succ_of_Next (E : Ext) (db : Store) (pubKeyHash : Bytes) (n : Nat)
    (iter it1 : BlockchainIterator) (b : Block) (hnext : iter.Next E db = .ok (b, it1))
    (st : List Transaction × IndexMap) :
    findUnspentLoop E db pubKeyHash (n + 1) iter st =
      if b.PrevHash.length = 0 then
        some (.ok (b.TransActions.foldl (scanTx E pubKeyHash) st).1)
      else findUnspentLoop E db pubKeyHash n it1
        (b.TransActions.foldl (scanTx E pubKeyHash) st) := by
  simp only [findUnspentLoop, hnext]

theorem findTransactionLoop_succ_of_Next (E : Ext) (db : Store) (ID : Bytes) (n : Nat)
    (iter it1 : BlockchainIterator) (b : Block) (hnext : iter.Next E db = .ok (b, it1)) :
    findTransactionLoop E db ID (n + 1) iter =
      match b.TransActions.find? (fun tx => decide (tx.ID = ID)) with
      | some tx => some (.ok (some tx))
      | none =>
        if b.PrevHash.length = 0 then some (.ok none)
        else findTransactionLoop E db ID n it1 := by
  simp only [findTransactionLoop, hnext]

theorem walk_of_Linked (E : Ext) (db : Store) :
    ∀ (blocks : List Block) (tip : Bytes), Linked E db tip blocks →
      walk E db blocks.length { CurrentHash := tip } = .ok (blocks, { CurrentHash := [] })
  | [], _, h => h.elim
  | b :: rest, tip, h => by
    obtain ⟨_, h2, h3, h4⟩ := h
    have hnext := Next_of_stored E db tip b h2 h3
    cases rest with
    | nil =>
      refine walk_succ_of_Next E db 0 _ _ b hnext [] _ ?_
      rw [h4]
      rfl
    | cons b1 rest1 =>
      exact walk_succ_of_Next E db _ _ _ b hnext _ _
        (walk_of_Linked E db (b1 :: rest1) b.PrevHash h4.2)

theorem Linked_prevHash (E : Ext) (db : Store) :
    ∀ (blocks : List Block) (tip : Bytes), Linked E db tip blocks →
      (∀ b ∈ blocks.dropLast, b.PrevHash ≠ []) ∧
        ∃ g, blocks.getLast? = some g ∧ g.PrevHash = []
  | [], _, h => h.elim
  | b :: rest, tip, h => by
    obtain ⟨_, _, _, h4⟩ := h
    cases rest with
    | nil => exact ⟨by simp, b, rfl, h4⟩
    | cons b1 rest1 =>
      obtain ⟨ih1, g, hg1, hg2⟩ := Linked_prevHash E db (b1 :: rest1) b.PrevHash h4.2
      refine ⟨?_, g, ?_, hg2⟩
      · intro b2 hb2
        rw [List.dropLast_cons₂, List.mem_cons] at hb2
        rcases hb2 with rfl | hb2
        · exact h4.1
        · exact ih1 b2 hb2
      · rw [List.getLast?_cons_cons]
        exact hg1

theorem findUnspentLoop_of_Linked (E : Ext) (db : Store) (pubKeyHash : Bytes) (k : Nat) :
    ∀ (blocks : List Block) (tip : Bytes) (st : List Transaction × IndexMap),
      Linked E db tip blocks →
      findUnspentLoop E db pubKeyHash (blocks.length + k) { CurrentHash := tip } st =
        some (.ok (scanBlocks E pubKeyHash blocks st).1)
  | [], _, _, h => h.elim
  | b :: rest, tip, st, h => by
    obtain ⟨_, h2, h3, h4⟩ := h
    have hnext := Next_of_stored E db tip b h2 h3
    have hlen : (b :: rest).length + k = (rest.length + k) + 1 := by
      simp only [List.length_cons]; omega
    rw [hlen, findUnspentLoop_succ_of_Next E db pubKeyHash _ _ _ b hnext]
    cases rest with
    | nil =>
      simp only [h4, List.length_nil, if_true, scanBlocks, List.foldl_cons, List.foldl_nil]
    | cons b1 rest1 =>
      have ih := findUnspentLoop_of_Linked E db pubKeyHash k (b1 :: rest1) b.PrevHash
        (b.TransActions.foldl (scanTx E pubKeyHash) st) h4.2
      have hne : ¬ b.PrevHash.length = 0 := by
        rw [List.length_eq_zero]; exact h4.1
      rw [if_neg hne, ih]
      simp only [scanBlocks, List.foldl_cons]

theorem findTransactionLoop_of_Linked (E : Ext) (db : Store) (ID : Bytes) (k : Nat) :
    ∀ (blocks : List Block) (tip : Bytes), Linked E db tip blocks →
      findTransactionLoop E db ID (blocks.length + k) { CurrentHash := tip } =
        some (.ok (findInBlocks ID blocks))
  | [], _, h => h.elim
  | b :: rest, tip, h => by
    obtain ⟨_, h2, h3, h4⟩ := h
    have hnext := Next_of_stored E db tip b h2 h3
    have hlen : (b :: rest).length + k = (rest.length + k) + 1 := by
      simp only [List.length_cons]; omega
    rw [hlen, findTransactionLoop_succ_of_Next E db ID _ _ _ b hnext]
    simp only [findInBlocks, List.flatMap_cons, List.find?_append]
    cases hf : b.TransActions.find? (fun tx => decide (tx.ID = ID)) with
    | some tx => simp
    | none =>
      cases rest with
      | nil => simp [h4]
      | cons b1 rest1 =>
        have ih := findTransactionLoop_of_Linked E db ID k (b1 :: rest1) b.PrevHash h4.2
        have hne : ¬ b.PrevHash.length = 0 := by
          rw [List.length_eq_zero]; exact h4.1
        simp only [hne, if_false, Option.none_or]
        rw [ih]
        simp only [findInBlocks, List.flatMap_cons]

theorem foldl_extend_suffix (E : Ext) :
    ∀ (txss : List (List Transaction)) (blocks : List Block),
      blocks <:+ txss.foldl (fun bs txs => CreateBlock E txs (tipHash bs) :: bs) blocks
  | [], blocks => List.suffix_refl blocks
  | txs :: rest, blocks =>
    (List.suffix_cons _ blocks).trans
      (foldl_extend_suffix E rest (CreateBlock E txs (tipHash blocks) :: blocks))

theorem foldl_extend_length (E : Ext) :
    ∀ (txss : List (List Transaction)) (blocks : List Block),
      (txss.foldl (fun bs txs => CreateBlock E txs (tipHash bs) :: bs) blocks).length =
        txss.length + blocks.length
  | [], blocks => by simp
  | txs :: rest, blocks => by
    rw [List.foldl_cons, foldl_extend_length E rest, List.length_cons, List.length_cons]
    omega

theorem chainBlocks_length (E : Ext) (address : String) (txss : List (List Transaction)) :
    (chainBlocks E address txss).length = txss.length + 1 :=
  foldl_extend_length E txss _

theorem Linked_after_AddBlock (E : Ext) (chain c1 : Blockchain) (txs : List Transaction)
    (blocks : List Block) (hget : txnGet chain.Database lhKey = .ok (tipHash blocks))
    (hlinked : Linked E chain.Database (tipHash blocks) blocks)
    (hadd : AddBlock E chain txs = .ok c1)
    (hfresh : (CreateBlock E txs (tipHash blocks)).Hash ∉ blocks.map Block.Hash)
    (hlh : lhKey ∉ (CreateBlock E txs (tipHash blocks) :: blocks).map Block.Hash)
    (hcodec : E.Deserialize (E.Serialize (CreateBlock E txs (tipHash blocks))) =
      some (CreateBlock E txs (tipHash blocks))) :
    txnGet c1.Database lhKey = .ok (CreateBlock E txs (tipHash blocks)).Hash ∧
      Linked E c1.Database (CreateBlock E txs (tipHash blocks)).Hash
        (CreateBlock E txs (tipHash blocks) :: blocks) ∧
      c1.lastHash = (CreateBlock E txs (tipHash blocks)).Hash := by
  obtain ⟨tip1, htip1, hne, rfl⟩ := (AddBlock_ok_iff E chain c1 txs).1 hadd
  obtain rfl : tip1 = tipHash blocks := by
    rw [hget] at htip1
    exact (Except.ok.inj htip1).symm
  have hnl : (CreateBlock E txs (tipHash blocks)).Hash ≠ lhKey := by
    intro h
    exact hlh (by rw [List.map_cons, ← h]; exact List.mem_cons_self _ _)
  refine ⟨?_, ⟨rfl, ?_, hcodec, ?_⟩, rfl⟩
  · rw [txnGet_ok_iff]
    exact ⟨by decide, by simp⟩
  · rw [txnGet_ok_iff]
    exact ⟨hne, by simp [hnl]⟩
  · have hold : Linked E
        (fun k =>
          if k = lhKey then some (CreateBlock E txs (tipHash blocks)).Hash
          else if k = (CreateBlock E txs (tipHash blocks)).Hash then
            some (E.Serialize (CreateBlock E txs (tipHash blocks)))
          else chain.Database k) (tipHash blocks) blocks := by
      refine Linked_congr E chain.Database _ blocks _ hlinked ?_
      intro b hb
      have h1 : b.Hash ≠ lhKey := by
        intro h
        exact hlh (by
          rw [← h]
          exact List.mem_cons_of_mem _ (List.mem_map_of_mem _ hb))
      have h2 : b.Hash ≠ (CreateBlock E txs (tipHash blocks)).Hash := by
        intro h
        exact hfresh (by rw [← h]; exact List.mem_map_of_mem _ hb)
      simp [h1, h2]
    cases blocks with
    | nil => exact hlinked.elim
    | cons b0 rest =>
      exact ⟨(Linked_tip E _ _ _ hlinked).2, hold⟩

theorem Linked_after_AddBlocks (E : Ext) :
    ∀ (txss : List (List Transaction)) (chain c1 : Blockchain) (blocks : List Block),
      txnGet chain.Database lhKey = .ok (tipHash blocks) →
      Linked E chain.Database (tipHash blocks) blocks →
      AddBlocks E chain txss = .ok c1 →
      ((txss.foldl (fun bs txs => CreateBlock E txs (tipHash bs) :: bs) blocks).map
        Block.Hash).Nodup →
      lhKey ∉ (txss.foldl (fun bs txs => CreateBlock E txs (tipHash bs) :: bs) blocks).map
        Block.Hash →
      (∀ b ∈ txss.foldl (fun bs txs => CreateBlock E txs (tipHash bs) :: bs) blocks,
        E.Deserialize (E.Serialize b) = some b) →
      txnGet c1.Database lhKey =
          .ok (tipHash (txss.foldl (fun bs txs => CreateBlock E txs (tipHash bs) :: bs) blocks)) ∧
        Linked E c1.Database
          (tipHash (txss.foldl (fun bs txs => CreateBlock E txs (tipHash bs) :: bs) blocks))
          (txss.foldl (fun bs txs => CreateBlock E txs (tipHash bs) :: bs) blocks) ∧
        (txss ≠ [] → c1.lastHash =
          tipHash (txss.foldl (fun bs txs => CreateBlock E txs (tipHash bs) :: bs) blocks))
  | [], chain, c1, blocks, hget, hlinked, hadd, _, _, _ => by
    simp only [AddBlocks, Except.ok.injEq] at hadd
    subst hadd
    exact ⟨hget, hlinked, fun h => absurd rfl h⟩
  | txs :: rest, chain, c1, blocks, hget, hlinked, hadd, hnodup, hlh, hcodec => by
    simp only [List.foldl_cons] at hnodup hlh hcodec ⊢
    have hsuf := foldl_extend_suffix E rest (CreateBlock E txs (tipHash blocks) :: blocks)
    have hsub := hsuf.sublist
    have hnodup2 : ((CreateBlock E txs (tipHash blocks) :: blocks).map Block.Hash).Nodup :=
      hnodup.sublist (hsub.map _)
    have hlh2 : lhKey ∉ (CreateBlock E txs (tipHash blocks) :: blocks).map Block.Hash :=
      fun h => hlh ((hsub.map _).subset h)
    have hcodec2 := hcodec _ (hsuf.subset (List.mem_cons_self _ _))
    rw [List.map_cons, List.nodup_cons] at hnodup2
    cases hstep : AddBlock E chain txs with
    | error c => simp [AddBlocks, hstep] at hadd
    | ok c2 =>
      simp only [AddBlocks, hstep] at hadd
      obtain ⟨hget2, hlinked2, hlast2⟩ :=
        Linked_after_AddBlock E chain c2 txs blocks hget hlinked hstep hnodup2.1 hlh2 hcodec2
      obtain ⟨r1, r2, r3⟩ := Linked_after_AddBlocks E rest c2 c1
        (CreateBlock E txs (tipHash blocks) :: blocks) hget2 hlinked2 hadd hnodup hlh hcodec
      refine ⟨r1, r2, fun _ => ?_⟩
      cases rest with
      | nil =>
        simp only [AddBlocks, Except.ok.injEq] at hadd
        subst hadd
        exact hlast2
      | cons txs1 rest1 => exact r3 (List.cons_ne_nil _ _)

theorem Linked_of_buildChain (E : Ext) (address : String) (txss : List (List Transaction))
    (c : Blockchain) (hbuild : buildChain E address txss = .ok c)
    (hfresh : ((chainBlocks E address txss).map Block.Hash).Nodup)
    (hlh : lhKey ∉ (chainBlocks E address txss).map Block.Hash)
    (hcodec : ∀ b ∈ chainBlocks E address txss, E.Deserialize (E.Serialize b) = some b) :
    txnGet c.Database lhKey = .ok (tipHash (chainBlocks E address txss)) ∧
      Linked E c.Database (tipHash (chainBlocks E address txss)) (chainBlocks E address txss) ∧
      (txss ≠ [] → c.lastHash = tipHash (chainBlocks E address txss)) ∧
      (txss = [] → c.lastHash = []) := by
  unfold buildChain at hbuild
  cases hinit : InitBlockChain E false address with
  | error e => simp [hinit] at hbuild
  | ok c0 =>
    simp only [hinit] at hbuild
    have hsuf := foldl_extend_suffix E txss [Genesis E (CoinbaseTx E address genesisData)]
    have hg_lh : (Genesis E (CoinbaseTx E address genesisData)).Hash ≠ lhKey := by
      intro h
      apply hlh
      rw [← h]
      exact List.mem_map_of_mem _ (hsuf.subset (List.mem_cons_self _ _))
    have hg_codec := hcodec _ (hsuf.subset (List.mem_cons_self _ _))
    obtain ⟨h1, h2, _⟩ := InitBlockChain_persists_genesis_aux E address c0 hinit hg_lh
    have hl0 : Linked E c0.Database (tipHash [Genesis E (CoinbaseTx E address genesisData)])
        [Genesis E (CoinbaseTx E address genesisData)] := ⟨rfl, h2, hg_codec, rfl⟩
    obtain ⟨r1, r2, r3⟩ := Linked_after_AddBlocks E txss c0 c
      [Genesis E (CoinbaseTx E address genesisData)] h1 hl0 hbuild hfresh hlh hcodec
    refine ⟨r1, r2, r3, ?_⟩
    rintro rfl
    simp only [AddBlocks, Except.ok.injEq] at hbuild
    subst hbuild
    exact ((InitBlockChain_ok_iff E address c0).1 hinit).2 ▸ rfl

/-- C6: on a ledger built by `InitBlockChain` and `n` successful `AddBlock` calls whose
block hashes are pairwise distinct and differ from the key `lh`, `n + 1` calls of `Next`
from the persisted tip return the `n + 1` blocks of the chain, of which the last and no
earlier one has the empty `PrevHash`; and the loops of `FindUnspentTransactions` and
`FindTransaction` finish within `n + 1` rounds, on the handle that built the ledger (with
their result when a block was appended) and, with their result, on the handle that
`ContinueBlockChain` opens on that ledger. The codec is assumed to decode the encoding of
every block of the chain to that block. -/
theorem walk_from_tip_ends_at_genesis (E : Ext) (address : String)
    (txss : List (List Transaction)) (c : Blockchain)
    (hbuild : buildChain E address txss = .ok c)
    (hfresh : ((chainBlocks E address txss).map Block.Hash).Nodup)
    (hlh : lhKey ∉ (chainBlocks E address txss).map Block.Hash)
    (hcodec : ∀ b ∈ chainBlocks E address txss, E.Deserialize (E.Serialize b) = some b) :
    ∃ tip, txnGet c.Database lhKey = .ok tip ∧
      walk E c.Database (txss.length + 1) { CurrentHash := tip } =
        .ok (chainBlocks E address txss, { CurrentHash := [] }) ∧
      (chainBlocks E address txss).length = txss.length + 1 ∧
      (∀ b ∈ (chainBlocks E address txss).dropLast, b.PrevHash ≠ []) ∧
      (∃ g, (chainBlocks E address txss).getLast? = some g ∧ g.PrevHash = []) ∧
      (∀ pubKeyHash k, ∃ r,
        c.FindUnspentTransactions E (txss.length + 1 + k) pubKeyHash = some r) ∧
      (∀ ID k, ∃ r, c.FindTransaction E (txss.length + 1 + k) ID = some r) ∧
      (txss ≠ [] → ∀ pubKeyHash k,
        c.FindUnspentTransactions E (txss.length + 1 + k) pubKeyHash =
          some (.ok (scanBlocks E pubKeyHash (chainBlocks E address txss)
            ([], fun _ => [])).1)) ∧
      (txss ≠ [] → ∀ ID k,
        c.FindTransaction E (txss.length + 1 + k) ID =
          some (.ok (findInBlocks ID (chainBlocks E address txss)))) ∧
      (∃ c2, ContinueBlockChain true c.Database address = .ok c2 ∧
        (∀ pubKeyHash k,
          c2.FindUnspentTransactions E (txss.length + 1 + k) pubKeyHash =
            some (.ok (scanBlocks E pubKeyHash (chainBlocks E address txss)
              ([], fun _ => [])).1)) ∧
        ∀ ID k,
          c2.FindTransaction E (txss.length + 1 + k) ID =
            some (.ok (findInBlocks ID (chainBlocks E address txss)))) := by
  obtain ⟨hget, hlinked, hlast, hlast0⟩ :=
    Linked_of_buildChain E address txss c hbuild hfresh hlh hcodec
  have hlen := chainBlocks_length E address txss
  obtain ⟨hprev, hgen⟩ := Linked_prevHash E c.Database _ _ hlinked
  have hwalk := walk_of_Linked E c.Database _ _ hlinked
  rw [hlen] at hwalk
  have hU : txss ≠ [] → ∀ pubKeyHash k,
      c.FindUnspentTransactions E (txss.length + 1 + k) pubKeyHash =
        some (.ok (scanBlocks E pubKeyHash (chainBlocks E address txss)
          ([], fun _ => [])).1) := by
    intro hne pubKeyHash k
    have := findUnspentLoop_of_Linked E c.Database pubKeyHash k _ _ ([], fun _ => []) hlinked
    rw [hlen] at this
    simp only [Blockchain.FindUnspentTransactions, Blockchain.Iterator, hlast hne, this]
  have hT : txss ≠ [] → ∀ ID k,
      c.FindTransaction E (txss.length + 1 + k) ID =
        some (.ok (findInBlocks ID (chainBlocks E address txss))) := by
    intro hne ID k
    have := findTransactionLoop_of_Linked E c.Database ID k _ _ hlinked
    rw [hlen] at this
    simp only [Blockchain.FindTransaction, Blockchain.Iterator, hlast hne, this]
  refine ⟨_, hget, hwalk, hlen, hprev, hgen, ?_, ?_, hU, hT, ?_⟩
  rotate_left 2
  · refine ⟨{ lastHash := tipHash (chainBlocks E address txss), Database := c.Database },
      by simp [ContinueBlockChain, hget, Handle], ?_, ?_⟩
    · intro pubKeyHash k
      have := findUnspentLoop_of_Linked E c.Database pubKeyHash k _ _ ([], fun _ => []) hlinked
      rw [hlen] at this
      simp only [Blockchain.FindUnspentTransactions, Blockchain.Iterator, this]
    · intro ID k
      have := findTransactionLoop_of_Linked E c.Database ID k _ _ hlinked
      rw [hlen] at this
      simp only [Blockchain.FindTransaction, Blockchain.Iterator, this]
  · intro pubKeyHash k
    by_cases hne : txss = []
    · refine ⟨.error .nilItem, ?_⟩
      have hfuel : txss.length + 1 + k = k + 1 := by rw [hne]; simp; omega
      rw [hfuel]
      simp [Blockchain.FindUnspentTransactions, Blockchain.Iterator, hlast0 hne,
        findUnspentLoop, BlockchainIterator.Next, txnGet_nil]
    · exact ⟨_, hU hne pubKeyHash k⟩
  · intro ID k
    by_cases hne : txss = []
    · refine ⟨.error .nilItem, ?_⟩
      have hfuel : txss.length + 1 + k = k + 1 := by rw [hne]; simp; omega
      rw [hfuel]
      simp [Blockchain.FindTransaction, Blockchain.Iterator, hlast0 hne,
        findTransactionLoop, BlockchainIterator.Next, txnGet_nil]
    · exact ⟨_, hT hne ID k⟩

/-- The run of C6 on the sample ledger of `"A"` with two appended blocks. -/
theorem walk_from_tip_ends_at_genesis_witness :
    buildChain Sample.ext "A" [[Sample.split], [Sample.payB]] =
        .ok (Sample.ledger [[Sample.split], [Sample.payB]]) ∧
      ∃ tip, txnGet (Sample.ledger [[Sample.split], [Sample.payB]]).Database lhKey = .ok tip ∧
        walk Sample.ext (Sample.ledger [[Sample.split], [Sample.payB]]).Database 3
            { CurrentHash := tip } =
          .ok (chainBlocks Sample.ext "A" [[Sample.split], [Sample.payB]],
            { CurrentHash := [] }) :=
  ⟨rfl,
    (walk_from_tip_ends_at_genesis Sample.ext "A" [[Sample.split], [Sample.payB]]
      (Sample.ledger [[Sample.split], [Sample.payB]]) rfl (by decide) (by decide)
      (by decide)).imp (fun _ h => ⟨h.1, h.2.1⟩)⟩

/-! ## UTXO resolver: the outputs of a partly spent transaction -/

/-- C1: on the ledger of `"A"` extended by the block holding `Sample.split` (which spends
the coinbase output into two outputs locked to `"A"`), `FindUTXO` returns both outputs
twice, 200 in total, while the unspent outputs locked to `"A"` add up to 100. -/
theorem FindUTXO_counts_outputs_twice :
    buildChain Sample.ext "A" [[Sample.split]] = .ok (Sample.ledger [[Sample.split]]) ∧
      (CoinbaseTx Sample.ext "A" genesisData).ID = Sample.coinbaseID ∧
      (Sample.ledger [[Sample.split]]).FindUTXO Sample.ext 2 Sample.keyA =
        some (.ok [{ Value := 30, PubKeyHash := Sample.keyA },
          { Value := 70, PubKeyHash := Sample.keyA },
          { Value := 30, PubKeyHash := Sample.keyA },
          { Value := 70, PubKeyHash := Sample.keyA }]) ∧
      specUnspentOutputs (chainBlocks Sample.ext "A" [[Sample.split]]) Sample.keyA =
        [{ Value := 30, PubKeyHash := Sample.keyA },
          { Value := 70, PubKeyHash := Sample.keyA }] ∧
      ((specUnspentOutputs (chainBlocks Sample.ext "A" [[Sample.split]]) Sample.keyA).map
        TxOutput.Value).sum = 100 ∧
      ∃ utxos, (Sample.ledger [[Sample.split]]).FindUTXO Sample.ext 2 Sample.keyA =
          some (.ok utxos) ∧ (utxos.map TxOutput.Value).sum = 200 := by
  refine ⟨rfl, rfl, rfl, by decide, by decide, _, rfl, by decide⟩

/-- C2: on the ledger of `"A"` extended by the block holding `Sample.split` and then by the
block holding `Sample.payB`, whose input uses the key of `"A"` and references output 0 of
`Sample.split`, `FindUTXO` for `"A"` still returns that output, next to the unspent
output 1 of the same transaction. -/
theorem FindUTXO_returns_spent_output :
    buildChain Sample.ext "A" [[Sample.split], [Sample.payB]] =
        .ok (Sample.ledger [[Sample.split], [Sample.payB]]) ∧
      Sample.split.Outputs[0]? = some { Value := 30, PubKeyHash := Sample.keyA } ∧
      lockedAt Sample.keyA Sample.split 0 = true ∧
      Sample.payB.IsCoinbase = false ∧
      (∃ inp ∈ Sample.payB.Inputs, inp.UsesKey Sample.ext Sample.keyA = true ∧
        inp.ID = Sample.split.ID ∧ inp.Out = 0) ∧
      (Sample.ledger [[Sample.split], [Sample.payB]]).FindUnspentTransactions Sample.ext 3
        Sample.keyA = some (.ok [Sample.split]) ∧
      (Sample.ledger [[Sample.split], [Sample.payB]]).FindUTXO Sample.ext 3 Sample.keyA =
        some (.ok [{ Value := 30, PubKeyHash := Sample.keyA },
          { Value := 70, PubKeyHash := Sample.keyA }]) ∧
      specUnspentOutputs (chainBlocks Sample.ext "A" [[Sample.split], [Sample.payB]])
        Sample.keyA = [{ Value := 70, PubKeyHash := Sample.keyA }] := by
  refine ⟨rfl, rfl, by decide, by decide, by decide, rfl, rfl, by decide⟩

/-- C3: on the same ledger, `FindSpendableOutput` for `"A"` and the amount 1000 returns
the accumulated value 100, below the amount, with a selection that names outputs 0 and 1
of `Sample.split`, although output 0 is spent and the unspent outputs of `"A"` are worth
70. -/
theorem FindSpendableOutput_selects_spent_output :
    ∃ acc sel,
      (Sample.ledger [[Sample.split], [Sample.payB]]).FindSpendableOutput Sample.ext 3
        Sample.keyA 1000 = some (.ok (acc, sel)) ∧
      acc = 100 ∧ acc < 1000 ∧
      sel (EncodeToString Sample.split.ID) = [0, 1] ∧
      referencedBy (chainBlocks Sample.ext "A" [[Sample.split], [Sample.payB]])
        Sample.split.ID 0 = true ∧
      ((specUnspentOutputs (chainBlocks Sample.ext "A" [[Sample.split], [Sample.payB]])
        Sample.keyA).map TxOutput.Value).sum = 70 := by
  refine ⟨_, _, rfl, by decide, by decide, by decide, by decide, by decide⟩

/-! ## Spend selection -/

theorem selectOutputs_frozen (pubKeyHash : Bytes) (amount : Int) (key : String) :
    ∀ (outs : List TxOutput) (n : Nat) (s : Selection), ¬ s.accumulated < amount →
      selectOutputs pubKeyHash amount key n outs s = s
  | [], _, _, _ => rfl
  | out :: rest, n, s, h => by
    rw [selectOutputs]
    simp only [h, decide_False, Bool.and_false, Bool.false_eq_true, if_false]
    exact selectOutputs_frozen pubKeyHash amount key rest (n + 1) s h

theorem selectTxs_frozen (pubKeyHash : Bytes) (amount : Int) :
    ∀ (txs : List Transaction) (s : Selection), ¬ s.accumulated < amount →
      selectTxs pubKeyHash amount txs s = s
  | [], _, _ => rfl
  | tx :: rest, s, h => by
    rw [selectTxs]
    simp only [selectOutputs_frozen pubKeyHash amount _ tx.Outputs 0 s h]
    split
    · rfl
    · exact selectTxs_frozen pubKeyHash amount rest s h

theorem lockedAt_cons (pubKeyHash : Bytes) (ID : Bytes) (ins : List TxInput)
    (out : TxOutput) (rest : List TxOutput) (j : Nat) :
    lockedAt pubKeyHash { ID := ID, Inputs := ins, Outputs := out :: rest } (j + 1) =
      lockedAt pubKeyHash { ID := ID, Inputs := ins, Outputs := rest } j := by
  simp [lockedAt]

theorem selectOutputs_counts (pubKeyHash : Bytes) (amount : Int) (key : String) :
    ∀ (outs : List TxOutput) (n : Nat) (s : Selection), s.stopped = false →
      (selectOutputs pubKeyHash amount key n outs s).accumulated < amount →
      (selectOutputs pubKeyHash amount key n outs s).stopped = false ∧
      ∀ (k : String) (i : Nat),
        ((selectOutputs pubKeyHash amount key n outs s).unspentOuts k).count (i : Int) =
          (s.unspentOuts k).count (i : Int) +
            (if k = key ∧ n ≤ i ∧
                lockedAt pubKeyHash { ID := [], Inputs := [], Outputs := outs } (i - n) = true
              then 1 else 0)
  | [], _, s, hs, _ => by
    refine ⟨hs, fun k i => ?_⟩
    simp [selectOutputs, lockedAt]
  | out :: rest, n, s, hs, hacc => by
    rw [selectOutputs] at hacc ⊢
    by_cases hc : (out.IsLockedWithKey pubKeyHash && decide (s.accumulated < amount)) = true
    · simp only [hc, if_true] at hacc ⊢
      by_cases hover : intAdd s.accumulated out.Value > amount
      · simp only [hover, if_true] at hacc
        exact absurd hacc (not_lt.2 (le_of_lt hover))
      · simp only [hover, if_false] at hacc ⊢
        obtain ⟨ih1, ih2⟩ := selectOutputs_counts pubKeyHash amount key rest (n + 1)
          { accumulated := intAdd s.accumulated out.Value,
            unspentOuts := s.unspentOuts.append key n, stopped := false } rfl hacc
        refine ⟨ih1, fun k i => ?_⟩
        rw [ih2 k i]
        have hlock : out.IsLockedWithKey pubKeyHash = true := by
          simp only [Bool.and_eq_true] at hc
          exact hc.1
        simp only [IndexMap.append]
        by_cases hk : k = key
        · subst hk
          simp only [if_true, true_and, List.count_append, List.count_singleton]
          rcases Nat.lt_trichotomy i n with hlt | heq | hgt
          · have h1 : ¬ n + 1 ≤ i := by omega
            have h2 : ¬ n ≤ i := by omega
            have h3 : ¬ ((n : Int) = (i : Int)) := by omega
            simp [h1, h2, h3]
          · subst heq
            simp [lockedAt, hlock]
          · have h1 : n + 1 ≤ i := by omega
            have h2 : n ≤ i := by omega
            have h3 : ¬ ((n : Int) = (i : Int)) := by omega
            have h4 : i - n = (i - (n + 1)) + 1 := by omega
            simp [h1, h2, h3, h4, lockedAt_cons]
        · simp [hk]
    · simp only [hc, if_false, Bool.false_eq_true] at hacc ⊢
      obtain ⟨ih1, ih2⟩ := selectOutputs_counts pubKeyHash amount key rest (n + 1) s hs hacc
      refine ⟨ih1, fun k i => ?_⟩
      rw [ih2 k i]
      have hlt : s.accumulated < amount := by
        by_contra hge
        rw [selectOutputs_frozen pubKeyHash amount key rest (n + 1) s hge] at hacc
        exact hge hacc
      have hlock : out.IsLockedWithKey pubKeyHash = false := by
        simp only [Bool.and_eq_true, decide_eq_true_eq, not_and] at hc
        cases hl : out.IsLockedWithKey pubKeyHash with
        | false => rfl
        | true => exact absurd hlt (hc hl)
      congr 1
      by_cases hk : k = key
      · simp only [hk, true_and]
        rcases Nat.lt_trichotomy i n with hlt | heq | hgt
        · have h1 : ¬ n + 1 ≤ i := by omega
          have h2 : ¬ n ≤ i := by omega
          simp [h1, h2]
        · subst heq
          simp [lockedAt, hlock]
        · have h1 : n + 1 ≤ i := by omega
          have h2 : n ≤ i := by omega
          have h4 : i - n = (i - (n + 1)) + 1 := by omega
          simp [h1, h2, h4, lockedAt_cons]
      · simp [hk]

theorem selectTxs_counts (pubKeyHash : Bytes) (amount : Int) :
    ∀ (txs : List Transaction) (s : Selection), s.stopped = false →
      (selectTxs pubKeyHash amount txs s).accumulated < amount →
      ∀ (k : String) (i : Nat),
        ((selectTxs pubKeyHash amount txs s).unspentOuts k).count (i : Int) =
          (s.unspentOuts k).count (i : Int) + timesScanned pubKeyHash txs k i
  | [], s, _, _ => by
    intro k i
    simp [selectTxs, timesScanned]
  | tx :: rest, s, hs, hacc => by
    intro k i
    rw [selectTxs] at hacc ⊢
    have hs1acc : (selectOutputs pubKeyHash amount (EncodeToString tx.ID) 0 tx.Outputs
        s).accumulated < amount := by
      by_contra hge
      by_cases hst : (selectOutputs pubKeyHash amount (EncodeToString tx.ID) 0 tx.Outputs
          s).stopped = true
      · simp only [hst, if_true] at hacc
        exact hge hacc
      · simp only [hst, if_false, Bool.false_eq_true] at hacc
        rw [selectTxs_frozen pubKeyHash amount rest _ hge] at hacc
        exact hge hacc
    obtain ⟨h1, h2⟩ := selectOutputs_counts pubKeyHash amount (EncodeToString tx.ID)
      tx.Outputs 0 s hs hs1acc
    simp only [h1, if_false, Bool.false_eq_true] at hacc ⊢
    rw [selectTxs_counts pubKeyHash amount rest _ h1 hacc k i, h2 k i, Nat.add_assoc]
    congr 1
    simp only [timesScanned, List.countP_cons, Nat.zero_le, true_and, Nat.sub_zero]
    rw [Nat.add_comm]
    congr 1
    have hl : lockedAt pubKeyHash { ID := [], Inputs := [], Outputs := tx.Outputs } i =
        lockedAt pubKeyHash tx i := rfl
    rw [hl]
    by_cases hk : k = EncodeToString tx.ID
    · subst hk
      cases lockedAt pubKeyHash tx i <;> simp
    · have hk1 : ¬ EncodeToString tx.ID = k := fun h => hk h.symm
      simp [hk, hk1]

/-- C4, as the code has it: when `FindUnspentTransactions` returns the list `unspentTxs`,
`FindSpendableOutput` returns a pair, and if some output locked to the key in the scanned
transactions was left unselected (the selection names an index under a map key fewer times
than the scan presented a locked output of that index under that key), the accumulated
value is at least the amount. It may equal the amount. -/
theorem FindSpendableOutput_unselected_reaches_amount (E : Ext) (chain : Blockchain)
    (fuel : Nat) (pubKeyHash : Bytes) (amount : Int) (unspentTxs : List Transaction)
    (hscan : chain.FindUnspentTransactions E fuel pubKeyHash = some (.ok unspentTxs)) :
    ∃ acc sel, chain.FindSpendableOutput E fuel pubKeyHash amount = some (.ok (acc, sel)) ∧
      ((∃ (key : String) (n : Nat),
          (sel key).count (n : Int) < timesScanned pubKeyHash unspentTxs key n) →
        amount ≤ acc) := by
  refine ⟨_, _, by simp only [Blockchain.FindSpendableOutput, hscan]; rfl, ?_⟩
  rintro ⟨key, n, hlt⟩
  by_contra hacc
  have h := selectTxs_counts pubKeyHash amount unspentTxs
    { accumulated := 0, unspentOuts := fun _ => [], stopped := false } rfl (not_le.1 hacc) key n
  rw [h] at hlt
  simp at hlt

/-- The run of C4 on the sample ledger: for the amount 30 the selection stops at output 0
of `Sample.split`, output 1 is left unselected, and the accumulated value is 30. -/
theorem FindSpendableOutput_unselected_reaches_amount_witness :
    (Sample.ledger [[Sample.split]]).FindUnspentTransactions Sample.ext 2 Sample.keyA =
        some (.ok [Sample.split, Sample.split]) ∧
      ∃ acc sel,
        (Sample.ledger [[Sample.split]]).FindSpendableOutput Sample.ext 2 Sample.keyA 30 =
          some (.ok (acc, sel)) ∧
        ((∃ (key : String) (n : Nat), (sel key).count (n : Int) <
            timesScanned Sample.keyA [Sample.split, Sample.split] key n) → 30 ≤ acc) :=
  ⟨rfl, FindSpendableOutput_unselected_reaches_amount Sample.ext
    (Sample.ledger [[Sample.split]]) 2 Sample.keyA 30 [Sample.split, Sample.split] rfl⟩

/-- C4 fails as stated: on the sample ledger and for the amount 30, output 1 of
`Sample.split` is locked to `"A"` and is not selected, yet the accumulated value is 30,
not more than the amount. -/
theorem FindSpendableOutput_stops_exactly_at_amount :
    ∃ acc sel,
      (Sample.ledger [[Sample.split]]).FindSpendableOutput Sample.ext 2 Sample.keyA 30 =
        some (.ok (acc, sel)) ∧
      (Sample.ledger [[Sample.split]]).FindUnspentTransactions Sample.ext 2 Sample.keyA =
        some (.ok [Sample.split, Sample.split]) ∧
      lockedAt Sample.keyA Sample.split 1 = true ∧
      (1 : Int) ∉ sel (EncodeToString Sample.split.ID) ∧
      sel (EncodeToString Sample.split.ID) = [0] ∧
      acc = 30 ∧ ¬ (30 < acc) := by
  refine ⟨_, _, rfl, rfl, by decide, by decide, by decide, by decide, by decide⟩


/-! ## Hex encoding of transaction IDs -/

theorem unhexDigit_hexDigit : ∀ n, n < 16 → unhexDigit (hexDigit n) = n := by
  decide

theorem hexPair_injective (a b : Fin 256)
    (h : [hexDigit (a.val / 16), hexDigit (a.val % 16)] =
      [hexDigit (b.val / 16), hexDigit (b.val % 16)]) : a = b := by
  simp only [List.cons.injEq, and_true] at h
  have h1 := congrArg unhexDigit h.1
  have h2 := congrArg unhexDigit h.2
  have ha := a.isLt
  have hb := b.isLt
  rw [unhexDigit_hexDigit _ (by omega), unhexDigit_hexDigit _ (by omega)] at h1
  rw [unhexDigit_hexDigit _ (by omega), unhexDigit_hexDigit _ (by omega)] at h2
  apply Fin.ext
  omega

theorem hexDigits_injective :
    ∀ (x y : Bytes),
      x.flatMap (fun b => [hexDigit (b.val / 16), hexDigit (b.val % 16)]) =
        y.flatMap (fun b => [hexDigit (b.val / 16), hexDigit (b.val % 16)]) → x = y
  | [], [], _ => rfl
  | [], b :: y, h => by
    simp only [List.flatMap_nil, List.flatMap_cons, List.cons_append] at h
    exact absurd h (by simp)
  | a :: x, [], h => by
    simp only [List.flatMap_nil, List.flatMap_cons, List.cons_append] at h
    exact absurd h (by simp)
  | a :: x, b :: y, h => by
    simp only [List.flatMap_cons, List.cons_append, List.nil_append] at h
    have h1 := (List.cons.inj h).1
    have h2 := (List.cons.inj (List.cons.inj h).2).1
    have h3 := (List.cons.inj (List.cons.inj h).2).2
    have hab : a = b := hexPair_injective a b (by rw [h1, h2])
    rw [hab, hexDigits_injective x y h3]

theorem EncodeToString_injective (x y : Bytes) (h : EncodeToString x = EncodeToString y) :
    x = y :=
  hexDigits_injective x y (congrArg String.data h)

/-! ## Transaction locator -/

theorem FindTransaction_of_Linked (E : Ext) (chain : Blockchain) (blocks : List Block)
    (hlinked : Linked E chain.Database chain.lastHash blocks) (ID : Bytes) (k : Nat) :
    chain.FindTransaction E (blocks.length + k) ID = some (.ok (findInBlocks ID blocks)) := by
  simp only [Blockchain.FindTransaction, Blockchain.Iterator]
  exact findTransactionLoop_of_Linked E chain.Database ID k blocks chain.lastHash hlinked

theorem findInBlocks_eq_none (ID : Bytes) (blocks : List Block) :
    findInBlocks ID blocks = none ↔ ∀ b ∈ blocks, ∀ tx ∈ b.TransActions, tx.ID ≠ ID := by
  simp only [findInBlocks, List.find?_eq_none, List.mem_flatMap, decide_eq_true_eq]
  constructor
  · intro h b hb tx htx
    exact h tx ⟨b, hb, htx⟩
  · rintro h tx ⟨b, hb, htx⟩
    exact h b hb tx htx

theorem findInBlocks_eq_some (ID : Bytes) (blocks : List Block) (tx : Transaction)
    (h : findInBlocks ID blocks = some tx) :
    tx.ID = ID ∧ ∃ pre post,
      blocks.flatMap (fun block => block.TransActions) = pre ++ tx :: post ∧
        ∀ t ∈ pre, t.ID ≠ ID := by
  simp only [findInBlocks, List.find?_eq_some, decide_eq_true_eq] at h
  obtain ⟨h1, pre, post, h2, h3⟩ := h
  refine ⟨h1, pre, post, h2, fun t ht => ?_⟩
  have := h3 t ht
  simpa using this

/-- C11: on a well-formed chain (the handle caches the hash of the first block of a stored
chain that ends at the genesis block), `FindTransaction(ID)` finishes within one round per
block; it returns the error exactly when no transaction of any block has an ID equal to
`ID`, and otherwise it returns the first transaction with that ID in walk order (blocks
from tip to genesis, transactions in their order within each block). -/
theorem FindTransaction_returns_first_match (E : Ext) (chain : Blockchain)
    (blocks : List Block) (ID : Bytes) (k : Nat)
    (hlinked : Linked E chain.Database chain.lastHash blocks) :
    ∃ r, chain.FindTransaction E (blocks.length + k) ID = some (.ok r) ∧
      (r = none ↔ ∀ b ∈ blocks, ∀ tx ∈ b.TransActions, tx.ID ≠ ID) ∧
      ∀ tx, r = some tx →
        tx.ID = ID ∧ ∃ pre post,
          blocks.flatMap (fun block => block.TransActions) = pre ++ tx :: post ∧
            ∀ t ∈ pre, t.ID ≠ ID :=
  ⟨findInBlocks ID blocks, FindTransaction_of_Linked E chain blocks hlinked ID k,
    findInBlocks_eq_none ID blocks, fun tx h => findInBlocks_eq_some ID blocks tx h⟩

theorem Sample.ledger_linked :
    Linked Sample.ext (Sample.ledger [[Sample.split], [Sample.payB]]).Database
      (Sample.ledger [[Sample.split], [Sample.payB]]).lastHash
      (chainBlocks Sample.ext "A" [[Sample.split], [Sample.payB]]) := by
  have h := Linked_of_buildChain Sample.ext "A" [[Sample.split], [Sample.payB]]
    (Sample.ledger [[Sample.split], [Sample.payB]]) rfl (by decide) (by decide) (by decide)
  rw [h.2.2.1 (by simp)]
  exact h.2.1

/-- The run of C11 on the sample ledger with two appended blocks, for the ID of
`Sample.split`. -/
theorem FindTransaction_returns_first_match_witness :
    ∃ r, (Sample.ledger [[Sample.split], [Sample.payB]]).FindTransaction Sample.ext
        ((chainBlocks Sample.ext "A" [[Sample.split], [Sample.payB]]).length + 0)
        Sample.split.ID = some (.ok r) ∧
      (r = none ↔ ∀ b ∈ chainBlocks Sample.ext "A" [[Sample.split], [Sample.payB]],
        ∀ tx ∈ b.TransActions, tx.ID ≠ Sample.split.ID) ∧
      ∀ tx, r = some tx →
        tx.ID = Sample.split.ID ∧ ∃ pre post,
          (chainBlocks Sample.ext "A" [[Sample.split], [Sample.payB]]).flatMap
              (fun block => block.TransActions) = pre ++ tx :: post ∧
            ∀ t ∈ pre, t.ID ≠ Sample.split.ID :=
  FindTransaction_returns_first_match Sample.ext
    (Sample.ledger [[Sample.split], [Sample.payB]])
    (chainBlocks Sample.ext "A" [[Sample.split], [Sample.payB]]) Sample.split.ID 0
    Sample.ledger_linked

/-! ## Signing and verification -/

theorem lookupPrevTXs_of_Linked (E : Ext) (chain : Blockchain) (blocks : List Block)
    (hlinked : Linked E chain.Database chain.lastHash blocks) (k : Nat) :
    ∀ (inputs : List TxInput) (m : TxMap),
      ((∃ inp ∈ inputs, findInBlocks inp.ID blocks = none) →
        lookupPrevTXs E chain (blocks.length + k) inputs m = some (.error .txMissing)) ∧
      ((∀ inp ∈ inputs, findInBlocks inp.ID blocks ≠ none) →
        ∃ m1, lookupPrevTXs E chain (blocks.length + k) inputs m = some (.ok m1) ∧
          ∀ key t, m1 key = some t ↔
            (∃ inp ∈ inputs, key = EncodeToString inp.ID ∧
                findInBlocks inp.ID blocks = some t) ∨
              ((∀ inp ∈ inputs, key ≠ EncodeToString inp.ID) ∧ m key = some t))
  | [], m => by
    refine ⟨fun h => ?_, fun _ => ⟨m, rfl, fun key t => ?_⟩⟩
    · obtain ⟨inp, hin, _⟩ := h
      exact absurd hin (List.not_mem_nil _)
    · simp
  | inp :: rest, m => by
    have hfind := FindTransaction_of_Linked E chain blocks hlinked inp.ID k
    cases hf : findInBlocks inp.ID blocks with
    | none =>
      refine ⟨fun _ => ?_, fun h => ?_⟩
      · simp only [lookupPrevTXs, hfind, hf]
      · exact absurd hf (h inp (List.mem_cons_self _ _))
    | some prevTX =>
      have hid : prevTX.ID = inp.ID := (findInBlocks_eq_some inp.ID blocks prevTX hf).1
      obtain ⟨ih1, ih2⟩ := lookupPrevTXs_of_Linked E chain blocks hlinked k rest
        (m.insert (EncodeToString prevTX.ID) prevTX)
      have hstep : lookupPrevTXs E chain (blocks.length + k) (inp :: rest) m =
          lookupPrevTXs E chain (blocks.length + k) rest
            (m.insert (EncodeToString prevTX.ID) prevTX) := by
        simp only [lookupPrevTXs, hfind, hf]
      rw [hstep]
      refine ⟨fun h => ?_, fun h => ?_⟩
      · obtain ⟨inp1, hin1, hnone⟩ := h
        rcases List.mem_cons.1 hin1 with rfl | hmem
        · rw [hf] at hnone
          exact absurd hnone (by simp)
        · exact ih1 ⟨inp1, hmem, hnone⟩
      · obtain ⟨m1, hm1, hkeys⟩ := ih2 (fun i hi => h i (List.mem_cons_of_mem _ hi))
        refine ⟨m1, hm1, fun key t => ?_⟩
        rw [hkeys key t]
        constructor
        · rintro (⟨i, hi, hk, hft⟩ | ⟨hnk, hm⟩)
          · exact Or.inl ⟨i, List.mem_cons_of_mem _ hi, hk, hft⟩
          · simp only [TxMap.insert] at hm
            by_cases hkey : key = EncodeToString prevTX.ID
            · rw [if_pos hkey] at hm
              refine Or.inl ⟨inp, List.mem_cons_self _ _, by rw [hkey, hid], ?_⟩
              rw [hf]
              exact hm
            · rw [if_neg hkey] at hm
              refine Or.inr ⟨fun i hi => ?_, hm⟩
              rcases List.mem_cons.1 hi with rfl | hmem
              · rw [← hid]
                exact hkey
              · exact hnk i hmem
        · rintro (⟨i, hi, hk, hft⟩ | ⟨hnk, hm⟩)
          · rcases List.mem_cons.1 hi with rfl | hmem
            · by_cases hlater : ∃ j ∈ rest, key = EncodeToString j.ID
              · obtain ⟨j, hj, hkj⟩ := hlater
                have hji : j.ID = i.ID := EncodeToString_injective _ _ (by rw [← hkj, ← hk])
                exact Or.inl ⟨j, hj, hkj, by rw [hji]; exact hft⟩
              · refine Or.inr ⟨fun j hj hkj => hlater ⟨j, hj, hkj⟩, ?_⟩
                rw [hf] at hft
                simp only [TxMap.insert, hk, hid, if_true]
                exact hft
            · exact Or.inl ⟨i, hmem, hk, hft⟩
          · refine Or.inr ⟨fun j hj => hnk j (List.mem_cons_of_mem _ hj), ?_⟩
            have hne : key ≠ EncodeToString prevTX.ID := by
              rw [hid]
              exact hnk inp (List.mem_cons_self _ _)
            simp only [TxMap.insert, hne, if_false]
            exact hm

/-- C13: on a well-formed chain, `SignTransaction` and `VerifyTransaction` stop with a
failure exactly when `FindTransaction` returns its error for the ID of some input of `tx`;
the failure is the abort of `Handle`, whatever the signature scheme, and no signed
transaction or verdict is produced. Otherwise both hand the signature scheme the same map,
whose keys are the hex encodings of the IDs of the inputs of `tx` and which maps each key
to the transaction that `FindTransaction` returns for that ID. -/
theorem SignTransaction_VerifyTransaction_lookup (E : Ext) (S : Signer) (chain : Blockchain)
    (blocks : List Block) (tx : Transaction) (privKey : Bytes) (k : Nat)
    (hlinked : Linked E chain.Database chain.lastHash blocks) :
    ((∃ c, chain.SignTransaction E S (blocks.length + k) tx privKey = some (.error c)) ↔
        ∃ inp ∈ tx.Inputs,
          chain.FindTransaction E (blocks.length + k) inp.ID = some (.ok none)) ∧
      ((∃ c, chain.VerifyTransaction E S (blocks.length + k) tx = some (.error c)) ↔
        ∃ inp ∈ tx.Inputs,
          chain.FindTransaction E (blocks.length + k) inp.ID = some (.ok none)) ∧
      ((∃ inp ∈ tx.Inputs,
          chain.FindTransaction E (blocks.length + k) inp.ID = some (.ok none)) →
        chain.SignTransaction E S (blocks.length + k) tx privKey =
            some (.error .txMissing) ∧
          chain.VerifyTransaction E S (blocks.length + k) tx = some (.error .txMissing)) ∧
      ((∀ inp ∈ tx.Inputs,
          chain.FindTransaction E (blocks.length + k) inp.ID ≠ some (.ok none)) →
        ∃ prevTXs,
          chain.SignTransaction E S (blocks.length + k) tx privKey =
            some (.ok (S.Sign tx privKey prevTXs)) ∧
          chain.VerifyTransaction E S (blocks.length + k) tx =
            some (.ok (S.Verify tx prevTXs)) ∧
          ∀ key t, prevTXs key = some t ↔
            ∃ inp ∈ tx.Inputs, key = EncodeToString inp.ID ∧
              chain.FindTransaction E (blocks.length + k) inp.ID = some (.ok (some t))) := by
  have hfind := fun ID => FindTransaction_of_Linked E chain blocks hlinked ID k
  obtain ⟨hfail, hok⟩ := lookupPrevTXs_of_Linked E chain blocks hlinked k tx.Inputs (fun _ => none)
  have hmiss : (∃ inp ∈ tx.Inputs,
      chain.FindTransaction E (blocks.length + k) inp.ID = some (.ok none)) ↔
      ∃ inp ∈ tx.Inputs, findInBlocks inp.ID blocks = none := by
    constructor
    · rintro ⟨inp, hin, h⟩
      rw [hfind] at h
      exact ⟨inp, hin, by simpa using h⟩
    · rintro ⟨inp, hin, h⟩
      exact ⟨inp, hin, by rw [hfind, h]⟩
  have hcases : (∃ inp ∈ tx.Inputs, findInBlocks inp.ID blocks = none) ∨
      ∀ inp ∈ tx.Inputs, findInBlocks inp.ID blocks ≠ none := by
    by_cases h : ∃ inp ∈ tx.Inputs, findInBlocks inp.ID blocks = none
    · exact Or.inl h
    · exact Or.inr (fun inp hin hnone => h ⟨inp, hin, hnone⟩)
  refine ⟨?_, ?_, ?_, ?_⟩
  · rw [hmiss]
    rcases hcases with h | h
    · simp only [Blockchain.SignTransaction, hfail h]
      exact ⟨fun _ => h, fun _ => ⟨_, rfl⟩⟩
    · obtain ⟨m, hm, _⟩ := hok h
      simp only [Blockchain.SignTransaction, hm]
      constructor
      · rintro ⟨c, hc⟩
        simp at hc
      · rintro ⟨inp, hin, hnone⟩
        exact absurd hnone (h inp hin)
  · rw [hmiss]
    rcases hcases with h | h
    · simp only [Blockchain.VerifyTransaction, hfail h]
      exact ⟨fun _ => h, fun _ => ⟨_, rfl⟩⟩
    · obtain ⟨m, hm, _⟩ := hok h
      simp only [Blockchain.VerifyTransaction, hm]
      constructor
      · rintro ⟨c, hc⟩
        simp at hc
      · rintro ⟨inp, hin, hnone⟩
        exact absurd hnone (h inp hin)
  · intro h
    have h1 := hfail (hmiss.1 h)
    simp only [Blockchain.SignTransaction, Blockchain.VerifyTransaction, h1, and_self]
  · intro h
    have h1 : ∀ inp ∈ tx.Inputs, findInBlocks inp.ID blocks ≠ none := by
      intro inp hin hnone
      exact h inp hin (by rw [hfind, hnone])
    obtain ⟨m, hm, hkeys⟩ := hok h1
    refine ⟨m, ?_, ?_, fun key t => ?_⟩
    · simp only [Blockchain.SignTransaction, hm]
    · simp only [Blockchain.VerifyTransaction, hm]
    · rw [hkeys key t]
      constructor
      · rintro (⟨inp, hin, hk, hf⟩ | ⟨_, hm0⟩)
        · exact ⟨inp, hin, hk, by rw [hfind, hf]⟩
        · exact absurd hm0 (by simp)
      · rintro ⟨inp, hin, hk, hf⟩
        rw [hfind] at hf
        exact Or.inl ⟨inp, hin, hk, by simpa using hf⟩

/-- The run of C13 on the sample ledger with two appended blocks, for the transaction
`Sample.payB`, whose input references `Sample.split`. -/
theorem SignTransaction_VerifyTransaction_lookup_witness :
    (Sample.ledger [[Sample.split], [Sample.payB]]).SignTransaction Sample.ext Sample.signer 3
        Sample.payB [7] =
      some (.ok { Sample.payB with
        Inputs := [{ ID := [1], Out := 0, Signature := [7], PubKey := Sample.keyA }] }) ∧
      (Sample.ledger [[Sample.split], [Sample.payB]]).VerifyTransaction Sample.ext
        Sample.signer 3 Sample.payB = some (.ok true) ∧
      ((∃ c, (Sample.ledger [[Sample.split], [Sample.payB]]).SignTransaction Sample.ext
          Sample.signer
          ((chainBlocks Sample.ext "A" [[Sample.split], [Sample.payB]]).length + 0)
          Sample.payB [7] = some (.error c)) ↔
        ∃ inp ∈ Sample.payB.Inputs,
          (Sample.ledger [[Sample.split], [Sample.payB]]).FindTransaction Sample.ext
            ((chainBlocks Sample.ext "A" [[Sample.split], [Sample.payB]]).length + 0)
            inp.ID = some (.ok none)) :=
  ⟨rfl, rfl,
    (SignTransaction_VerifyTransaction_lookup Sample.ext Sample.signer
      (Sample.ledger [[Sample.split], [Sample.payB]])
      (chainBlocks Sample.ext "A" [[Sample.split], [Sample.payB]]) Sample.payB [7] 0
      Sample.ledger_linked).1⟩

/-- C12: on a well-formed chain none of whose transactions has the empty ID,
`VerifyTransaction` does not return for a coinbase transaction: the lookup of the empty ID
of its input ends with the error of `FindTransaction`, on which `Handle` aborts, before
the verification of the transaction component is reached. -/
theorem VerifyTransaction_coinbase_aborts (E : Ext) (S : Signer) (chain : Blockchain)
    (blocks : List Block) (tx : Transaction) (k : Nat)
    (hlinked : Linked E chain.Database chain.lastHash blocks)
    (hids : ∀ b ∈ blocks, ∀ t ∈ b.TransActions, t.ID ≠ [])
    (hcoinbase : tx.IsCoinbase = true) :
    chain.VerifyTransaction E S (blocks.length + k) tx = some (.error .txMissing) := by
  obtain ⟨hfail, _⟩ := lookupPrevTXs_of_Linked E chain blocks hlinked k tx.Inputs (fun _ => none)
  have hmiss : ∃ inp ∈ tx.Inputs, findInBlocks inp.ID blocks = none := by
    unfold Transaction.IsCoinbase at hcoinbase
    split at hcoinbase
    · rename_i inp hinp
      refine ⟨inp, by rw [hinp]; exact List.mem_cons_self _ _, ?_⟩
      have hnil : inp.ID = [] := by
        rw [← List.length_eq_zero]
        simpa using hcoinbase
      rw [hnil, findInBlocks_eq_none]
      exact hids
    · exact absurd hcoinbase (by simp)
  simp only [Blockchain.VerifyTransaction, hfail hmiss]

/-- The failing run of C12 on the sample ledger with two appended blocks, for a coinbase
transaction that pays `"A"`. -/
theorem VerifyTransaction_coinbase_aborts_witness :
    (CoinbaseTx Sample.ext "A" genesisData).IsCoinbase = true ∧
      Sample.signer.Verify (CoinbaseTx Sample.ext "A" genesisData) (fun _ => none) = true ∧
      (Sample.ledger [[Sample.split], [Sample.payB]]).VerifyTransaction Sample.ext
        Sample.signer ((chainBlocks Sample.ext "A" [[Sample.split], [Sample.payB]]).length + 0)
        (CoinbaseTx Sample.ext "A" genesisData) = some (.error .txMissing) :=
  ⟨by decide, by decide,
    VerifyTransaction_coinbase_aborts Sample.ext Sample.signer
      (Sample.ledger [[Sample.split], [Sample.payB]])
      (chainBlocks Sample.ext "A" [[Sample.split], [Sample.payB]])
      (CoinbaseTx Sample.ext "A" genesisData) 0 Sample.ledger_linked (by decide) (by decide)⟩

/-! ## Appending under storage faults -/

theorem AddBlockWithFaults_of_AddBlock (E : Ext) (chain c1 : Blockchain) (txs : List Transaction)
    (hadd : AddBlock E chain txs = .ok c1) :
    AddBlockWithFaults E Faults.none chain txs = (c1, none) := by
  unfold AddBlock at hadd
  unfold AddBlockWithFaults
  simp only [Faults.none, withFault]
  cases h1 : Handle (txnGet chain.Database lhKey) with
  | error c => simp [h1] at hadd
  | ok tip =>
    simp only [h1] at hadd ⊢
    cases h2 : Handle (txnSet chain.Database (CreateBlock E txs tip).Hash
        (E.Serialize (CreateBlock E txs tip))) with
    | error c => simp [h2] at hadd
    | ok db1 =>
      simp only [h2] at hadd ⊢
      cases h3 : Handle (txnSet db1 lhKey (CreateBlock E txs tip).Hash) with
      | error c => simp [h3] at hadd
      | ok db2 =>
        simp only [h3, Except.ok.injEq] at hadd ⊢
        simp only [Handle, hadd]

/-- C14: when `AddBlock` ends with an abort, the database is as before the call, so the
value persisted under `lh` is unchanged; but when the abort comes after the write of the
block (from the write of `lh` or from the commit), the cached `lastHash` of the handle is
already the hash of the new block, which the database does not hold. -/
theorem AddBlockWithFaults_abort_state (E : Ext) (faults : Faults) (chain : Blockchain)
    (txs : List Transaction) (c : Crash)
    (habort : (AddBlockWithFaults E faults chain txs).2 = some c) :
    (AddBlockWithFaults E faults chain txs).1.Database = chain.Database ∧
      ∀ tip, txnGet chain.Database lhKey = .ok tip → faults.getTip = none →
        faults.setBlock = none → (CreateBlock E txs tip).Hash ≠ [] →
        (AddBlockWithFaults E faults chain txs).1.lastHash = (CreateBlock E txs tip).Hash ∧
          txnGet (AddBlockWithFaults E faults chain txs).1.Database lhKey = .ok tip ∧
          (chain.Database (CreateBlock E txs tip).Hash = none →
            txnGet (AddBlockWithFaults E faults chain txs).1.Database
              (AddBlockWithFaults E faults chain txs).1.lastHash = .error .ErrKeyNotFound) := by
  have hdb : (AddBlockWithFaults E faults chain txs).1.Database = chain.Database := by
    unfold AddBlockWithFaults at habort ⊢
    cases h1 : Handle (withFault faults.getTip (txnGet chain.Database lhKey)) with
    | error c1 => rfl
    | ok tip =>
      simp only [h1] at habort ⊢
      cases h2 : Handle (withFault faults.setBlock (txnSet chain.Database
          (CreateBlock E txs tip).Hash (E.Serialize (CreateBlock E txs tip)))) with
      | error c2 => rfl
      | ok db1 =>
        simp only [h2] at habort ⊢
        cases h3 : Handle (withFault faults.setTip
            (txnSet db1 lhKey (CreateBlock E txs tip).Hash)) with
        | error c3 => rfl
        | ok db2 =>
          simp only [h3] at habort ⊢
          cases h4 : Handle (withFault faults.commit (Except.ok db2)) with
          | error c4 => rfl
          | ok db3 => simp [h4] at habort
  refine ⟨hdb, fun tip htip hf1 hf2 hne => ?_⟩
  have hlast : (AddBlockWithFaults E faults chain txs).1.lastHash = (CreateBlock E txs tip).Hash := by
    unfold AddBlockWithFaults at habort ⊢
    simp only [hf1, hf2, withFault, htip, Handle, txnSet, hne, if_false] at habort ⊢
    cases h3 : faults.setTip with
    | some e => simp only [h3]
    | none =>
      have hl : lhKey ≠ [] := by decide
      simp only [h3, hl, if_false] at habort ⊢
      cases h4 : faults.commit with
      | some e => simp only [h4]
      | none => simp [h4] at habort
  refine ⟨hlast, by rw [hdb]; exact htip, fun hfresh => ?_⟩
  rw [hdb, hlast]
  simp [txnGet, hne, hfresh]

/-- The failing run of C14 on the sample ledger: the block holding `Sample.payB` is
appended to the ledger that holds `Sample.split`, and the write of `lh` fails. -/
theorem AddBlockWithFaults_abort_state_witness :
    (AddBlockWithFaults Sample.ext { Faults.none with setTip := some .ErrTxnTooBig }
        (Sample.ledger [[Sample.split]]) [Sample.payB]).2 = some (.handle .ErrTxnTooBig) ∧
      (Sample.ledger [[Sample.split]]).lastHash = [2, 1] ∧
      (AddBlockWithFaults Sample.ext { Faults.none with setTip := some .ErrTxnTooBig }
        (Sample.ledger [[Sample.split]]) [Sample.payB]).1.lastHash = [3, 2, 1] ∧
      txnGet (AddBlockWithFaults Sample.ext { Faults.none with setTip := some .ErrTxnTooBig }
        (Sample.ledger [[Sample.split]]) [Sample.payB]).1.Database lhKey = .ok [2, 1] ∧
      txnGet (AddBlockWithFaults Sample.ext { Faults.none with setTip := some .ErrTxnTooBig }
        (Sample.ledger [[Sample.split]]) [Sample.payB]).1.Database [3, 2, 1] =
        .error .ErrKeyNotFound := by
  have h := AddBlockWithFaults_abort_state Sample.ext { Faults.none with setTip := some .ErrTxnTooBig }
    (Sample.ledger [[Sample.split]]) [Sample.payB] (.handle .ErrTxnTooBig) rfl
  have h2 := h.2 [2, 1] rfl rfl rfl (by decide)
  exact ⟨rfl, rfl, h2.1, h2.2.1, h2.2.2 rfl⟩

/-! ## Iterators and appends -/

theorem walk_empty_key (E : Ext) (db db1 : Store) (n : Nat) :
    walk E db n { CurrentHash := [] } = walk E db1 n { CurrentHash := [] } := by
  cases n with
  | zero => rfl
  | succ n => simp [walk, BlockchainIterator.Next, txnGet_nil]

theorem walk_empty_key_blocks (E : Ext) (db : Store) (n : Nat) (bs : List Block)
    (it1 : BlockchainIterator) (h : walk E db n { CurrentHash := [] } = .ok (bs, it1)) :
    bs = [] := by
  cases n with
  | zero =>
    simp only [walk, Except.ok.injEq, Prod.mk.injEq] at h
    exact h.1.symm
  | succ n => simp [walk, BlockchainIterator.Next, txnGet_nil] at h

theorem walk_congr_of_Linked (E : Ext) (db db1 : Store) :
    ∀ (blocks : List Block) (tip : Bytes) (n : Nat), Linked E db tip blocks →
      Linked E db1 tip blocks →
      walk E db n { CurrentHash := tip } = walk E db1 n { CurrentHash := tip }
  | [], _, _, h, _ => h.elim
  | b :: rest, tip, n, h, h1 => by
    cases n with
    | zero => rfl
    | succ n =>
      obtain ⟨_, hg, hd, hr⟩ := h
      obtain ⟨_, hg1, _, hr1⟩ := h1
      have hnext := Next_of_stored E db tip b hg hd
      have hnext1 := Next_of_stored E db1 tip b hg1 hd
      have hrest : walk E db n { CurrentHash := b.PrevHash } =
          walk E db1 n { CurrentHash := b.PrevHash } := by
        cases rest with
        | nil =>
          rw [hr]
          exact walk_empty_key E db db1 n
        | cons b1 rest1 =>
          exact walk_congr_of_Linked E db db1 (b1 :: rest1) b.PrevHash n hr.2 hr1.2
      simp only [walk, hnext, hnext1, hrest]

theorem walk_subset_of_Linked (E : Ext) (db : Store) :
    ∀ (blocks : List Block) (tip : Bytes) (n : Nat) (bs : List Block)
      (it1 : BlockchainIterator), Linked E db tip blocks →
      walk E db n { CurrentHash := tip } = .ok (bs, it1) → ∀ b ∈ bs, b ∈ blocks
  | [], _, _, _, _, h, _ => h.elim
  | b :: rest, tip, n, bs, it1, h, hw => by
    cases n with
    | zero =>
      simp only [walk, Except.ok.injEq, Prod.mk.injEq] at hw
      intro b1 hb1
      rw [← hw.1] at hb1
      exact absurd hb1 (List.not_mem_nil _)
    | succ n =>
      obtain ⟨_, hg, hd, hr⟩ := h
      have hnext := Next_of_stored E db tip b hg hd
      simp only [walk, hnext] at hw
      cases hrest : walk E db n { CurrentHash := b.PrevHash } with
      | error c => simp [hrest] at hw
      | ok r =>
        obtain ⟨bs1, it2⟩ := r
        simp only [hrest, Except.ok.injEq, Prod.mk.injEq] at hw
        intro b1 hb1
        rw [← hw.1] at hb1
        rcases List.mem_cons.1 hb1 with rfl | hmem
        · exact List.mem_cons_self _ _
        · refine List.mem_cons_of_mem _ ?_
          cases rest with
          | nil =>
            rw [hr] at hrest
            rw [walk_empty_key_blocks E db n bs1 it2 hrest] at hmem
            exact absurd hmem (List.not_mem_nil _)
          | cons b2 rest2 =>
            exact walk_subset_of_Linked E db (b2 :: rest2) b.PrevHash n bs1 it2 hr.2 hrest
              b1 hmem

theorem Linked_stored (E : Ext) (db : Store) :
    ∀ (blocks : List Block) (tip : Bytes), Linked E db tip blocks →
      ∀ b ∈ blocks, db b.Hash ≠ none
  | [], _, h, _, _ => h.elim
  | b0 :: rest, tip, h, b1, hb1 => by
    obtain ⟨h1, h2, _, h4⟩ := h
    rcases List.mem_cons.1 hb1 with rfl | hmem
    · rw [h1, ((txnGet_ok_iff _ _ _).1 h2).2]
      simp
    · cases rest with
      | nil => exact absurd hmem (List.not_mem_nil _)
      | cons b2 rest2 => exact Linked_stored E db (b2 :: rest2) b0.PrevHash h4.2 b1 hmem

/-- C15: `AddBlock` changes the database at the keys `newBlock.Hash` and `lh` only. For
an iterator that stands on a stored chain of blocks (or on the empty hash) and a new block
whose hash is not yet a key of the database, every number of `Next` calls gives the same
result after the append as before it, and the blocks returned do not include the new
block. The hashes of the stored blocks are assumed to differ from the key `lh`. -/
theorem AddBlock_keeps_iteration (E : Ext) (chain c1 : Blockchain) (txs : List Transaction)
    (tip : Bytes) (iter : BlockchainIterator) (blocks : List Block)
    (htip : txnGet chain.Database lhKey = .ok tip)
    (hadd : AddBlock E chain txs = .ok c1)
    (hfresh : chain.Database (CreateBlock E txs tip).Hash = none)
    (hiter : iter.CurrentHash = [] ∨
      (Linked E chain.Database iter.CurrentHash blocks ∧ lhKey ∉ blocks.map Block.Hash)) :
    (∀ key, key ≠ (CreateBlock E txs tip).Hash → key ≠ lhKey →
        c1.Database key = chain.Database key) ∧
      (∀ n, walk E c1.Database n iter = walk E chain.Database n iter) ∧
      ∀ n bs it1, walk E c1.Database n iter = .ok (bs, it1) →
        CreateBlock E txs tip ∉ bs := by
  obtain ⟨tip1, htip1, hne, hc1⟩ := (AddBlock_ok_iff E chain c1 txs).1 hadd
  have htipEq : tip1 = tip := by
    rw [htip] at htip1
    exact (Except.ok.inj htip1).symm
  rw [htipEq] at hc1
  subst hc1
  have hframe : ∀ key, key ≠ (CreateBlock E txs tip).Hash → key ≠ lhKey →
      (fun k =>
        if k = lhKey then some (CreateBlock E txs tip).Hash
        else if k = (CreateBlock E txs tip).Hash then
          some (E.Serialize (CreateBlock E txs tip))
        else chain.Database k) key = chain.Database key := by
    intro key h1 h2
    simp [h1, h2]
  obtain ⟨cur⟩ := iter
  refine ⟨hframe, ?_, ?_⟩
  · intro n
    rcases hiter with h0 | ⟨hl, hlh⟩
    · simp only at h0
      subst h0
      exact walk_empty_key E _ _ n
    · refine walk_congr_of_Linked E _ _ blocks cur n ?_ hl
      refine Linked_congr E chain.Database _ blocks cur hl (fun b hb => hframe _ ?_ ?_)
      · intro hEq
        have hstored := Linked_stored E chain.Database
        exact hstored blocks cur hl b hb (by rw [hEq]; exact hfresh)
      · intro hEq
        exact hlh (by rw [← hEq]; exact List.mem_map_of_mem _ hb)
  · intro n bs it1 hw hmem
    rcases hiter with h0 | ⟨hl, hlh⟩
    · simp only at h0
      subst h0
      rw [walk_empty_key_blocks E _ n bs it1 hw] at hmem
      exact absurd hmem (List.not_mem_nil _)
    · have hstored := Linked_stored E chain.Database
      have hl1 : Linked E (fun k =>
          if k = lhKey then some (CreateBlock E txs tip).Hash
          else if k = (CreateBlock E txs tip).Hash then
            some (E.Serialize (CreateBlock E txs tip))
          else chain.Database k) cur blocks := by
        refine Linked_congr E chain.Database _ blocks cur hl (fun b hb => hframe _ ?_ ?_)
        · intro hEq
          exact hstored blocks cur hl b hb (by rw [hEq]; exact hfresh)
        · intro hEq
          exact hlh (by rw [← hEq]; exact List.mem_map_of_mem _ hb)
      have hin := walk_subset_of_Linked E _ blocks cur n bs it1 hl1 hw _ hmem
      exact hstored blocks cur hl _ hin hfresh

theorem Sample.ledger_split_linked :
    Linked Sample.ext (Sample.ledger [[Sample.split]]).Database [2, 1]
      (chainBlocks Sample.ext "A" [[Sample.split]]) :=
  (Linked_of_buildChain Sample.ext "A" [[Sample.split]] (Sample.ledger [[Sample.split]]) rfl
    (by decide) (by decide) (by decide)).2.1

/-- The run of C15 on the sample ledger: an iterator of the ledger that holds
`Sample.split` returns the same two blocks after the block holding `Sample.payB` is
appended. -/
theorem AddBlock_keeps_iteration_witness :
    AddBlock Sample.ext (Sample.ledger [[Sample.split]]) [Sample.payB] =
        .ok (Sample.ledger [[Sample.split], [Sample.payB]]) ∧
      ((Sample.ledger [[Sample.split]]).Iterator = { CurrentHash := [2, 1] }) ∧
      walk Sample.ext (Sample.ledger [[Sample.split], [Sample.payB]]).Database 2
          { CurrentHash := [2, 1] } =
        walk Sample.ext (Sample.ledger [[Sample.split]]).Database 2 { CurrentHash := [2, 1] } ∧
      walk Sample.ext (Sample.ledger [[Sample.split]]).Database 2 { CurrentHash := [2, 1] } =
        .ok (chainBlocks Sample.ext "A" [[Sample.split]], { CurrentHash := [] }) :=
  ⟨rfl, rfl,
    (AddBlock_keeps_iteration Sample.ext (Sample.ledger [[Sample.split]])
      (Sample.ledger [[Sample.split], [Sample.payB]]) [Sample.payB] [2, 1]
      { CurrentHash := [2, 1] } (chainBlocks Sample.ext "A" [[Sample.split]]) rfl rfl rfl
      (Or.inr ⟨Sample.ledger_split_linked, by decide⟩)).2.1 2,
    rfl⟩

/-! ## The example scenario -/

theorem FindUnspentTransactions_of_Linked (E : Ext) (chain : Blockchain)
    (blocks : List Block) (hlinked : Linked E chain.Database chain.lastHash blocks)
    (pubKeyHash : Bytes) (k : Nat) :
    chain.FindUnspentTransactions E (blocks.length + k) pubKeyHash =
      some (.ok (scanBlocks E pubKeyHash blocks ([], fun _ => [])).1) := by
  simp only [Blockchain.FindUnspentTransactions, Blockchain.Iterator]
  exact findUnspentLoop_of_Linked E chain.Database pubKeyHash k blocks chain.lastHash
    ([], fun _ => []) hlinked

theorem Linked_handle_of_buildChain (E : Ext) (address : String)
    (txss : List (List Transaction)) (c : Blockchain) (hne : txss ≠ [])
    (hbuild : buildChain E address txss = .ok c)
    (hfresh : ((chainBlocks E address txss).map Block.Hash).Nodup)
    (hlh : lhKey ∉ (chainBlocks E address txss).map Block.Hash)
    (hcodec : ∀ b ∈ chainBlocks E address txss, E.Deserialize (E.Serialize b) = some b) :
    Linked E c.Database c.lastHash (chainBlocks E address txss) := by
  have h := Linked_of_buildChain E address txss c hbuild hfresh hlh hcodec
  rw [h.2.2.1 hne]
  exact h.2.1

/-- C16: on the ledger initialised for an address with key hash `A` (reward 100 or any
other), to
which one block is appended that holds one transaction whose single input uses the key of
`A` and spends the coinbase output and whose outputs are 30 locked to `B` and 70 locked to
`A`, with `A` different from `B`: `FindUTXO(A)` returns the output of value 70 alone,
`FindUTXO(B)` the output of value 30 alone, `FindTransaction` of the coinbase ID returns
the coinbase transaction, and `FindSpendableOutput(A, 71)` accumulates 70. The coinbase ID
is assumed non-empty and different from the ID of the spending transaction, the block
hashes distinct and different from `lh`, and the codec exact on the two blocks. -/
theorem example_scenario (E : Ext) (address : String) (spend : Transaction) (inp : TxInput)
    (keyB : Bytes) (c : Blockchain) (k : Nat)
    (hinputs : spend.Inputs = [inp])
    (hinID : inp.ID = (CoinbaseTx E address genesisData).ID)
    (hinOut : inp.Out = 0)
    (hinKey : inp.UsesKey E (E.addressKeyHash address) = true)
    (houtputs : spend.Outputs = [{ Value := 30, PubKeyHash := keyB },
      { Value := 70, PubKeyHash := E.addressKeyHash address }])
    (hAB : E.addressKeyHash address ≠ keyB)
    (hcbID : (CoinbaseTx E address genesisData).ID ≠ [])
    (hspendID : spend.ID ≠ (CoinbaseTx E address genesisData).ID)
    (hbuild : buildChain E address [[spend]] = .ok c)
    (hfresh : ((chainBlocks E address [[spend]]).map Block.Hash).Nodup)
    (hlh : lhKey ∉ (chainBlocks E address [[spend]]).map Block.Hash)
    (hcodec : ∀ b ∈ chainBlocks E address [[spend]], E.Deserialize (E.Serialize b) = some b) :
    c.FindUTXO E (2 + k) (E.addressKeyHash address) =
        some (.ok [{ Value := 70, PubKeyHash := E.addressKeyHash address }]) ∧
      c.FindUTXO E (2 + k) keyB = some (.ok [{ Value := 30, PubKeyHash := keyB }]) ∧
      c.FindTransaction E (2 + k) (CoinbaseTx E address genesisData).ID =
        some (.ok (some (CoinbaseTx E address genesisData))) ∧
      ∃ sel, c.FindSpendableOutput E (2 + k) (E.addressKeyHash address) 71 =
        some (.ok (70, sel)) := by
  have hlinked := Linked_handle_of_buildChain E address [[spend]] c (by simp) hbuild hfresh
    hlh hcodec
  have hlen : (chainBlocks E address [[spend]]).length = 2 := rfl
  have hU := fun h => FindUnspentTransactions_of_Linked E c _ hlinked h k
  have hT := FindTransaction_of_Linked E c _ hlinked (CoinbaseTx E address genesisData).ID k
  rw [hlen] at hU hT
  have hBA : keyB ≠ E.addressKeyHash address := fun h => hAB h.symm
  have hcbOut : (CoinbaseTx E address genesisData).Outputs =
      [{ Value := E.reward, PubKeyHash := E.addressKeyHash address }] := rfl
  have hcbCoin : (CoinbaseTx E address genesisData).IsCoinbase = true := by
    simp [CoinbaseTx, Transaction.IsCoinbase]
  have hspendCoin : spend.IsCoinbase = false := by
    simp [Transaction.IsCoinbase, hinputs, hinID, hcbID]
  have hkeyB : inp.UsesKey E keyB = false := by
    simp only [TxInput.UsesKey, decide_eq_true_eq, decide_eq_false_iff_not] at hinKey ⊢
    rw [hinKey]
    exact hAB
  have hscanA : (scanBlocks E (E.addressKeyHash address) (chainBlocks E address [[spend]])
      ([], fun _ => [])).1 = [spend] := by
    simp [scanBlocks, chainBlocks, CreateBlock, Genesis, tipHash, scanTx, scanOutputs,
      recordInputs, hspendCoin, hcbCoin, hinputs, houtputs, hcbOut, hinKey, hinID, hinOut,
      TxOutput.IsLockedWithKey, hBA, IndexMap.append]
  have hscanB : (scanBlocks E keyB (chainBlocks E address [[spend]])
      ([], fun _ => [])).1 = [spend] := by
    simp [scanBlocks, chainBlocks, CreateBlock, Genesis, tipHash, scanTx, scanOutputs,
      recordInputs, hspendCoin, hcbCoin, hinputs, houtputs, hcbOut, hkeyB,
      TxOutput.IsLockedWithKey, hAB]
  refine ⟨?_, ?_, ?_, ?_⟩
  · simp [Blockchain.FindUTXO, hU, hscanA, collectUTXO, houtputs, TxOutput.IsLockedWithKey,
      hBA]
  · simp [Blockchain.FindUTXO, hU, hscanB, collectUTXO, houtputs, TxOutput.IsLockedWithKey,
      hAB]
  · rw [hT]
    simp [findInBlocks, chainBlocks, CreateBlock, Genesis, tipHash, hspendID]
  · refine ⟨(selectTxs (E.addressKeyHash address) 71 [spend]
      { accumulated := 0, unspentOuts := fun _ => [], stopped := false }).unspentOuts, ?_⟩
    have h70 : intAdd 0 70 = 70 := by decide
    have hacc : (selectTxs (E.addressKeyHash address) 71 [spend]
        { accumulated := 0, unspentOuts := fun _ => [], stopped := false }).accumulated =
        70 := by
      simp [selectTxs, houtputs, selectOutputs, TxOutput.IsLockedWithKey, hBA, h70]
    simp only [Blockchain.FindSpendableOutput, hU, hscanA, hacc]

/-- The run of C16 on the sample collaborators, with `A` the key hash of `"A"` and `B` the
key hash of `"B"`. -/
theorem example_scenario_witness :
    Sample.ext.reward = 100 ∧
      Sample.pay.Outputs = [{ Value := 30, PubKeyHash := Sample.keyB },
        { Value := 70, PubKeyHash := Sample.keyA }] ∧
      (Sample.ledger [[Sample.pay]]).FindUTXO Sample.ext (2 + 0) Sample.keyA =
        some (.ok [{ Value := 70, PubKeyHash := Sample.keyA }]) ∧
      (Sample.ledger [[Sample.pay]]).FindUTXO Sample.ext (2 + 0) Sample.keyB =
        some (.ok [{ Value := 30, PubKeyHash := Sample.keyB }]) ∧
      (Sample.ledger [[Sample.pay]]).FindTransaction Sample.ext (2 + 0) Sample.coinbaseID =
        some (.ok (some (CoinbaseTx Sample.ext "A" genesisData))) ∧
      ∃ sel, (Sample.ledger [[Sample.pay]]).FindSpendableOutput Sample.ext (2 + 0)
        Sample.keyA 71 = some (.ok (70, sel)) :=
  ⟨rfl, rfl,
    example_scenario Sample.ext "A" Sample.pay
      { ID := Sample.coinbaseID, Out := 0, Signature := [], PubKey := Sample.keyA }
      Sample.keyB (Sample.ledger [[Sample.pay]]) 0 rfl rfl rfl rfl rfl (by decide)
      (by decide) (by decide) rfl (by decide) (by decide) (by decide)⟩

/-! ## The walk of the resolver -/

theorem scanBlocks_eq_foldl (E : Ext) (pubKeyHash : Bytes) :
    ∀ (blocks : List Block) (st : List Transaction × IndexMap),
      scanBlocks E pubKeyHash blocks st = (walkOrder blocks).foldl (scanTx E pubKeyHash) st
  | [], _ => rfl
  | b :: rest, st => by
    have ih := scanBlocks_eq_foldl E pubKeyHash rest
      (b.TransActions.foldl (scanTx E pubKeyHash) st)
    simp only [scanBlocks, walkOrder, List.foldl_cons, List.flatMap_cons,
      List.foldl_append] at ih ⊢
    exact ih

theorem recordInputs_mem (E : Ext) (pubKeyHash : Bytes) :
    ∀ (inputs : List TxInput) (m : IndexMap) (key : String) (i : Int),
      i ∈ recordInputs E pubKeyHash inputs m key ↔
        i ∈ m key ∨ ∃ inp ∈ inputs, inp.UsesKey E pubKeyHash = true ∧
          EncodeToString inp.ID = key ∧ inp.Out = i
  | [], m, key, i => by simp [recordInputs]
  | inp :: rest, m, key, i => by
    rw [recordInputs]
    by_cases hu : inp.UsesKey E pubKeyHash = true
    · simp only [hu, if_true]
      rw [recordInputs_mem E pubKeyHash rest]
      simp only [IndexMap.append, List.mem_cons, exists_eq_or_imp, hu, true_and]
      by_cases hk : key = EncodeToString inp.ID
      · subst hk
        simp only [if_true, List.mem_append, List.mem_singleton, true_and]
        constructor
        · rintro ((h | h) | h)
          · exact Or.inl h
          · exact Or.inr (Or.inl h.symm)
          · exact Or.inr (Or.inr h)
        · rintro (h | h | h)
          · exact Or.inl (Or.inl h)
          · exact Or.inl (Or.inr h.symm)
          · exact Or.inr h
      · have hk1 : ¬ EncodeToString inp.ID = key := fun h => hk h.symm
        simp only [hk, if_false, hk1, false_and, false_or]
    · simp only [hu, if_false, Bool.false_eq_true]
      rw [recordInputs_mem E pubKeyHash rest]
      simp only [List.mem_cons, exists_eq_or_imp, hu, false_and, false_or, Bool.false_eq_true]

theorem scanOutputs_eq_replicate (pubKeyHash : Bytes) (tx : Transaction) (spent : List Int) :
    ∀ (outs : List TxOutput) (n : Nat) (acc : List Transaction),
      scanOutputs pubKeyHash tx spent n outs acc =
        acc ++ List.replicate ((List.range outs.length).countP (fun j =>
          lockedAt pubKeyHash { ID := [], Inputs := [], Outputs := outs } j &&
            !decide (((n + j : Nat) : Int) ∈ spent))) tx
  | [], n, acc => by simp [scanOutputs]
  | out :: rest, n, acc => by
    rw [scanOutputs]
    have hrange : (List.range (out :: rest).length).countP (fun j =>
        lockedAt pubKeyHash { ID := [], Inputs := [], Outputs := out :: rest } j &&
          !decide (((n + j : Nat) : Int) ∈ spent)) =
        (if (out.IsLockedWithKey pubKeyHash && !decide (((n : Nat) : Int) ∈ spent)) = true
          then 1 else 0) +
        (List.range rest.length).countP (fun j =>
          lockedAt pubKeyHash { ID := [], Inputs := [], Outputs := rest } j &&
            !decide (((n + 1 + j : Nat) : Int) ∈ spent)) := by
      rw [List.length_cons, List.range_succ_eq_map, List.countP_cons, List.countP_map,
        Nat.add_comm]
      congr 1
      · simp [lockedAt]
      · apply congrArg (fun p => List.countP p (List.range rest.length))
        funext j
        simp only [Function.comp, Nat.succ_eq_add_one, lockedAt_cons]
        have : n + (j + 1) = n + 1 + j := by omega
        rw [this]
    rw [hrange]
    by_cases hs : ((n : Nat) : Int) ∈ spent
    · simp only [hs, if_true, decide_True, Bool.not_true, Bool.and_false, Bool.false_eq_true,
        if_false, Nat.zero_add]
      exact scanOutputs_eq_replicate pubKeyHash tx spent rest (n + 1) acc
    · simp only [hs, if_false, decide_False, Bool.not_false, Bool.and_true]
      by_cases hl : out.IsLockedWithKey pubKeyHash = true
      · simp only [hl, if_true]
        rw [scanOutputs_eq_replicate pubKeyHash tx spent rest (n + 1) (acc ++ [tx]),
          List.append_assoc, Nat.add_comm 1, List.replicate_succ]
        rfl
      · simp only [hl, if_false, Bool.false_eq_true, Nat.zero_add]
        exact scanOutputs_eq_replicate pubKeyHash tx spent rest (n + 1) acc

theorem recordedBefore_append (E : Ext) (pubKeyHash : Bytes) (visited : List Transaction)
    (tx : Transaction) (key : String) (i : Int) :
    recordedBefore E pubKeyHash (visited ++ [tx]) key i = true ↔
      recordedBefore E pubKeyHash visited key i = true ∨
        (tx.IsCoinbase = false ∧ ∃ inp ∈ tx.Inputs, inp.UsesKey E pubKeyHash = true ∧
          EncodeToString inp.ID = key ∧ inp.Out = i) := by
  simp only [recordedBefore, List.any_append, List.any_cons, List.any_nil, Bool.or_false,
    Bool.or_eq_true, Bool.and_eq_true, Bool.not_eq_true', List.any_eq_true,
    decide_eq_true_eq]
  constructor
  · rintro (h | ⟨h1, inp, hin, ⟨h2, h3⟩, h4⟩)
    · exact Or.inl h
    · exact Or.inr ⟨h1, inp, hin, h2, h3, h4⟩
  · rintro (h | ⟨h1, inp, hin, h2, h3, h4⟩)
    · exact Or.inl h
    · exact Or.inr ⟨h1, inp, hin, ⟨h2, h3⟩, h4⟩

theorem recordedBefore_iff (E : Ext) (pubKeyHash : Bytes) (visited : List Transaction)
    (key : String) (i : Int) :
    recordedBefore E pubKeyHash visited key i = true ↔
      ∃ tx ∈ visited, tx.IsCoinbase = false ∧ ∃ inp ∈ tx.Inputs,
        inp.UsesKey E pubKeyHash = true ∧ EncodeToString inp.ID = key ∧ inp.Out = i := by
  simp only [recordedBefore, List.any_eq_true, Bool.and_eq_true, Bool.not_eq_true',
    decide_eq_true_eq]
  constructor
  · rintro ⟨tx, htx, h1, inp, hin, ⟨h2, h3⟩, h4⟩
    exact ⟨tx, htx, h1, inp, hin, h2, h3, h4⟩
  · rintro ⟨tx, htx, h1, inp, hin, h2, h3, h4⟩
    exact ⟨tx, htx, h1, inp, hin, ⟨h2, h3⟩, h4⟩

theorem scanTx_spec (E : Ext) (pubKeyHash : Bytes) (visited : List Transaction)
    (st : List Transaction × IndexMap) (tx : Transaction)
    (hinv : ∀ key i, i ∈ st.2 key ↔ recordedBefore E pubKeyHash visited key i = true) :
    (scanTx E pubKeyHash st tx).1 =
        st.1 ++ List.replicate (copiesOf E pubKeyHash visited tx) tx ∧
      ∀ key i, i ∈ (scanTx E pubKeyHash st tx).2 key ↔
        recordedBefore E pubKeyHash (visited ++ [tx]) key i = true := by
  have hcount : (List.range tx.Outputs.length).countP (fun j =>
      lockedAt pubKeyHash { ID := [], Inputs := [], Outputs := tx.Outputs } j &&
        !decide (((0 + j : Nat) : Int) ∈ st.2 (EncodeToString tx.ID))) =
      copiesOf E pubKeyHash visited tx := by
    unfold copiesOf
    apply congrArg (fun p => List.countP p (List.range tx.Outputs.length))
    funext j
    have hl : lockedAt pubKeyHash { ID := [], Inputs := [], Outputs := tx.Outputs } j =
        lockedAt pubKeyHash tx j := rfl
    rw [hl, Nat.zero_add]
    congr 2
    rw [Bool.eq_iff_iff, decide_eq_true_iff]
    exact hinv _ _
  have hfst : scanOutputs pubKeyHash tx (st.2 (EncodeToString tx.ID)) 0 tx.Outputs st.1 =
      st.1 ++ List.replicate (copiesOf E pubKeyHash visited tx) tx := by
    rw [scanOutputs_eq_replicate, hcount]
  unfold scanTx
  cases hc : tx.IsCoinbase with
  | false =>
    simp only [if_true]
    refine ⟨hfst, fun key i => ?_⟩
    rw [recordInputs_mem, recordedBefore_append, hinv]
    simp only [hc, true_and]
  | true =>
    simp only [Bool.true_eq_false, if_false]
    refine ⟨hfst, fun key i => ?_⟩
    rw [recordedBefore_append, hinv]
    simp only [hc, Bool.true_eq_false, false_and, or_false]

theorem foldl_scanTx_spec (E : Ext) (pubKeyHash : Bytes) :
    ∀ (walk visited : List Transaction) (st : List Transaction × IndexMap),
      (∀ key i, i ∈ st.2 key ↔ recordedBefore E pubKeyHash visited key i = true) →
      (walk.foldl (scanTx E pubKeyHash) st).1 =
        st.1 ++ specUnspentTransactions E pubKeyHash visited walk
  | [], visited, st, _ => by simp [specUnspentTransactions]
  | tx :: rest, visited, st, hinv => by
    obtain ⟨h1, h2⟩ := scanTx_spec E pubKeyHash visited st tx hinv
    rw [List.foldl_cons, foldl_scanTx_spec E pubKeyHash rest (visited ++ [tx]) _ h2, h1,
      specUnspentTransactions, List.append_assoc]

theorem scanBlocks_eq_spec (E : Ext) (pubKeyHash : Bytes) (blocks : List Block) :
    (scanBlocks E pubKeyHash blocks ([], fun _ => [])).1 =
      specUnspentTransactions E pubKeyHash [] (walkOrder blocks) := by
  rw [scanBlocks_eq_foldl, foldl_scanTx_spec E pubKeyHash (walkOrder blocks) []]
  · rfl
  · intro key i
    simp [recordedBefore]

/-- C18: on a well-formed chain, `FindUnspentTransactions` returns the transactions in
walk order (blocks from tip to genesis, transactions in block order), each transaction
repeated consecutively once for every output index whose output is locked to the key hash
and has not been recorded in the spent set by an input, using the key hash, of a
non-coinbase transaction visited before it; a transaction without such an index is
absent. -/
theorem FindUnspentTransactions_multiplicity (E : Ext) (chain : Blockchain)
    (blocks : List Block) (pubKeyHash : Bytes) (k : Nat)
    (hlinked : Linked E chain.Database chain.lastHash blocks) :
    chain.FindUnspentTransactions E (blocks.length + k) pubKeyHash =
        some (.ok (specUnspentTransactions E pubKeyHash [] (walkOrder blocks))) ∧
      ∀ visited tx rest,
        specUnspentTransactions E pubKeyHash visited (tx :: rest) =
          List.replicate ((List.range tx.Outputs.length).countP (fun i =>
            lockedAt pubKeyHash tx i &&
              !recordedBefore E pubKeyHash visited (EncodeToString tx.ID) (i : Int))) tx ++
            specUnspentTransactions E pubKeyHash (visited ++ [tx]) rest := by
  refine ⟨?_, fun _ _ _ => rfl⟩
  rw [FindUnspentTransactions_of_Linked E chain blocks hlinked pubKeyHash k,
    scanBlocks_eq_spec]

/-- The run of C18 on the sample ledger with two appended blocks, for the key of `"A"`:
`Sample.split` appears once, for its unspent output 1. -/
theorem FindUnspentTransactions_multiplicity_witness :
    (Sample.ledger [[Sample.split], [Sample.payB]]).FindUnspentTransactions Sample.ext
        ((chainBlocks Sample.ext "A" [[Sample.split], [Sample.payB]]).length + 0)
        Sample.keyA =
      some (.ok (specUnspentTransactions Sample.ext Sample.keyA []
        (walkOrder (chainBlocks Sample.ext "A" [[Sample.split], [Sample.payB]])))) ∧
      specUnspentTransactions Sample.ext Sample.keyA []
        (walkOrder (chainBlocks Sample.ext "A" [[Sample.split], [Sample.payB]])) =
        [Sample.split] :=
  ⟨(FindUnspentTransactions_multiplicity Sample.ext
      (Sample.ledger [[Sample.split], [Sample.payB]])
      (chainBlocks Sample.ext "A" [[Sample.split], [Sample.payB]]) Sample.keyA 0
      Sample.ledger_linked).1, by decide⟩

/-! ## Processing order -/

theorem walkOrder_cons (b : Block) (rest : List Block) :
    walkOrder (b :: rest) = b.TransActions ++ walkOrder rest := by
  simp [walkOrder]

theorem mem_specUnspentTransactions (E : Ext) (pubKeyHash : Bytes) (tx : Transaction) :
    ∀ (walk visited : List Transaction),
      tx ∈ specUnspentTransactions E pubKeyHash visited walk →
      ∃ pre post, walk = pre ++ tx :: post ∧ 0 < copiesOf E pubKeyHash (visited ++ pre) tx
  | [], _, h => by simp [specUnspentTransactions] at h
  | t :: rest, visited, h => by
    rw [specUnspentTransactions, List.mem_append] at h
    rcases h with h | h
    · obtain ⟨hne, heq⟩ := List.mem_replicate.1 h
      subst heq
      exact ⟨[], rest, rfl, by rw [List.append_nil]; exact Nat.pos_of_ne_zero hne⟩
    · obtain ⟨pre, post, hw, hc⟩ :=
        mem_specUnspentTransactions E pubKeyHash tx rest (visited ++ [t]) h
      refine ⟨t :: pre, post, by rw [hw]; rfl, ?_⟩
      rw [List.append_assoc] at hc
      exact hc

theorem copiesOf_pos (E : Ext) (pubKeyHash : Bytes) (visited : List Transaction)
    (tx : Transaction) (h : 0 < copiesOf E pubKeyHash visited tx) :
    ∃ i : Nat, lockedAt pubKeyHash tx i = true ∧
      recordedBefore E pubKeyHash visited (EncodeToString tx.ID) (i : Int) = false := by
  unfold copiesOf at h
  obtain ⟨i, _, hi⟩ := List.countP_pos_iff.1 h
  simp only [Bool.and_eq_true, Bool.not_eq_true'] at hi
  exact ⟨i, hi.1, hi.2⟩

theorem walkOrder_split :
    ∀ (blocks : List Block) (pre : List Transaction) (tx : Transaction)
      (post : List Transaction), walkOrder blocks = pre ++ tx :: post →
      ∃ q bq l1 l2, blocks[q]? = some bq ∧ bq.TransActions = l1 ++ tx :: l2 ∧
        pre = walkOrder (blocks.take q) ++ l1
  | [], pre, tx, post, h => by
    simp [walkOrder] at h
  | b :: bs, pre, tx, post, h => by
    rw [walkOrder_cons, List.append_eq_append_iff] at h
    have hlater : ∀ a, pre = b.TransActions ++ a → walkOrder bs = a ++ tx :: post →
        ∃ q bq l1 l2, (b :: bs)[q]? = some bq ∧ bq.TransActions = l1 ++ tx :: l2 ∧
          pre = walkOrder ((b :: bs).take q) ++ l1 := by
      intro a hpre hw
      obtain ⟨q, bq, l1, l2, h1, h2, h3⟩ := walkOrder_split bs a tx post hw
      refine ⟨q + 1, bq, l1, l2, by simpa using h1, h2, ?_⟩
      rw [List.take_succ_cons, walkOrder_cons, List.append_assoc, ← h3]
      exact hpre
    rcases h with ⟨a, hpre, hw⟩ | ⟨c, hb, hw⟩
    · exact hlater a hpre hw
    · cases c with
      | nil =>
        rw [List.append_nil] at hb
        rw [List.nil_append] at hw
        exact hlater [] (by rw [List.append_nil]; exact hb.symm) (by rw [← hw]; rfl)
      | cons t c1 =>
        rw [List.cons_append] at hw
        obtain ⟨ht, _⟩ := List.cons.inj hw
        subst ht
        exact ⟨0, b, pre, c1, List.getElem?_cons_zero, hb, by simp [walkOrder]⟩

theorem mem_walkOrder_take (blocks : List Block) (p q : Nat) (tx : Transaction)
    (hat : txAt blocks p tx) (hpq : p < q) : tx ∈ walkOrder (blocks.take q) := by
  obtain ⟨b, hb, htx⟩ := hat
  simp only [walkOrder, List.mem_flatMap]
  refine ⟨b, ?_, htx⟩
  rw [List.mem_iff_getElem?]
  exact ⟨p, by rw [List.getElem?_take_of_lt hpq]; exact hb⟩

theorem mem_walkOrder_of_txAt (blocks : List Block) (p : Nat) (tx : Transaction)
    (hat : txAt blocks p tx) : tx ∈ walkOrder blocks := by
  obtain ⟨b, hb, htx⟩ := hat
  simp only [walkOrder, List.mem_flatMap]
  exact ⟨b, List.mem_iff_getElem?.2 ⟨p, hb⟩, htx⟩

theorem walkOrder_before :
    ∀ (blocks : List Block) (p q : Nat) (s t : Transaction), txAt blocks p s →
      txAt blocks q t → p < q →
      ∃ pre mid post, walkOrder blocks = pre ++ s :: mid ++ t :: post
  | [], p, _, _, _, hs, _, _ => by
    obtain ⟨b, hb, _⟩ := hs
    simp at hb
  | b :: bs, p, q, s, t, hs, ht, hpq => by
    cases q with
    | zero => exact absurd hpq (Nat.not_lt_zero _)
    | succ q1 =>
      have ht1 : txAt bs q1 t := by
        obtain ⟨bq, hbq, htq⟩ := ht
        exact ⟨bq, by simpa using hbq, htq⟩
      cases p with
      | zero =>
        obtain ⟨bp, hbp, hsp⟩ := hs
        simp only [List.getElem?_cons_zero, Option.some.injEq] at hbp
        subst hbp
        obtain ⟨a1, a2, ha⟩ := List.append_of_mem hsp
        obtain ⟨c1, c2, hc⟩ := List.append_of_mem (mem_walkOrder_of_txAt bs q1 t ht1)
        refine ⟨a1, a2 ++ c1, c2, ?_⟩
        rw [walkOrder_cons, ha, hc]
        simp
      | succ p1 =>
        have hs1 : txAt bs p1 s := by
          obtain ⟨bp, hbp, hsp⟩ := hs
          exact ⟨bp, by simpa using hbp, hsp⟩
        obtain ⟨pre, mid, post, hw⟩ := walkOrder_before bs p1 q1 s t hs1 ht1 (by omega)
        refine ⟨b.TransActions ++ pre, mid, post, ?_⟩
        rw [walkOrder_cons, hw]
        simp

/-- C17, as the code has it: on a well-formed chain in which every transaction named by an
input of a non-coinbase transaction lies in a strictly earlier block than that input, the
walk of `FindUnspentTransactions` visits the spending transaction before the transaction
whose output it spends, and a transaction whose every output locked to the key hash is
spent by an input that uses the key hash is not in the result. -/
theorem FindUnspentTransactions_excludes_spent (E : Ext) (chain : Blockchain)
    (blocks : List Block) (pubKeyHash : Bytes) (k : Nat) (tx : Transaction)
    (hlinked : Linked E chain.Database chain.lastHash blocks)
    (hearlier : ∀ p q s t inp, txAt blocks p s → s.IsCoinbase = false → inp ∈ s.Inputs →
      txAt blocks q t → t.ID = inp.ID → p < q)
    (hspent : ∀ i : Nat, lockedAt pubKeyHash tx i = true →
      ∃ p s inp, txAt blocks p s ∧ s.IsCoinbase = false ∧ inp ∈ s.Inputs ∧
        inp.UsesKey E pubKeyHash = true ∧ inp.ID = tx.ID ∧ inp.Out = (i : Int)) :
    (∀ p q s t inp, txAt blocks p s → s.IsCoinbase = false → inp ∈ s.Inputs →
        txAt blocks q t → t.ID = inp.ID →
        ∃ pre mid post, walkOrder blocks = pre ++ s :: mid ++ t :: post) ∧
      ∃ r, chain.FindUnspentTransactions E (blocks.length + k) pubKeyHash = some (.ok r) ∧
        tx ∉ r := by
  refine ⟨fun p q s t inp hs hc hin ht hid =>
    walkOrder_before blocks p q s t hs ht (hearlier p q s t inp hs hc hin ht hid), ?_⟩
  refine ⟨_, by rw [FindUnspentTransactions_of_Linked E chain blocks hlinked pubKeyHash k,
    scanBlocks_eq_spec], fun hmem => ?_⟩
  obtain ⟨pre, post, hw, hpos⟩ := mem_specUnspentTransactions E pubKeyHash tx _ [] hmem
  obtain ⟨i, hlock, hrec⟩ := copiesOf_pos E pubKeyHash _ tx hpos
  obtain ⟨q, bq, l1, l2, hq, hbq, hpre⟩ := walkOrder_split blocks pre tx post hw
  obtain ⟨p, s, inp, hs, hc, hin, hkey, hid, hout⟩ := hspent i hlock
  have htq : txAt blocks q tx := ⟨bq, hq, by rw [hbq]; simp⟩
  have hpq := hearlier p q s tx inp hs hc hin htq hid.symm
  have hsmem : s ∈ [] ++ pre := by
    rw [List.nil_append, hpre]
    exact List.mem_append_left _ (mem_walkOrder_take blocks p q s hs hpq)
  have : recordedBefore E pubKeyHash ([] ++ pre) (EncodeToString tx.ID) (i : Int) = true :=
    (recordedBefore_iff E pubKeyHash _ _ _).2
      ⟨s, hsmem, hc, inp, hin, hkey, by rw [hid], hout⟩
  rw [this] at hrec
  exact absurd hrec (by simp)

/-- The run of C17 on the sample ledger with two appended blocks: output 0 of
`Sample.split` is spent by `Sample.payB` and output 1 is not, so the hypothesis is
exercised with the genesis coinbase transaction, whose only output is spent by
`Sample.split`. -/
theorem FindUnspentTransactions_excludes_spent_witness :
    ∃ r, (Sample.ledger [[Sample.split], [Sample.payB]]).FindUnspentTransactions Sample.ext
        ((chainBlocks Sample.ext "A" [[Sample.split], [Sample.payB]]).length + 0)
        Sample.keyA = some (.ok r) ∧
      CoinbaseTx Sample.ext "A" genesisData ∉ r := by
  refine (FindUnspentTransactions_excludes_spent Sample.ext
    (Sample.ledger [[Sample.split], [Sample.payB]])
    (chainBlocks Sample.ext "A" [[Sample.split], [Sample.payB]]) Sample.keyA 0
    (CoinbaseTx Sample.ext "A" genesisData) Sample.ledger_linked ?_ ?_).2
  · intro p q s t inp hs hc hin ht hid
    obtain ⟨bp, hbp, hsp⟩ := hs
    obtain ⟨bq, hbq, htq⟩ := ht
    match p, q with
    | 0, 0 =>
      simp only [chainBlocks, List.foldl_cons, List.foldl_nil, List.getElem?_cons_zero,
        Option.some.injEq] at hbp hbq
      subst hbp hbq
      simp only [CreateBlock, List.mem_singleton] at hsp htq
      subst hsp htq
      simp only [Sample.payB, List.mem_singleton] at hin
      subst hin
      exact absurd hid (by decide)
    | 0, q + 1 => exact Nat.succ_pos _
    | 1, 0 =>
      simp only [chainBlocks, List.foldl_cons, List.foldl_nil, List.getElem?_cons_zero,
        List.getElem?_cons_succ, Option.some.injEq] at hbp hbq
      subst hbp hbq
      simp only [CreateBlock, List.mem_singleton] at hsp htq
      subst hsp htq
      simp only [Sample.split, List.mem_singleton] at hin
      subst hin
      exact absurd hid (by decide)
    | 1, 1 =>
      simp only [chainBlocks, List.foldl_cons, List.foldl_nil, List.getElem?_cons_zero,
        List.getElem?_cons_succ, Option.some.injEq] at hbp hbq
      subst hbp hbq
      simp only [CreateBlock, List.mem_singleton] at hsp htq
      subst hsp htq
      simp only [Sample.split, List.mem_singleton] at hin
      subst hin
      exact absurd hid (by decide)
    | 1, q + 2 => exact Nat.succ_lt_succ (Nat.succ_pos _)
    | 2, q =>
      simp only [chainBlocks, List.foldl_cons, List.foldl_nil, List.getElem?_cons_zero,
        List.getElem?_cons_succ, Option.some.injEq] at hbp
      subst hbp
      simp only [Genesis, CreateBlock, List.mem_singleton] at hsp
      subst hsp
      exact absurd hc (by decide)
    | p + 3, q =>
      simp [chainBlocks] at hbp
  · intro i hlock
    refine ⟨1, Sample.split,
      { ID := Sample.coinbaseID, Out := 0, Signature := [], PubKey := Sample.keyA },
      ⟨CreateBlock Sample.ext [Sample.split] [1], rfl, List.Mem.head _⟩, by decide,
      List.Mem.head _, by decide, rfl, ?_⟩
    match i with
    | 0 => rfl
    | i + 1 => simp [lockedAt, CoinbaseTx] at hlock

/-- C17 fails as stated: on the sample ledger extended by one block that holds
`Sample.relay` followed by `Sample.drain`, the input of `Sample.drain` uses the key of
`"A"` and spends the only output of `Sample.relay`, which occurs earlier in the same
block; the walk visits `Sample.relay` first, and `FindUnspentTransactions` for `"A"`
returns `Sample.relay`. -/
theorem FindUnspentTransactions_misses_same_block_spend :
    buildChain Sample.ext "A" [[Sample.relay, Sample.drain]] =
        .ok (Sample.ledger [[Sample.relay, Sample.drain]]) ∧
      walkOrder (chainBlocks Sample.ext "A" [[Sample.relay, Sample.drain]]) =
        [Sample.relay, Sample.drain, CoinbaseTx Sample.ext "A" genesisData] ∧
      Sample.relay.Outputs = [{ Value := 100, PubKeyHash := Sample.keyA }] ∧
      Sample.drain.IsCoinbase = false ∧
      (∃ inp ∈ Sample.drain.Inputs, inp.UsesKey Sample.ext Sample.keyA = true ∧
        inp.ID = Sample.relay.ID ∧ inp.Out = 0) ∧
      (∃ inp ∈ Sample.relay.Inputs,
        inp.ID = (CoinbaseTx Sample.ext "A" genesisData).ID ∧ inp.Out = 0) ∧
      (Sample.ledger [[Sample.relay, Sample.drain]]).FindUnspentTransactions Sample.ext 2
        Sample.keyA = some (.ok [Sample.relay]) := by
  refine ⟨rfl, rfl, rfl, by decide, by decide, by decide, rfl⟩

/-! ## Conditional exactness of the unspent outputs -/

theorem txAt_of_mem_walkOrder :
    ∀ (blocks : List Block) (tx : Transaction), tx ∈ walkOrder blocks →
      ∃ p, txAt blocks p tx := by
  intro blocks tx h
  simp only [walkOrder, List.mem_flatMap] at h
  obtain ⟨b, hb, htx⟩ := h
  obtain ⟨p, hp⟩ := List.mem_iff_getElem?.1 hb
  exact ⟨p, b, hp, htx⟩

theorem txAt_unique :
    ∀ (blocks : List Block) (q q1 : Nat) (t t1 : Transaction),
      ((walkOrder blocks).map Transaction.ID).Nodup → txAt blocks q t → txAt blocks q1 t1 →
      t.ID = t1.ID → q = q1
  | [], q, _, _, _, _, h, _, _ => by
    obtain ⟨b, hb, _⟩ := h
    simp at hb
  | b :: bs, q, q1, t, t1, hnd, h, h1, hid => by
    rw [walkOrder_cons, List.map_append, List.nodup_append] at hnd
    obtain ⟨_, hnd2, hdisj⟩ := hnd
    have tail : ∀ (n : Nat) (x : Transaction), txAt (b :: bs) (n + 1) x → txAt bs n x := by
      rintro n x ⟨bx, hbx, hx⟩
      exact ⟨bx, by simpa using hbx, hx⟩
    have head : ∀ (x : Transaction), txAt (b :: bs) 0 x → x ∈ b.TransActions := by
      rintro x ⟨bx, hbx, hx⟩
      simp only [List.getElem?_cons_zero, Option.some.injEq] at hbx
      rw [hbx]
      exact hx
    cases q with
    | zero =>
      cases q1 with
      | zero => rfl
      | succ n1 =>
        exfalso
        have hmem : t1.ID ∈ (walkOrder bs).map Transaction.ID :=
          List.mem_map_of_mem _ (mem_walkOrder_of_txAt bs n1 t1 (tail n1 t1 h1))
        rw [← hid] at hmem
        exact hdisj (List.mem_map_of_mem _ (head t h)) hmem
    | succ n =>
      cases q1 with
      | zero =>
        exfalso
        have hmem : t.ID ∈ (walkOrder bs).map Transaction.ID :=
          List.mem_map_of_mem _ (mem_walkOrder_of_txAt bs n t (tail n t h))
        rw [hid] at hmem
        exact hdisj (List.mem_map_of_mem _ (head t1 h1)) hmem
      | succ n1 =>
        rw [txAt_unique bs n n1 t t1 hnd2 (tail n t h) (tail n1 t1 h1) hid]

theorem referencedBy_iff (blocks : List Block) (ID : Bytes) (idx : Nat) :
    referencedBy blocks ID idx = true ↔
      ∃ s ∈ walkOrder blocks, s.IsCoinbase = false ∧
        ∃ inp ∈ s.Inputs, inp.ID = ID ∧ inp.Out = (idx : Int) := by
  simp only [referencedBy, walkOrder, List.any_eq_true, Bool.and_eq_true, Bool.not_eq_true',
    decide_eq_true_eq, List.mem_flatMap]
  constructor
  · rintro ⟨b, hb, s, hs, hc, inp, hin, h1, h2⟩
    exact ⟨s, ⟨b, hb, hs⟩, hc, inp, hin, h1, h2⟩
  · rintro ⟨s, ⟨b, hb, hs⟩, hc, inp, hin, h1, h2⟩
    exact ⟨b, hb, s, hs, hc, inp, hin, h1, h2⟩

theorem specUnspentOutputs_eq (blocks : List Block) (pubKeyHash : Bytes) :
    specUnspentOutputs blocks pubKeyHash =
      (walkOrder blocks).flatMap (fun tx =>
        (tx.Outputs.enum.filter (fun p =>
          p.2.IsLockedWithKey pubKeyHash && !referencedBy blocks tx.ID p.1)).map Prod.snd) := by
  simp only [specUnspentOutputs, walkOrder, List.flatMap_assoc]

theorem enumFrom_filter_sublist (pubKeyHash : Bytes) (g : Nat → Bool) :
    ∀ (outs : List TxOutput) (n : Nat),
      List.Sublist
        (((List.enumFrom n outs).filter (fun p =>
          p.2.IsLockedWithKey pubKeyHash && g p.1)).map Prod.snd)
        (outs.filter (fun out => out.IsLockedWithKey pubKeyHash))
  | [], _ => by simp
  | out :: rest, n => by
    have ih := enumFrom_filter_sublist pubKeyHash g rest (n + 1)
    rw [List.enumFrom_cons]
    cases hl : out.IsLockedWithKey pubKeyHash with
    | false =>
      simp only [List.filter_cons, hl, Bool.false_and, Bool.false_eq_true, if_false]
      exact ih
    | true =>
      cases hg : g n with
      | false =>
        simp only [List.filter_cons, hl, hg, Bool.and_false, Bool.false_eq_true, if_false,
          if_true]
        exact List.Sublist.cons _ ih
      | true =>
        simp only [List.filter_cons, hl, hg, Bool.and_true, if_true, List.map_cons]
        exact List.Sublist.cons₂ _ ih

theorem enumFrom_filter_length (pubKeyHash : Bytes) (g : Nat → Bool) :
    ∀ (outs : List TxOutput) (n : Nat),
      ((List.enumFrom n outs).filter (fun p =>
          p.2.IsLockedWithKey pubKeyHash && g p.1)).length =
        (List.range outs.length).countP (fun j =>
          lockedAt pubKeyHash { ID := [], Inputs := [], Outputs := outs } j && g (n + j))
  | [], _ => by simp
  | out :: rest, n => by
    rw [List.enumFrom_cons, List.length_cons, List.range_succ_eq_map, List.countP_cons,
      List.countP_map, List.filter_cons]
    have ih := enumFrom_filter_length pubKeyHash g rest (n + 1)
    have htail : List.countP ((fun j =>
          lockedAt pubKeyHash { ID := [], Inputs := [], Outputs := out :: rest } j &&
            g (n + j)) ∘ Nat.succ) (List.range rest.length) =
        (List.range rest.length).countP (fun j =>
          lockedAt pubKeyHash { ID := [], Inputs := [], Outputs := rest } j &&
            g (n + 1 + j)) := by
      apply congrArg (fun p => List.countP p (List.range rest.length))
      funext j
      simp only [Function.comp, Nat.succ_eq_add_one, lockedAt_cons]
      have : n + (j + 1) = n + 1 + j := by omega
      rw [this]
    rw [htail, ← ih]
    have h0 : lockedAt pubKeyHash { ID := [], Inputs := [], Outputs := out :: rest } 0 =
        out.IsLockedWithKey pubKeyHash := by simp [lockedAt]
    simp only [h0, Nat.add_zero]
    split <;> simp

theorem collectUTXO_append (pubKeyHash : Bytes) (l1 l2 : List Transaction) :
    collectUTXO pubKeyHash (l1 ++ l2) =
      collectUTXO pubKeyHash l1 ++ collectUTXO pubKeyHash l2 := by
  simp [collectUTXO]

theorem collectUTXO_replicate (E : Ext) (pubKeyHash : Bytes) (blocks : List Block)
    (visited : List Transaction) (tx : Transaction)
    (hone : (tx.Outputs.filter (fun out => out.IsLockedWithKey pubKeyHash)).length ≤ 1)
    (hequiv : ∀ i : Nat, lockedAt pubKeyHash tx i = true →
      recordedBefore E pubKeyHash visited (EncodeToString tx.ID) (i : Int) =
        referencedBy blocks tx.ID i) :
    collectUTXO pubKeyHash (List.replicate (copiesOf E pubKeyHash visited tx) tx) =
      (tx.Outputs.enum.filter (fun p =>
        p.2.IsLockedWithKey pubKeyHash && !referencedBy blocks tx.ID p.1)).map Prod.snd := by
  have hsub := enumFrom_filter_sublist pubKeyHash (fun i => !referencedBy blocks tx.ID i)
    tx.Outputs 0
  have hlen : ((tx.Outputs.enum.filter (fun p =>
      p.2.IsLockedWithKey pubKeyHash && !referencedBy blocks tx.ID p.1)).map Prod.snd).length =
      copiesOf E pubKeyHash visited tx := by
    rw [List.length_map, List.enum,
      enumFrom_filter_length pubKeyHash (fun i => !referencedBy blocks tx.ID i) tx.Outputs 0]
    unfold copiesOf
    apply congrArg (fun p => List.countP p (List.range tx.Outputs.length))
    funext j
    have hl : lockedAt pubKeyHash { ID := [], Inputs := [], Outputs := tx.Outputs } j =
        lockedAt pubKeyHash tx j := rfl
    rw [hl, Nat.zero_add]
    cases hlock : lockedAt pubKeyHash tx j with
    | false => rfl
    | true => rw [hequiv j hlock]
  have hle := hsub.length_le
  rw [← List.enum] at hsub hle
  rw [hlen] at hle
  have hk : copiesOf E pubKeyHash visited tx = 0 ∨ copiesOf E pubKeyHash visited tx = 1 := by
    omega
  rcases hk with h0 | h1
  · rw [h0] at hlen
    rw [h0, List.length_eq_zero.1 hlen]
    rfl
  · rw [h1] at hlen
    rw [h1, hsub.eq_of_length_le (by rw [hlen]; exact hone)]
    simp [collectUTXO]

theorem collectUTXO_spec (E : Ext) (pubKeyHash : Bytes) (blocks : List Block)
    (walk : List Transaction)
    (hocc : ∀ pre tx post, walk = pre ++ tx :: post →
      (tx.Outputs.filter (fun out => out.IsLockedWithKey pubKeyHash)).length ≤ 1 ∧
        ∀ i : Nat, lockedAt pubKeyHash tx i = true →
          recordedBefore E pubKeyHash pre (EncodeToString tx.ID) (i : Int) =
            referencedBy blocks tx.ID i) :
    ∀ (suf visited : List Transaction), visited ++ suf = walk →
      collectUTXO pubKeyHash (specUnspentTransactions E pubKeyHash visited suf) =
        suf.flatMap (fun tx =>
          (tx.Outputs.enum.filter (fun p =>
            p.2.IsLockedWithKey pubKeyHash && !referencedBy blocks tx.ID p.1)).map Prod.snd)
  | [], _, _ => rfl
  | tx :: rest, visited, hw => by
    obtain ⟨hone, hequiv⟩ := hocc visited tx rest hw.symm
    rw [specUnspentTransactions, collectUTXO_append,
      collectUTXO_replicate E pubKeyHash blocks visited tx hone hequiv,
      collectUTXO_spec E pubKeyHash blocks walk hocc rest (visited ++ [tx])
        (by rw [List.append_assoc]; exact hw),
      List.flatMap_cons]

/-- C20: on a well-formed chain with pairwise distinct transaction IDs in which (i) every
transaction has at most one output locked to the key hash, (ii) every input of a
non-coinbase transaction that references an output locked to the key hash uses the key
hash, and (iii) every input of a non-coinbase transaction references a transaction in a
strictly earlier block, `FindUTXO` returns, in walk order, exactly the outputs locked to
the key hash that no input of a non-coinbase transaction of the chain references, each
once. When no transaction has the empty ID, the input of a coinbase transaction names no
transaction of the chain, so these are the outputs that no input at all references. -/
theorem FindUTXO_exact (E : Ext) (chain : Blockchain) (blocks : List Block)
    (pubKeyHash : Bytes) (k : Nat)
    (hlinked : Linked E chain.Database chain.lastHash blocks)
    (hdistinct : ((walkOrder blocks).map Transaction.ID).Nodup)
    (hone : ∀ tx ∈ walkOrder blocks,
      (tx.Outputs.filter (fun out => out.IsLockedWithKey pubKeyHash)).length ≤ 1)
    (hkey : ∀ s ∈ walkOrder blocks, s.IsCoinbase = false → ∀ inp ∈ s.Inputs,
      ∀ tx ∈ walkOrder blocks, inp.ID = tx.ID → 0 ≤ inp.Out →
        lockedAt pubKeyHash tx inp.Out.toNat = true → inp.UsesKey E pubKeyHash = true)
    (hearlier : ∀ p s inp, txAt blocks p s → s.IsCoinbase = false → inp ∈ s.Inputs →
      ∃ q tx, p < q ∧ txAt blocks q tx ∧ tx.ID = inp.ID) :
    chain.FindUTXO E (blocks.length + k) pubKeyHash =
        some (.ok (specUnspentOutputs blocks pubKeyHash)) ∧
      ((∀ t ∈ walkOrder blocks, t.ID ≠ []) → ∀ tx ∈ walkOrder blocks, ∀ n : Nat,
        (referencedBy blocks tx.ID n = true ↔
          ∃ s ∈ walkOrder blocks, ∃ inp ∈ s.Inputs, inp.ID = tx.ID ∧ inp.Out = (n : Int))) := by
  refine ⟨?_, fun hids tx htx n => ?_⟩
  rotate_left
  · rw [referencedBy_iff]
    constructor
    · rintro ⟨s, hs, _, inp, hin, h1, h2⟩
      exact ⟨s, hs, inp, hin, h1, h2⟩
    · rintro ⟨s, hs, inp, hin, h1, h2⟩
      refine ⟨s, hs, ?_, inp, hin, h1, h2⟩
      cases hc : s.IsCoinbase with
      | false => rfl
      | true =>
        exfalso
        unfold Transaction.IsCoinbase at hc
        split at hc
        · rename_i inp1 hinp
          rw [hinp, List.mem_singleton] at hin
          subst hin
          have hnil : inp.ID = [] := by
            rw [← List.length_eq_zero]
            simpa using hc
          exact hids tx htx (by rw [← h1, hnil])
        · exact absurd hc (by simp)
  have hocc : ∀ pre tx post, walkOrder blocks = pre ++ tx :: post →
      (tx.Outputs.filter (fun out => out.IsLockedWithKey pubKeyHash)).length ≤ 1 ∧
        ∀ i : Nat, lockedAt pubKeyHash tx i = true →
          recordedBefore E pubKeyHash pre (EncodeToString tx.ID) (i : Int) =
            referencedBy blocks tx.ID i := by
    intro pre tx post hw
    have htx : tx ∈ walkOrder blocks := by rw [hw]; simp
    refine ⟨hone tx htx, fun i hlock => ?_⟩
    rw [Bool.eq_iff_iff, recordedBefore_iff, referencedBy_iff]
    constructor
    · rintro ⟨s, hs, hc, inp, hin, _, hid, hout⟩
      exact ⟨s, by rw [hw]; exact List.mem_append_left _ hs, hc, inp, hin,
        EncodeToString_injective _ _ hid, hout⟩
    · rintro ⟨s, hs, hc, inp, hin, hid, hout⟩
      have huse : inp.UsesKey E pubKeyHash = true := by
        refine hkey s hs hc inp hin tx htx hid (by rw [hout]; exact Int.ofNat_nonneg i) ?_
        rw [hout, Int.toNat_ofNat]
        exact hlock
      obtain ⟨p, hp⟩ := txAt_of_mem_walkOrder blocks s hs
      obtain ⟨q1, t1, hpq, ht1, hid1⟩ := hearlier p s inp hp hc hin
      obtain ⟨q, bq, l1, l2, hq, hbq, hpre⟩ := walkOrder_split blocks pre tx post hw
      have htq : txAt blocks q tx := ⟨bq, hq, by rw [hbq]; simp⟩
      have hqq : q1 = q := txAt_unique blocks q1 q t1 tx hdistinct ht1 htq (by rw [hid1, hid])
      rw [hqq] at hpq
      refine ⟨s, ?_, hc, inp, hin, huse, by rw [hid], hout⟩
      rw [hpre]
      exact List.mem_append_left _ (mem_walkOrder_take blocks p q s hp hpq)
  have hU := FindUnspentTransactions_of_Linked E chain blocks hlinked pubKeyHash k
  simp only [Blockchain.FindUTXO, hU, scanBlocks_eq_spec]
  rw [collectUTXO_spec E pubKeyHash blocks (walkOrder blocks) hocc (walkOrder blocks) [] rfl,
    specUnspentOutputs_eq]

/-- The run of C20 on the sample ledger extended by the block holding `Sample.pay`, for
the key of `"A"`. -/
theorem FindUTXO_exact_witness :
    (Sample.ledger [[Sample.pay]]).FindUTXO Sample.ext
        ((chainBlocks Sample.ext "A" [[Sample.pay]]).length + 0) Sample.keyA =
      some (.ok (specUnspentOutputs (chainBlocks Sample.ext "A" [[Sample.pay]])
        Sample.keyA)) ∧
      specUnspentOutputs (chainBlocks Sample.ext "A" [[Sample.pay]]) Sample.keyA =
        [{ Value := 70, PubKeyHash := Sample.keyA }] := by
  refine ⟨(FindUTXO_exact Sample.ext (Sample.ledger [[Sample.pay]])
    (chainBlocks Sample.ext "A" [[Sample.pay]]) Sample.keyA 0
    (Linked_handle_of_buildChain Sample.ext "A" [[Sample.pay]] (Sample.ledger [[Sample.pay]])
      (by simp) rfl (by decide) (by decide) (by decide))
    (by decide) (by decide) (by decide) ?_).1, by decide⟩
  intro p s inp hs hc hin
  obtain ⟨bp, hbp, hsp⟩ := hs
  match p with
  | 0 =>
    simp only [chainBlocks, List.foldl_cons, List.foldl_nil, List.getElem?_cons_zero,
      Option.some.injEq] at hbp
    subst hbp
    simp only [CreateBlock, List.mem_singleton] at hsp
    subst hsp
    simp only [Sample.pay, List.mem_singleton] at hin
    subst hin
    exact ⟨1, CoinbaseTx Sample.ext "A" genesisData, Nat.one_pos,
      ⟨Genesis Sample.ext (CoinbaseTx Sample.ext "A" genesisData), rfl, List.Mem.head _⟩, rfl⟩
  | 1 =>
    simp only [chainBlocks, List.foldl_cons, List.foldl_nil, List.getElem?_cons_zero,
      List.getElem?_cons_succ, Option.some.injEq] at hbp
    subst hbp
    simp only [Genesis, CreateBlock, List.mem_singleton] at hsp
    subst hsp
    exact absurd hc (by decide)
  | p + 2 =>
    simp [chainBlocks] at hbp

/-! ## Spend selection and the unspent outputs -/

theorem intAdd_eq (a b : Int) (hlo : -2 ^ 63 ≤ a + b) (hhi : a + b < 2 ^ 63) :
    intAdd a b = a + b := by
  unfold intAdd
  omega

theorem greedyTake_frozen (amount acc : Int) (vals : List Int) (h : ¬ acc < amount) :
    greedyTake amount acc vals = [] := by
  cases vals <;> simp [greedyTake, h]

theorem greedySum_frozen (amount acc : Int) (vals : List Int) (h : ¬ acc < amount) :
    greedySum amount acc vals = acc := by
  cases vals <;> simp [greedySum, h]

theorem greedySum_ge (amount : Int) :
    ∀ (vals : List Int) (acc : Int), ¬ acc < amount → ¬ greedySum amount acc vals < amount
  | vals, acc, h => by rw [greedySum_frozen amount acc vals h]; exact h

theorem greedyTake_append (amount : Int) :
    ∀ (l1 l2 : List Int) (acc : Int),
      greedyTake amount acc (l1 ++ l2) =
        greedyTake amount acc l1 ++ greedyTake amount (greedySum amount acc l1) l2
  | [], l2, acc => by simp [greedyTake, greedySum]
  | v :: vs, l2, acc => by
    by_cases h : acc < amount
    · simp only [List.cons_append, greedyTake, greedySum, h, if_true]
      exact congrArg (List.cons v) (greedyTake_append amount vs l2 (intAdd acc v))
    · simp only [List.cons_append, greedyTake, greedySum, h, if_false, List.nil_append]
      exact (greedyTake_frozen amount acc l2 h).symm

theorem greedySum_append (amount : Int) :
    ∀ (l1 l2 : List Int) (acc : Int),
      greedySum amount acc (l1 ++ l2) = greedySum amount (greedySum amount acc l1) l2
  | [], l2, acc => by simp [greedySum]
  | v :: vs, l2, acc => by
    by_cases h : acc < amount
    · simp only [List.cons_append, greedySum, h, if_true]
      exact greedySum_append amount vs l2 (intAdd acc v)
    · simp only [List.cons_append, greedySum, h, if_false]
      exact (greedySum_frozen amount acc l2 h).symm

theorem greedy_prefix (amount : Int) :
    ∀ (vals : List Int) (acc : Int),
      ∃ j, j ≤ vals.length ∧ greedyTake amount acc vals = vals.take j ∧
        greedySum amount acc vals = (vals.take j).foldl intAdd acc ∧
        (∀ i, i < j → (vals.take i).foldl intAdd acc < amount) ∧
        (j < vals.length → amount ≤ (vals.take j).foldl intAdd acc)
  | [], acc => ⟨0, Nat.le_refl _, rfl, by simp [greedySum],
      fun i hi => absurd hi (Nat.not_lt_zero i), fun h => absurd h (Nat.lt_irrefl _)⟩
  | v :: vs, acc => by
    by_cases h : acc < amount
    · obtain ⟨j, hj, ht, hs, hlt, hge⟩ := greedy_prefix amount vs (intAdd acc v)
      refine ⟨j + 1, by simp; omega, ?_, ?_, ?_, ?_⟩
      · simp only [greedyTake, h, if_true, ht, List.take_succ_cons]
      · simp only [greedySum, h, if_true, hs, List.take_succ_cons, List.foldl_cons]
      · intro i hi
        cases i with
        | zero => simpa using h
        | succ i1 =>
          have := hlt i1 (by omega)
          simpa only [List.take_succ_cons, List.foldl_cons] using this
      · intro hjl
        have := hge (by simpa using hjl)
        simpa only [List.take_succ_cons, List.foldl_cons] using this
    · refine ⟨0, Nat.zero_le _, ?_, ?_, fun i hi => absurd hi (Nat.not_lt_zero i), fun _ => ?_⟩
      · simp [greedyTake, h]
      · simp [greedySum, h]
      · simp only [List.take_zero, List.foldl_nil]
        omega

theorem foldl_intAdd_eq_sum :
    ∀ (vals : List Int) (acc : Int) (m : Nat),
      (∀ i, i ≤ m → i ≤ vals.length →
        -2 ^ 63 ≤ acc + (vals.take i).sum ∧ acc + (vals.take i).sum < 2 ^ 63) →
      (vals.take m).foldl intAdd acc = acc + (vals.take m).sum
  | [], acc, m, _ => by simp
  | v :: vs, acc, 0, _ => by simp
  | v :: vs, acc, m + 1, hfit => by
    have h1 := hfit 1 (by omega) (by simp)
    simp only [List.take_succ_cons, List.take_zero, List.sum_cons, List.sum_nil,
      Int.add_zero] at h1
    have hadd : intAdd acc v = acc + v := intAdd_eq acc v h1.1 h1.2
    have hfit1 : ∀ i, i ≤ m → i ≤ vs.length →
        -2 ^ 63 ≤ acc + v + (vs.take i).sum ∧ acc + v + (vs.take i).sum < 2 ^ 63 := by
      intro i hi hil
      have := hfit (i + 1) (by omega) (by simp; omega)
      simp only [List.take_succ_cons, List.sum_cons] at this
      omega
    rw [List.take_succ_cons, List.foldl_cons, hadd,
      foldl_intAdd_eq_sum vs (acc + v) m hfit1, List.sum_cons]
    omega

theorem selectOutputsTrace_selection (pubKeyHash : Bytes) (amount : Int) (key : String) :
    ∀ (outs : List TxOutput) (n : Nat) (s : SelectionTrace),
      (selectOutputsTrace pubKeyHash amount key n outs s).selection =
        selectOutputs pubKeyHash amount key n outs s.selection
  | [], _, _ => rfl
  | out :: rest, n, s => by
    rw [selectOutputsTrace, selectOutputs]
    by_cases hc : (out.IsLockedWithKey pubKeyHash &&
        decide (s.selection.accumulated < amount)) = true
    · simp only [hc, if_true]
      by_cases hover : intAdd s.selection.accumulated out.Value > amount
      · simp only [hover, if_true]
      · simp only [hover, if_false]
        exact selectOutputsTrace_selection pubKeyHash amount key rest (n + 1) _
    · simp only [hc, if_false, Bool.false_eq_true]
      exact selectOutputsTrace_selection pubKeyHash amount key rest (n + 1) s

theorem selectTxsTrace_selection (pubKeyHash : Bytes) (amount : Int) :
    ∀ (txs : List Transaction) (s : SelectionTrace),
      (selectTxsTrace pubKeyHash amount txs s).selection =
        selectTxs pubKeyHash amount txs s.selection
  | [], _ => rfl
  | tx :: rest, s => by
    have h1 := selectOutputsTrace_selection pubKeyHash amount (EncodeToString tx.ID)
      tx.Outputs 0 s
    rw [selectTxsTrace, selectTxs]
    simp only [h1]
    cases hst : (selectOutputs pubKeyHash amount (EncodeToString tx.ID) 0 tx.Outputs
        s.selection).stopped with
    | true =>
      simp only [if_true]
      exact h1
    | false =>
      simp only [Bool.false_eq_true, if_false]
      rw [selectTxsTrace_selection pubKeyHash amount rest, h1]

theorem lockedValues_cons (pubKeyHash : Bytes) (out : TxOutput) (rest : List TxOutput) :
    ((out :: rest).filter (fun o => o.IsLockedWithKey pubKeyHash)).map TxOutput.Value =
      if out.IsLockedWithKey pubKeyHash = true then
        out.Value :: (rest.filter (fun o => o.IsLockedWithKey pubKeyHash)).map TxOutput.Value
      else (rest.filter (fun o => o.IsLockedWithKey pubKeyHash)).map TxOutput.Value := by
  rw [List.filter_cons]
  split <;> rfl

theorem selectOutputsTrace_greedy (pubKeyHash : Bytes) (amount : Int) (key : String) :
    ∀ (outs : List TxOutput) (n : Nat) (s : SelectionTrace),
      (selectOutputsTrace pubKeyHash amount key n outs s).added =
          s.added ++ greedyTake amount s.selection.accumulated
            ((outs.filter (fun o => o.IsLockedWithKey pubKeyHash)).map TxOutput.Value) ∧
        (selectOutputsTrace pubKeyHash amount key n outs s).selection.accumulated =
          greedySum amount s.selection.accumulated
            ((outs.filter (fun o => o.IsLockedWithKey pubKeyHash)).map TxOutput.Value) ∧
        (s.selection.stopped = false →
          (selectOutputsTrace pubKeyHash amount key n outs s).selection.stopped = true →
          amount < (selectOutputsTrace pubKeyHash amount key n outs s).selection.accumulated)
  | [], _, s => by
    refine ⟨by simp [selectOutputsTrace, greedyTake], by simp [selectOutputsTrace, greedySum],
      fun h0 h1 => ?_⟩
    rw [selectOutputsTrace, h0] at h1
    exact absurd h1 (by simp)
  | out :: rest, n, s => by
    rw [selectOutputsTrace, lockedValues_cons]
    by_cases hl : out.IsLockedWithKey pubKeyHash = true
    · by_cases hlt : s.selection.accumulated < amount
      · simp only [hl, hlt, decide_True, Bool.and_self, if_true, greedyTake, greedySum]
        by_cases hover : intAdd s.selection.accumulated out.Value > amount
        · have hfro : ¬ intAdd s.selection.accumulated out.Value < amount :=
            not_lt.2 (le_of_lt hover)
          simp only [hover, if_true, greedyTake_frozen amount _ _ hfro,
            greedySum_frozen amount _ _ hfro, and_self, implies_true]
        · simp only [hover, if_false]
          obtain ⟨h1, h2, h3⟩ := selectOutputsTrace_greedy pubKeyHash amount key rest (n + 1)
            { selection :=
                { accumulated := intAdd s.selection.accumulated out.Value,
                  unspentOuts := s.selection.unspentOuts.append key n, stopped := false },
              added := s.added ++ [out.Value] }
          refine ⟨?_, h2, fun _ => h3 rfl⟩
          rw [h1, List.append_assoc]
          rfl
      · simp only [hl, hlt, decide_False, Bool.and_false, Bool.false_eq_true, if_false,
          if_true, greedyTake, greedySum]
        obtain ⟨h1, h2, h3⟩ := selectOutputsTrace_greedy pubKeyHash amount key rest (n + 1) s
        rw [greedyTake_frozen amount _ _ hlt] at h1
        rw [greedySum_frozen amount _ _ hlt] at h2
        exact ⟨h1, h2, h3⟩
    · simp only [hl, Bool.false_and, Bool.false_eq_true, if_false]
      exact selectOutputsTrace_greedy pubKeyHash amount key rest (n + 1) s

theorem utxoValues_cons (pubKeyHash : Bytes) (tx : Transaction) (rest : List Transaction) :
    utxoValues pubKeyHash (tx :: rest) =
      (tx.Outputs.filter (fun out => out.IsLockedWithKey pubKeyHash)).map TxOutput.Value ++
        utxoValues pubKeyHash rest := by
  simp [utxoValues, collectUTXO]

theorem selectTxsTrace_greedy (pubKeyHash : Bytes) (amount : Int) :
    ∀ (txs : List Transaction) (s : SelectionTrace), s.selection.stopped = false →
      (selectTxsTrace pubKeyHash amount txs s).added =
          s.added ++ greedyTake amount s.selection.accumulated (utxoValues pubKeyHash txs) ∧
        (selectTxsTrace pubKeyHash amount txs s).selection.accumulated =
          greedySum amount s.selection.accumulated (utxoValues pubKeyHash txs)
  | [], s, _ => by
    simp [selectTxsTrace, utxoValues, collectUTXO, greedyTake, greedySum]
  | tx :: rest, s, hs => by
    obtain ⟨h1, h2, h3⟩ := selectOutputsTrace_greedy pubKeyHash amount (EncodeToString tx.ID)
      tx.Outputs 0 s
    rw [selectTxsTrace, utxoValues_cons, greedyTake_append, greedySum_append]
    cases hst : (selectOutputsTrace pubKeyHash amount (EncodeToString tx.ID) 0 tx.Outputs
        s).selection.stopped with
    | true =>
      simp only [if_true]
      have hfro : ¬ greedySum amount s.selection.accumulated
          ((tx.Outputs.filter (fun out => out.IsLockedWithKey pubKeyHash)).map
            TxOutput.Value) < amount := by
        rw [← h2]
        exact not_lt.2 (le_of_lt (h3 hs hst))
      rw [greedyTake_frozen amount _ _ hfro, greedySum_frozen amount _ _ hfro,
        List.append_nil]
      exact ⟨h1, h2⟩
    | false =>
      simp only [Bool.false_eq_true, if_false]
      obtain ⟨r1, r2⟩ := selectTxsTrace_greedy pubKeyHash amount rest _ hst
      rw [r1, r2, h1, h2, List.append_assoc]
      exact ⟨rfl, rfl⟩

theorem selectOutputsNoBreak_frozen (pubKeyHash : Bytes) (amount : Int) (key : String) :
    ∀ (outs : List TxOutput) (n : Nat) (s : Selection), ¬ s.accumulated < amount →
      selectOutputsNoBreak pubKeyHash amount key n outs s = s
  | [], _, _, _ => rfl
  | out :: rest, n, s, h => by
    rw [selectOutputsNoBreak]
    simp only [h, decide_False, Bool.and_false, Bool.false_eq_true, if_false]
    exact selectOutputsNoBreak_frozen pubKeyHash amount key rest (n + 1) s h

theorem selectTxsNoBreak_frozen (pubKeyHash : Bytes) (amount : Int) :
    ∀ (txs : List Transaction) (s : Selection), ¬ s.accumulated < amount →
      selectTxsNoBreak pubKeyHash amount txs s = s
  | [], _, _ => rfl
  | tx :: rest, s, h => by
    rw [selectTxsNoBreak, selectOutputsNoBreak_frozen pubKeyHash amount _ tx.Outputs 0 s h]
    exact selectTxsNoBreak_frozen pubKeyHash amount rest s h

theorem selectOutputs_stopped (pubKeyHash : Bytes) (amount : Int) (key : String)
    (outs : List TxOutput) (n : Nat) (s : Selection) (hs : s.stopped = false)
    (hst : (selectOutputs pubKeyHash amount key n outs s).stopped = true) :
    amount < (selectOutputs pubKeyHash amount key n outs s).accumulated := by
  have h := (selectOutputsTrace_greedy pubKeyHash amount key outs n
    { selection := s, added := [] }).2.2
  rw [selectOutputsTrace_selection] at h
  exact h hs hst

theorem selectOutputsNoBreak_eq (pubKeyHash : Bytes) (amount : Int) (key : String) :
    ∀ (outs : List TxOutput) (n : Nat) (s s1 : Selection),
      s1.accumulated = s.accumulated → s1.unspentOuts = s.unspentOuts →
      (selectOutputsNoBreak pubKeyHash amount key n outs s1).accumulated =
          (selectOutputs pubKeyHash amount key n outs s).accumulated ∧
        (selectOutputsNoBreak pubKeyHash amount key n outs s1).unspentOuts =
          (selectOutputs pubKeyHash amount key n outs s).unspentOuts
  | [], _, _, _, h1, h2 => ⟨h1, h2⟩
  | out :: rest, n, s, s1, h1, h2 => by
    rw [selectOutputsNoBreak, selectOutputs, h1, h2]
    by_cases hc : (out.IsLockedWithKey pubKeyHash && decide (s.accumulated < amount)) = true
    · simp only [hc, if_true]
      by_cases hover : intAdd s.accumulated out.Value > amount
      · simp only [hover, if_true]
        rw [selectOutputsNoBreak_frozen pubKeyHash amount key rest (n + 1) _
          (not_lt.2 (le_of_lt hover))]
        exact ⟨rfl, rfl⟩
      · simp only [hover, if_false]
        exact selectOutputsNoBreak_eq pubKeyHash amount key rest (n + 1) _ _ rfl rfl
    · simp only [hc, if_false, Bool.false_eq_true]
      exact selectOutputsNoBreak_eq pubKeyHash amount key rest (n + 1) s s1 h1 h2

theorem selectTxsNoBreak_eq (pubKeyHash : Bytes) (amount : Int) :
    ∀ (txs : List Transaction) (s s1 : Selection), s.stopped = false →
      s1.accumulated = s.accumulated → s1.unspentOuts = s.unspentOuts →
      (selectTxsNoBreak pubKeyHash amount txs s1).accumulated =
          (selectTxs pubKeyHash amount txs s).accumulated ∧
        (selectTxsNoBreak pubKeyHash amount txs s1).unspentOuts =
          (selectTxs pubKeyHash amount txs s).unspentOuts
  | [], _, _, _, h1, h2 => ⟨h1, h2⟩
  | tx :: rest, s, s1, hs, h1, h2 => by
    obtain ⟨e1, e2⟩ := selectOutputsNoBreak_eq pubKeyHash amount (EncodeToString tx.ID)
      tx.Outputs 0 s s1 h1 h2
    rw [selectTxsNoBreak, selectTxs]
    cases hst : (selectOutputs pubKeyHash amount (EncodeToString tx.ID) 0 tx.Outputs
        s).stopped with
    | true =>
      simp only [if_true]
      have hover := selectOutputs_stopped pubKeyHash amount _ tx.Outputs 0 s hs hst
      rw [selectTxsNoBreak_frozen pubKeyHash amount rest _
        (by rw [e1]; exact not_lt.2 (le_of_lt hover))]
      exact ⟨e1, e2⟩
    | false =>
      simp only [Bool.false_eq_true, if_false]
      exact selectTxsNoBreak_eq pubKeyHash amount rest _ _ hst e1 e2

/-- C19: the values that `FindSpendableOutput` adds are the shortest prefix of the value
sequence of `FindUTXO` whose sum reaches `amount`, or the whole sequence when no prefix
does; the accumulated amount is the sum of that prefix (with nothing selected when
`amount ≤ 0`); and the loop without `break Work` returns the same pair. Sums are the sums
that `accumulated += out.Value` computes, in 64-bit Go `int` arithmetic; they are the exact
sums of every prefix whose partial sums stay in the 64-bit range. -/
theorem FindSpendableOutput_selects_shortest_prefix (E : Ext) (chain : Blockchain)
    (fuel : Nat) (pubKeyHash : Bytes) (amount : Int) (unspentTxs : List Transaction)
    (hscan : chain.FindUnspentTransactions E fuel pubKeyHash = some (.ok unspentTxs)) :
    ∃ utxos acc sel j,
      chain.FindUTXO E fuel pubKeyHash = some (.ok utxos) ∧
      utxos.map TxOutput.Value = utxoValues pubKeyHash unspentTxs ∧
      chain.FindSpendableOutput E fuel pubKeyHash amount = some (.ok (acc, sel)) ∧
      (selectTxsTrace pubKeyHash amount unspentTxs
        { selection := { accumulated := 0, unspentOuts := fun _ => [], stopped := false },
          added := [] }).selection =
        selectTxs pubKeyHash amount unspentTxs
          { accumulated := 0, unspentOuts := fun _ => [], stopped := false } ∧
      j ≤ (utxoValues pubKeyHash unspentTxs).length ∧
      (selectTxsTrace pubKeyHash amount unspentTxs
        { selection := { accumulated := 0, unspentOuts := fun _ => [], stopped := false },
          added := [] }).added = (utxoValues pubKeyHash unspentTxs).take j ∧
      acc = intSum ((utxoValues pubKeyHash unspentTxs).take j) ∧
      (∀ i, i < j → intSum ((utxoValues pubKeyHash unspentTxs).take i) < amount) ∧
      (j < (utxoValues pubKeyHash unspentTxs).length →
        amount ≤ intSum ((utxoValues pubKeyHash unspentTxs).take j)) ∧
      (amount ≤ 0 → acc = 0 ∧ ∀ key, sel key = []) ∧
      (selectTxsNoBreak pubKeyHash amount unspentTxs
        { accumulated := 0, unspentOuts := fun _ => [], stopped := false }).accumulated =
        acc ∧
      (selectTxsNoBreak pubKeyHash amount unspentTxs
        { accumulated := 0, unspentOuts := fun _ => [], stopped := false }).unspentOuts =
        sel ∧
      ∀ m, m ≤ (utxoValues pubKeyHash unspentTxs).length →
        (∀ i, i ≤ m → -2 ^ 63 ≤ ((utxoValues pubKeyHash unspentTxs).take i).sum ∧
          ((utxoValues pubKeyHash unspentTxs).take i).sum < 2 ^ 63) →
        intSum ((utxoValues pubKeyHash unspentTxs).take m) =
          ((utxoValues pubKeyHash unspentTxs).take m).sum := by
  have herase := selectTxsTrace_selection pubKeyHash amount unspentTxs
    { selection := { accumulated := 0, unspentOuts := fun _ => [], stopped := false },
      added := [] }
  obtain ⟨hadded, hacc⟩ := selectTxsTrace_greedy pubKeyHash amount unspentTxs
    { selection := { accumulated := 0, unspentOuts := fun _ => [], stopped := false },
      added := [] } rfl
  obtain ⟨j, hj, htake, hsum, hbelow, hreach⟩ :=
    greedy_prefix amount (utxoValues pubKeyHash unspentTxs) 0
  simp only [List.nil_append] at hadded
  rw [herase] at hacc
  obtain ⟨hnb1, hnb2⟩ := selectTxsNoBreak_eq pubKeyHash amount unspentTxs
    { accumulated := 0, unspentOuts := fun _ => [], stopped := false }
    { accumulated := 0, unspentOuts := fun _ => [], stopped := false } rfl rfl rfl
  refine ⟨collectUTXO pubKeyHash unspentTxs,
    (selectTxs pubKeyHash amount unspentTxs
      { accumulated := 0, unspentOuts := fun _ => [], stopped := false }).accumulated,
    (selectTxs pubKeyHash amount unspentTxs
      { accumulated := 0, unspentOuts := fun _ => [], stopped := false }).unspentOuts,
    j, ?_, rfl, ?_, herase, hj, ?_, ?_, hbelow, hreach, ?_, hnb1, hnb2, ?_⟩
  · simp only [Blockchain.FindUTXO, hscan]
  · simp only [Blockchain.FindSpendableOutput, hscan]
  · rw [hadded, htake]
  · rw [hacc, hsum]
    rfl
  · intro hle
    rw [selectTxs_frozen pubKeyHash amount unspentTxs _ (by simpa using hle)]
    exact ⟨rfl, fun _ => rfl⟩
  · intro m _ hfit
    have h := foldl_intAdd_eq_sum (utxoValues pubKeyHash unspentTxs) 0 m (by
      intro i hi _
      rw [Int.zero_add]
      exact hfit i hi)
    rw [Int.zero_add] at h
    exact h

/-- The run of C19 on the sample ledger extended by the block holding `Sample.pay`, for the
key of `"A"` and the amount 71: the value 70 is added. -/
theorem FindSpendableOutput_selects_shortest_prefix_witness :
    (Sample.ledger [[Sample.pay]]).FindUnspentTransactions Sample.ext 2 Sample.keyA =
        some (.ok [Sample.pay]) ∧
      utxoValues Sample.keyA [Sample.pay] = [70] ∧
      ∃ acc sel, (Sample.ledger [[Sample.pay]]).FindSpendableOutput Sample.ext 2
          Sample.keyA 71 = some (.ok (acc, sel)) ∧ acc = 70 := by
  refine ⟨rfl, by decide, ?_⟩
  obtain ⟨_, acc, sel, j, _, _, h3, _, h5, _, h7, _, h9, _⟩ :=
    FindSpendableOutput_selects_shortest_prefix Sample.ext (Sample.ledger [[Sample.pay]]) 2
      Sample.keyA 71 [Sample.pay] rfl
  refine ⟨acc, sel, h3, ?_⟩
  have hv : utxoValues Sample.keyA [Sample.pay] = [70] := by decide
  rw [hv] at h5 h7 h9
  match j, h5 with
  | 0, _ => exact absurd (h9 (by decide)) (by decide)
  | 1, _ =>
    rw [h7]
    decide

/-- An overflowing run of the selection: on the sample ledger extended by the block
holding `Sample.rich1` and then by the block holding `Sample.rich2`, `FindUTXO` for `"A"`
returns two outputs of value `2 ^ 62`, and for the amount `2 ^ 62 + 1` both are added and
the accumulated amount of `FindSpendableOutput` is their 64-bit sum `-2 ^ 63`. -/
theorem FindSpendableOutput_wraps_around :
    buildChain Sample.ext "A" [[Sample.rich1], [Sample.rich2]] =
        .ok (Sample.ledger [[Sample.rich1], [Sample.rich2]]) ∧
      (Sample.ledger [[Sample.rich1], [Sample.rich2]]).FindUTXO Sample.ext 3 Sample.keyA =
        some (.ok [{ Value := 4611686018427387904, PubKeyHash := Sample.keyA },
          { Value := 4611686018427387904, PubKeyHash := Sample.keyA }]) ∧
      ∃ acc sel,
        (Sample.ledger [[Sample.rich1], [Sample.rich2]]).FindSpendableOutput Sample.ext 3
          Sample.keyA 4611686018427387905 = some (.ok (acc, sel)) ∧
        acc = -9223372036854775808 ∧
        acc = intSum [4611686018427387904, 4611686018427387904] ∧
        intSum [4611686018427387904] < 4611686018427387905 := by
  refine ⟨rfl, rfl, _, _, rfl, by decide, by decide, by decide⟩

end Ledger
